import Mathlib

/-!
# SatSolver2: a backtracking SAT search over a graph-colouring encoding

A shallow embedding of `src/SatSolver2.c` and theorems about it.

Modelling conventions.
* C `int` values are `Int` and arithmetic is exact; the fixed-size buffers of the source
  are modelled where a function indexes them (`graph_to_cnf`, `print_coloring`); the
  literals that `graph_to_cnf` computes are wrapped to 32 bits (`wrap_int`).
* An array together with its length field is a `List`
  (`Clause.literals` / `size`, `Formula.clauses` / `num_clauses`).
* A pointer `AssignNode *` is either `NULL` or a node; a node is given by its
  `var`, its `value` and its `parent` pointer, so a pointer carries the whole
  ancestor chain.  The downward links `left` / `right`, which the search only
  writes, are returned by `sat_tree` as an explored `Tree`.
* `sat_tree` is recursive; the embedding takes a recursion budget and returns
  `none` when the budget is used up.  A budget above `num_vars` is always enough
  (`sat_tree_terminates_any`).
* `NULL` ends a parent chain and is the content of an unset `*solution`; the search is
  called on nodes.
-/

namespace SatSolver2

/-! ## Constants -/

/-- Capacity of the `result` table of `print_coloring` (`#define MAX_VARS 1000`). -/
def MAX_VARS : Int := 1000

/-- Capacity of the clause array (`#define MAX_CLAUSES 10000`). -/
def MAX_CLAUSES : Int := 10000

/-- Declared vertex limit (`#define MAX_VERTICES 100`); no function reads it. -/
def MAX_VERTICES : Int := 100

/-- Capacity of the edge array (`#define MAX_EDGES 1000`). -/
def MAX_EDGES : Int := 1000

/-- Declared colour limit (`#define MAX_COLORS 10`); no function reads it. -/
def MAX_COLORS : Int := 10

/-! ## Data model -/

/-- Struct `Clause`: the array `literals` with its length `size`. -/
structure Clause where
  literals : List Int
  deriving DecidableEq, Repr

/-- Field `size` of a clause. -/
def Clause.size (c : Clause) : Int := c.literals.length

/-- Struct `Formula`: the array `clauses` with its length `num_clauses`, and `num_vars`. -/
structure Formula where
  clauses : List Clause
  num_vars : Int
  deriving DecidableEq, Repr

/-- Field `num_clauses` of a formula. -/
def Formula.num_clauses (F : Formula) : Int := F.clauses.length

/-- A pointer to a struct `AssignNode`: `NULL`, or a node with its `var`, `value` and
`parent` pointer. -/
inductive AssignNode where
  | NULL : AssignNode
  | node (var value : Int) (parent : AssignNode) : AssignNode
  deriving DecidableEq, Repr

/-- The downward links of the assignment tree: `NULL`, or a node with its `var`, `value`
and its `left` and `right` subtrees. -/
inductive Tree where
  | NULL : Tree
  | node (var value : Int) (left right : Tree) : Tree
  deriving DecidableEq, Repr

/-- Function `create_node`: a fresh node with the given fields (its `left` and `right` are
`NULL`). -/
def create_node (var value : Int) (parent : AssignNode) : AssignNode :=
  AssignNode.node var value parent

/-- The root that `main` creates: `create_node(0, 0, NULL)`. -/
def fresh_root : AssignNode := create_node 0 0 AssignNode.NULL

/-! ## Evaluator -/

/-- Function `get_assignment`: walk the parent chain, return the value of the first node
whose `var` matches, `0` when the chain ends. -/
def get_assignment : AssignNode → Int → Int
  | AssignNode.NULL, _ => 0
  | AssignNode.node v value parent, x => if v = x then value else get_assignment parent x

/-- Function `eval_literal`. -/
def eval_literal (node : AssignNode) (lit : Int) : Bool :=
  let v : Int := lit.natAbs
  let val := get_assignment node v
  if val = 0 then false
  else (decide (lit > 0) && decide (val = 1)) || (decide (lit < 0) && decide (val = -1))

/-- The loop of `is_clause_satisfied` over the remaining literals. -/
def is_clause_satisfied_loop (node : AssignNode) : List Int → Bool
  | [] => false
  | lit :: rest => if eval_literal node lit then true else is_clause_satisfied_loop node rest

/-- Function `is_clause_satisfied`. -/
def is_clause_satisfied (_F : Formula) (clause : Clause) (node : AssignNode) : Bool :=
  is_clause_satisfied_loop node clause.literals

/-- The loop of `is_clause_unsatisfiable` over the remaining literals: `false` as soon as a
literal's variable is unassigned, `true` when the loop runs to its end. -/
def all_assigned_loop (node : AssignNode) : List Int → Bool
  | [] => true
  | lit :: rest =>
    if get_assignment node (lit.natAbs : Int) = 0 then false else all_assigned_loop node rest

/-- Function `is_clause_unsatisfiable`. -/
def is_clause_unsatisfiable (F : Formula) (clause : Clause) (node : AssignNode) : Bool :=
  if all_assigned_loop node clause.literals then !(is_clause_satisfied F clause node)
  else false

/-! ## Search -/

/-- The clause scan at the head of `sat_tree`: `none` when a clause is falsified (the early
`return false`), otherwise the final value of `all_satisfied`. -/
def scan_clauses (F : Formula) (node : AssignNode) : List Clause → Bool → Option Bool
  | [], all_satisfied => some all_satisfied
  | c :: rest, all_satisfied =>
    if is_clause_unsatisfiable F c node then none
    else if !(is_clause_satisfied F c node) then scan_clauses F node rest false
    else scan_clauses F node rest all_satisfied

/-- The variable loop of `sat_tree`: starting at `i` with `k` iterations left, the first
`i` with `get_assignment(node, i) == 0`. -/
def first_unassigned (node : AssignNode) : Int → Nat → Option Int
  | _, 0 => none
  | i, k + 1 => if get_assignment node i = 0 then some i else first_unassigned node (i + 1) k

/-- What a call of `sat_tree` leaves behind: the returned flag, the content of `*solution`,
and the subtrees the call has hung at `node->left` and `node->right` (`NULL` where it has
stored nothing, as in a node fresh from `create_node`). -/
structure SatResult where
  ret : Bool
  solution : AssignNode
  left : Tree
  right : Tree
  deriving DecidableEq, Repr

/-- Function `sat_tree`.  The first argument bounds the recursion depth; `solution` is the
content of `*solution` at entry.  The result is `none` when the depth bound is used up, and
when the call would store `node->right` through a null `node`. -/
def sat_tree : Nat → Formula → AssignNode → AssignNode → Option SatResult
  | 0, _, _, _ => none
  | fuel + 1, F, node, solution =>
    match scan_clauses F node F.clauses true with
    | none => some ⟨false, solution, Tree.NULL, Tree.NULL⟩
    | some true => some ⟨true, node, Tree.NULL, Tree.NULL⟩
    | some false =>
      match first_unassigned node 1 F.num_vars.toNat with
      | none => some ⟨false, solution, Tree.NULL, Tree.NULL⟩
      | some i =>
        if node = AssignNode.NULL then none
        else
          match sat_tree fuel F (create_node i 1 node) solution with
          | none => none
          | some r1 =>
            if r1.ret then some ⟨true, r1.solution, Tree.NULL, Tree.node i 1 r1.left r1.right⟩
            else
              match sat_tree fuel F (create_node i (-1) node) r1.solution with
              | none => none
              | some r2 =>
                some ⟨r2.ret, r2.solution, Tree.node i (-1) r2.left r2.right,
                  Tree.node i 1 r1.left r1.right⟩

/-! ## Encoder -/

/-- A counting loop `for (i = start; ...; i++)` with `k` iterations left, threading the
state that the body updates. -/
def for_loop_from {σ : Type} (body : Int → σ → σ) : Int → Nat → σ → σ
  | _, 0, s => s
  | i, k + 1, s => for_loop_from body (i + 1) k (body i s)

/-- The loop `for (i = lo; i <= hi; i++)`. -/
def for_loop {σ : Type} (lo hi : Int) (body : Int → σ → σ) (s : σ) : σ :=
  for_loop_from body lo (hi + 1 - lo).toNat s

/-- Function `var`. -/
def var (vertice cor total_cor : Int) : Int := (vertice - 1) * total_cor + cor

/-- The value a C `int` holds for the exact result `x`: wrap-around to 32 bits, two's
complement. -/
def wrap_int (x : Int) : Int := (x + 2147483648) % 4294967296 - 2147483648

/-- The three loop nests of `graph_to_cnf` (lines 157 to 194) on the values it has read: the
vertex count, the edge array and the colour count.  A clause is appended by
`F->clauses[F->num_clauses++] = c`, a literal by `c.literals[c.size++] = ...`.  Every
literal is an `int`: `wrap_int (var i j total_cor)` is the value of the call
`var(i, j, total_cor)` and `wrap_int (-wrap_int (var i j total_cor))` the value of
`-var(i, j, total_cor)`.  The loop counters stay below `INT_MAX` in every run that keeps
inside the clause array. -/
def build_clauses (Vertice : Int) (edges : List (Int × Int)) (total_cor : Int) :
    List Clause :=
  let clauses0 : List Clause := []
  let clauses1 :=
    for_loop 1 Vertice (fun i cls =>
      let c : Clause :=
        ⟨for_loop 1 total_cor (fun j lits => lits ++ [wrap_int (var i j total_cor)]) []⟩
      cls ++ [c]) clauses0
  let clauses2 :=
    for_loop 1 Vertice (fun i cls =>
      for_loop 1 total_cor (fun j cls =>
        for_loop (j + 1) total_cor (fun l cls =>
          cls ++ [(⟨[wrap_int (-wrap_int (var i j total_cor)),
            wrap_int (-wrap_int (var i l total_cor))]⟩ : Clause)]) cls) cls) clauses1
  edges.foldl (fun cls e =>
    for_loop 1 total_cor (fun j cls =>
      cls ++ [(⟨[wrap_int (-wrap_int (var e.1 j total_cor)),
        wrap_int (-wrap_int (var e.2 j total_cor))]⟩ : Clause)]) cls) clauses2

/-- How a run of `graph_to_cnf` ends. -/
inductive EncoderOutcome where
  /-- The `exit(1)` after a failed `fopen`. -/
  | fatal : EncoderOutcome
  /-- A store past the end of `edges[MAX_EDGES]` or of the `MAX_CLAUSES` clause slots. -/
  | overrun : EncoderOutcome
  /-- Normal return with the formula stored in `*F`. -/
  | formula (F : Formula) : EncoderOutcome
  deriving DecidableEq, Repr

/-- Function `graph_to_cnf` (lines 135 to 199).  `file` is `none` when the file cannot be
opened, otherwise the vertex count and the edge pairs read from it; `total_cor` is the
number read from the prompt.  The edge pairs are stored in `edges[MAX_EDGES]` and the
clauses in the `MAX_CLAUSES` slots of `F->clauses`; a run that stores more than either
holds ends in `overrun`.  `F->num_vars` is the `int` product `Vertice * total_cor`. -/
def graph_to_cnf (file : Option (Int × List (Int × Int))) (total_cor : Int) :
    EncoderOutcome :=
  match file with
  | none => EncoderOutcome.fatal
  | some (Vertice, edges) =>
    if (edges.length : Int) > MAX_EDGES then EncoderOutcome.overrun
    else if ((build_clauses Vertice edges total_cor).length : Int) > MAX_CLAUSES then
      EncoderOutcome.overrun
    else
      EncoderOutcome.formula
        ⟨build_clauses Vertice edges total_cor, wrap_int (Vertice * total_cor)⟩

/-! ## Reporter -/

/-- The first loop of `print_coloring`: walk up to the root and store each value in
`result`.  `none` is a write outside `result[0 .. MAX_VARS]`. -/
def fill_result : AssignNode → (Int → Int) → Option (Int → Int)
  | AssignNode.NULL, result => some result
  | AssignNode.node v value parent, result =>
    if v = 0 then some result
    else if 0 ≤ v ∧ v ≤ MAX_VARS then
      fill_result parent (fun x => if x = v then value else result x)
    else none

/-- The inner loop of `print_coloring` for vertex `i`, at colour `j` with `k` iterations
left: the colour at which the loop prints and breaks, if any.  The outer `none` is a read
outside `result[0 .. MAX_VARS]`. -/
def find_color (result : Int → Int) (i total_cor : Int) : Int → Nat → Option (Option Int)
  | _, 0 => some none
  | j, k + 1 =>
    let var_num := (i - 1) * total_cor + j
    if 0 ≤ var_num ∧ var_num ≤ MAX_VARS then
      if result var_num = 1 then some (some j)
      else find_color result i total_cor (j + 1) k
    else none

/-- The outer loop of `print_coloring`, at vertex `i` with `k` iterations left: the printed
lines, each as the pair (vertex, colour). -/
def print_loop (result : Int → Int) (total_cor : Int) : Int → Nat → Option (List (Int × Int))
  | _, 0 => some []
  | i, k + 1 =>
    match find_color result i total_cor 1 total_cor.toNat with
    | none => none
    | some none => print_loop result total_cor (i + 1) k
    | some (some j) =>
      match print_loop result total_cor (i + 1) k with
      | none => none
      | some lines => some ((i, j) :: lines)

/-- Function `print_coloring`: the lines it prints, or `none` when an index leaves the
`result` table. -/
def print_coloring (node : AssignNode) (total_vert total_cor : Int) :
    Option (List (Int × Int)) :=
  match fill_result node (fun _ => 0) with
  | none => none
  | some result => print_loop result total_cor 1 total_vert.toNat

/-! ## Notions the specification uses -/

/-- The ancestor chain of a node as the list of its `(var, value)` pairs, nearest first. -/
def chain : AssignNode → List (Int × Int)
  | AssignNode.NULL => []
  | AssignNode.node v value parent => (v, value) :: chain parent

/-- The lookup as the specification words it: the value at the nearest node of the chain
whose variable is `x`, and `0` when there is none. -/
def nearest_binding (n : AssignNode) (x : Int) : Int :=
  match (chain n).find? (fun p => decide (p.1 = x)) with
  | some p => p.2
  | none => 0

/-- A literal is true under a total assignment: a positive literal when its variable is
true, a negative literal when its variable is false. -/
def lit_true (α : Int → Bool) (lit : Int) : Prop :=
  (lit > 0 ∧ α (lit.natAbs : Int) = true) ∨ (lit < 0 ∧ α (lit.natAbs : Int) = false)

/-- A total assignment makes every clause of the formula contain a true literal. -/
def satisfies (α : Int → Bool) (F : Formula) : Prop :=
  ∀ c ∈ F.clauses, ∃ lit ∈ c.literals, lit_true α lit

/-- A total assignment agrees with a node: a variable the node reads as `+1` is true and a
variable it reads as `-1` is false. -/
def agrees (α : Int → Bool) (n : AssignNode) : Prop :=
  ∀ x : Int, (get_assignment n x = 1 → α x = true) ∧ (get_assignment n x = -1 → α x = false)

/-- The Formula invariant: every literal is non-zero and its magnitude is in
`[1, num_vars]`. -/
def formula_inv (F : Formula) : Prop :=
  ∀ c ∈ F.clauses, ∀ lit ∈ c.literals,
    lit ≠ 0 ∧ 1 ≤ (lit.natAbs : Int) ∧ (lit.natAbs : Int) ≤ F.num_vars

/-- Every clause of the formula is satisfied at the node. -/
def all_satisfied_at (F : Formula) (n : AssignNode) : Prop :=
  ∀ c ∈ F.clauses, is_clause_satisfied F c n = true

/-- Every variable reads as `0`, `+1` or `-1` at the node, as at every node the search
creates below the root of `main`. -/
def ternary (n : AssignNode) : Prop :=
  ∀ x : Int, get_assignment n x = 0 ∨ get_assignment n x = 1 ∨ get_assignment n x = -1

/-- The integers `lo, lo + 1, ..., hi` in increasing order (none when `hi < lo`). -/
def int_range (lo hi : Int) : List Int :=
  (List.range (hi + 1 - lo).toNat).map (fun (t : Nat) => lo + (t : Int))

/-- Clause family 1 as the specification words it: for each vertex `v` the clause of the
`K` positive literals for `(v, 1..K)`. -/
def at_least_one_color (V K : Int) : List Clause :=
  (int_range 1 V).map (fun v => ⟨(int_range 1 K).map (fun c => var v c K)⟩)

/-- Clause family 2 as the specification words it: for each vertex `v` and each pair of
colours `c1 < c2` the clause `(-var(v,c1), -var(v,c2))`. -/
def at_most_one_color (V K : Int) : List Clause :=
  (int_range 1 V).flatMap (fun v =>
    (int_range 1 K).flatMap (fun c1 =>
      ((int_range 1 K).filter (fun c2 => decide (c1 < c2))).map
        (fun c2 => (⟨[-var v c1 K, -var v c2 K]⟩ : Clause))))

/-- Clause family 3 as the specification words it: for each edge `(u, v)` and each colour
`c` the clause `(-var(u,c), -var(v,c))`. -/
def adjacent_differ (edges : List (Int × Int)) (K : Int) : List Clause :=
  edges.flatMap (fun e =>
    (int_range 1 K).map (fun c => (⟨[-var e.1 c K, -var e.2 c K]⟩ : Clause)))

/-- The formula of a graph as the specification words it: the three clause families, in
this order, over the `V*K` variables `var(v, c, K)`, in exact integers. -/
def coloring_cnf (V : Int) (edges : List (Int × Int)) (K : Int) : Formula :=
  ⟨at_least_one_color V K ++ at_most_one_color V K ++ adjacent_differ edges K, V * K⟩

/-- The shape of a node the search can reach from the root of `main`: below the root
`(0, 0, NULL)` every node binds a variable of `1..N` that its parent leaves unassigned, to
`+1` or `-1`. -/
def bound_path (N : Int) : AssignNode → Prop
  | AssignNode.NULL => False
  | AssignNode.node v value parent =>
    (v = 0 ∧ value = 0 ∧ parent = AssignNode.NULL) ∨
    (1 ≤ v ∧ v ≤ N ∧ (value = 1 ∨ value = -1) ∧ get_assignment parent v = 0 ∧
      bound_path N parent)

/-- The node reached from `n` by a list of decisions `(variable, value)`, first decision
first: each decision creates a child of the node reached so far. -/
def descend (n : AssignNode) : List (Int × Int) → AssignNode
  | [] => n
  | d :: rest => descend (create_node d.1 d.2 n) rest

/-- The full decision tree below `n` over the `k` variables `i, i + 1, ...`, listed in
pre-order with the true child before the false child. -/
def preorder : Nat → Int → AssignNode → List AssignNode
  | 0, _, n => [n]
  | k + 1, i, n =>
    n :: (preorder k (i + 1) (create_node i 1 n) ++ preorder k (i + 1) (create_node i (-1) n))

/-- Every clause of the formula is satisfied at the node, as a test. -/
def all_satisfied_test (F : Formula) (n : AssignNode) : Bool :=
  F.clauses.all (fun c => is_clause_satisfied F c n)

/-- A proper colouring of the graph with vertices `1..V` by the colours `1..K`. -/
def proper_coloring (V : Int) (edges : List (Int × Int)) (K : Int) (col : Int → Int) : Prop :=
  (∀ v, 1 ≤ v → v ≤ V → 1 ≤ col v ∧ col v ≤ K) ∧ ∀ e ∈ edges, col e.1 ≠ col e.2

/-- Every endpoint of every edge is a vertex in `[1, V]`. -/
def edges_in_range (V : Int) (edges : List (Int × Int)) : Prop :=
  ∀ e ∈ edges, (1 ≤ e.1 ∧ e.1 ≤ V) ∧ (1 ≤ e.2 ∧ e.2 ≤ V)

/-- Every decision of the list binds a variable that the node reached so far leaves
unassigned. -/
def fresh_decisions (n : AssignNode) : List (Int × Int) → Prop
  | [] => True
  | d :: rest => get_assignment n d.1 = 0 ∧ fresh_decisions (create_node d.1 d.2 n) rest

/-- The shape of a tree hung by the search below a node at depth `d - 1`: its top node
binds variable `d` with value `val`, and below every node the left child carries `-1` and
the right child `+1`, both for the next variable. -/
def tree_shape (d : Int) (val : Int) : Tree → Prop
  | Tree.NULL => True
  | Tree.node v value left right =>
    v = d ∧ value = val ∧ tree_shape (d + 1) (-1) left ∧ tree_shape (d + 1) 1 right

/-- The paths of a tree: for each of its nodes, the `(var, value)` pairs from the top node
of the tree down to that node. -/
def tree_paths : Tree → List (List (Int × Int))
  | Tree.NULL => []
  | Tree.node v value left right =>
    [(v, value)] :: (tree_paths left ++ tree_paths right).map (fun p => (v, value) :: p)

/-- The number of levels of a tree. -/
def tree_depth : Tree → Nat
  | Tree.NULL => 0
  | Tree.node _ _ left right => max (tree_depth left) (tree_depth right) + 1

/-- Every node of a tree hung at `parent` binds a variable of `1..N` that is unassigned at
the node it hangs at. -/
def binds_unassigned (N : Int) : AssignNode → Tree → Prop
  | _, Tree.NULL => True
  | parent, Tree.node v value left right =>
    1 ≤ v ∧ v ≤ N ∧ get_assignment parent v = 0 ∧
    binds_unassigned N (create_node v value parent) left ∧
    binds_unassigned N (create_node v value parent) right

/-- The number of variables of `1..N` that are unassigned at the node. -/
def unassigned_count (N : Int) (n : AssignNode) : Nat :=
  ((int_range 1 N).filter (fun x => decide (get_assignment n x = 0))).length

/-- The nodes that the first loop of `print_coloring` walks, as `(var, value)` pairs: from
the node upwards, up to the first node with `var == 0`. -/
def walked : AssignNode → List (Int × Int)
  | AssignNode.NULL => []
  | AssignNode.node v value parent => if v = 0 then [] else (v, value) :: walked parent

/-- The value at the walked node farthest from the start whose variable is `x`, and `0`
when no walked node has variable `x`. -/
def farthest_binding (n : AssignNode) (x : Int) : Int :=
  match (walked n).reverse.find? (fun p => decide (p.1 = x)) with
  | some p => p.2
  | none => 0

/-- The chain of the node ends at a root with `var == 0` and no parent, and below the root
it binds only variables of `1..MAX_VARS`, each of them at most once. -/
def binds_once_in_range : AssignNode → Prop
  | AssignNode.NULL => True
  | AssignNode.node v _ parent =>
    (v = 0 ∧ parent = AssignNode.NULL) ∨
    (1 ≤ v ∧ v ≤ MAX_VARS ∧ (∀ p ∈ chain parent, p.1 ≠ v) ∧ binds_once_in_range parent)

/-! # Theorems -/

/-! ## Evaluator -/

theorem eval_literal_eq_true (n : AssignNode) (lit : Int) :
    eval_literal n lit = true ↔
      (lit > 0 ∧ get_assignment n (lit.natAbs : Int) = 1) ∨
      (lit < 0 ∧ get_assignment n (lit.natAbs : Int) = -1) := by
  show (if get_assignment n (lit.natAbs : Int) = 0 then false
    else (decide (lit > 0) && decide (get_assignment n (lit.natAbs : Int) = 1)) ||
      (decide (lit < 0) && decide (get_assignment n (lit.natAbs : Int) = -1))) = true ↔ _
  generalize get_assignment n (lit.natAbs : Int) = val
  by_cases h0 : val = 0
  · simp [h0]
  · simp [h0]

theorem eval_literal_unassigned (n : AssignNode) (lit : Int)
    (h : get_assignment n (lit.natAbs : Int) = 0) : eval_literal n lit = false := by
  cases hb : eval_literal n lit with
  | false => rfl
  | true =>
    rcases (eval_literal_eq_true n lit).1 hb with ⟨_, h1⟩ | ⟨_, h1⟩ <;> omega

theorem is_clause_satisfied_loop_eq_true (n : AssignNode) (lits : List Int) :
    is_clause_satisfied_loop n lits = true ↔ ∃ lit ∈ lits, eval_literal n lit = true := by
  induction lits with
  | nil => simp [is_clause_satisfied_loop]
  | cons l ls ih =>
    by_cases h : eval_literal n l = true
    · simp [is_clause_satisfied_loop, h]
    · simp [is_clause_satisfied_loop, h, ih]

theorem is_clause_satisfied_eq_true (F : Formula) (c : Clause) (n : AssignNode) :
    is_clause_satisfied F c n = true ↔ ∃ lit ∈ c.literals, eval_literal n lit = true :=
  is_clause_satisfied_loop_eq_true n c.literals

theorem all_assigned_loop_eq_true (n : AssignNode) (lits : List Int) :
    all_assigned_loop n lits = true ↔
      ∀ lit ∈ lits, get_assignment n (lit.natAbs : Int) ≠ 0 := by
  induction lits with
  | nil => simp [all_assigned_loop]
  | cons l ls ih =>
    by_cases h : get_assignment n (l.natAbs : Int) = 0
    · simp [all_assigned_loop, h, -Int.natCast_natAbs]
    · simp [all_assigned_loop, h, ih, -Int.natCast_natAbs]

theorem is_clause_unsatisfiable_eq_true (F : Formula) (c : Clause) (n : AssignNode) :
    is_clause_unsatisfiable F c n = true ↔
      (∀ lit ∈ c.literals, get_assignment n (lit.natAbs : Int) ≠ 0) ∧
      (∀ lit ∈ c.literals, eval_literal n lit = false) := by
  unfold is_clause_unsatisfiable is_clause_satisfied
  by_cases ha : all_assigned_loop n c.literals = true
  · have hs := is_clause_satisfied_loop_eq_true n c.literals
    have ha2 := (all_assigned_loop_eq_true n c.literals).1 ha
    rw [if_pos ha]
    constructor
    · intro h
      refine ⟨ha2, ?_⟩
      intro lit hl
      by_contra hne
      have : is_clause_satisfied_loop n c.literals = true :=
        hs.2 ⟨lit, hl, by simpa using hne⟩
      simp [this] at h
    · rintro ⟨_, h2⟩
      have : ¬ is_clause_satisfied_loop n c.literals = true := by
        intro hc
        obtain ⟨lit, hl, ht⟩ := hs.1 hc
        rw [h2 lit hl] at ht
        exact Bool.noConfusion ht
      simpa using this
  · rw [if_neg ha]
    constructor
    · intro h; exact Bool.noConfusion h
    · rintro ⟨h1, _⟩
      exact absurd ((all_assigned_loop_eq_true n c.literals).2 h1) ha

theorem get_assignment_eq_nearest (n : AssignNode) (x : Int) :
    get_assignment n x = nearest_binding n x := by
  induction n with
  | NULL => rfl
  | node v value parent ih =>
    by_cases h : v = x
    · simp [get_assignment, nearest_binding, chain, h]
    · have : nearest_binding (AssignNode.node v value parent) x = nearest_binding parent x := by
        simp [nearest_binding, chain, List.find?, h]
      rw [this, ← ih]
      simp [get_assignment, h]

theorem get_assignment_of_split (n : AssignNode) (x val : Int) :
    ∀ (pre post : List (Int × Int)), chain n = pre ++ (x, val) :: post →
      (∀ p ∈ pre, p.1 ≠ x) → get_assignment n x = val := by
  induction n with
  | NULL => intro pre post h; simp [chain] at h
  | node v value parent ih =>
    intro pre post h hpre
    cases pre with
    | nil =>
      simp only [chain, List.nil_append, List.cons.injEq, Prod.mk.injEq] at h
      obtain ⟨⟨h1, h2⟩, _⟩ := h
      simp [get_assignment, h1, h2]
    | cons q pre' =>
      simp only [chain, List.cons_append, List.cons.injEq] at h
      obtain ⟨h1, h2⟩ := h
      have hq : q.1 ≠ x := hpre q (List.mem_cons_self _ _)
      have hv : v ≠ x := by rw [← h1] at hq; exact hq
      simp only [get_assignment, if_neg hv]
      exact ih pre' post h2 (fun p hp => hpre p (List.mem_cons_of_mem _ hp))

theorem get_assignment_of_not_mem (n : AssignNode) (x : Int)
    (h : ∀ p ∈ chain n, p.1 ≠ x) : get_assignment n x = 0 := by
  induction n with
  | NULL => rfl
  | node v value parent ih =>
    have hv : v ≠ x := h (v, value) (by simp [chain])
    simp only [get_assignment, if_neg hv]
    exact ih (fun p hp => h p (by simp [chain, hp]))

/-- C6: `is_clause_unsatisfiable(F, c, n)` is true exactly when every literal of `c` has its
variable assigned at `n` and no literal of `c` evaluates true at `n`; a clause with a
literal whose variable is unassigned at `n` is never reported falsified. -/
theorem C6_pruning_predicate (F : Formula) (c : Clause) (n : AssignNode) :
    (is_clause_unsatisfiable F c n = true ↔
      (∀ lit ∈ c.literals, get_assignment n (lit.natAbs : Int) ≠ 0) ∧
      (∀ lit ∈ c.literals, eval_literal n lit = false)) ∧
    ((∃ lit ∈ c.literals, get_assignment n (lit.natAbs : Int) = 0) →
      is_clause_unsatisfiable F c n = false) := by
  refine ⟨is_clause_unsatisfiable_eq_true F c n, ?_⟩
  rintro ⟨lit, hl, h0⟩
  cases hb : is_clause_unsatisfiable F c n with
  | false => rfl
  | true => exact absurd h0 (((is_clause_unsatisfiable_eq_true F c n).1 hb).1 lit hl)

/-- C7: `is_clause_satisfied(F, c, n)` is true exactly when `c` has a literal `lit` with
`get_assignment(n, |lit|)` equal to `+1` for `lit > 0` or to `-1` for `lit < 0`;
`eval_literal(n, lit)` is false whenever the variable of `lit` is unassigned at `n`; and an
empty clause is never satisfied. -/
theorem C7_clause_and_literal_evaluation (F : Formula) (c : Clause) (n : AssignNode) :
    (is_clause_satisfied F c n = true ↔
      ∃ lit ∈ c.literals,
        (lit > 0 ∧ get_assignment n (lit.natAbs : Int) = 1) ∨
        (lit < 0 ∧ get_assignment n (lit.natAbs : Int) = -1)) ∧
    (∀ lit : Int, get_assignment n (lit.natAbs : Int) = 0 → eval_literal n lit = false) ∧
    (c.literals = [] → is_clause_satisfied F c n = false) := by
  refine ⟨?_, eval_literal_unassigned n, ?_⟩
  · rw [is_clause_satisfied_eq_true]
    constructor
    · rintro ⟨lit, hl, h⟩
      exact ⟨lit, hl, (eval_literal_eq_true n lit).1 h⟩
    · rintro ⟨lit, hl, h⟩
      exact ⟨lit, hl, (eval_literal_eq_true n lit).2 h⟩
  · intro h
    simp [is_clause_satisfied, h, is_clause_satisfied_loop]

/-- C8: `get_assignment(n, x)` is the value stored at the nearest node of the chain
`n, parent(n), ...` whose `var` is `x`, and `0` when no node of the chain has `var` equal
to `x`. -/
theorem C8_lookup_consistency (n : AssignNode) (x : Int) :
    get_assignment n x = nearest_binding n x ∧
    ((∀ p ∈ chain n, p.1 ≠ x) → get_assignment n x = 0) ∧
    (∀ (pre post : List (Int × Int)) (val : Int), chain n = pre ++ (x, val) :: post →
      (∀ p ∈ pre, p.1 ≠ x) → get_assignment n x = val) :=
  ⟨get_assignment_eq_nearest n x, get_assignment_of_not_mem n x,
    fun pre post val h hp => get_assignment_of_split n x val pre post h hp⟩

/-! ## Clause scan and variable loop -/

theorem scan_clauses_eq_none (F : Formula) (n : AssignNode) (cs : List Clause) (b : Bool) :
    scan_clauses F n cs b = none ↔ ∃ c ∈ cs, is_clause_unsatisfiable F c n = true := by
  induction cs generalizing b with
  | nil => simp [scan_clauses]
  | cons c rest ih =>
    by_cases hu : is_clause_unsatisfiable F c n = true
    · simp [scan_clauses, hu]
    · by_cases hs : is_clause_satisfied F c n = true
      · simp [scan_clauses, hu, hs, ih]
      · simp [scan_clauses, hu, hs, ih]

theorem scan_clauses_eq_some_true (F : Formula) (n : AssignNode) (cs : List Clause)
    (b : Bool) :
    scan_clauses F n cs b = some true ↔
      b = true ∧ ∀ c ∈ cs, is_clause_satisfied F c n = true := by
  induction cs generalizing b with
  | nil => simp [scan_clauses]
  | cons c rest ih =>
    by_cases hs : is_clause_satisfied F c n = true
    · have hu : ¬ is_clause_unsatisfiable F c n = true := by
        intro hu
        obtain ⟨lit, hl, ht⟩ := (is_clause_satisfied_eq_true F c n).1 hs
        rw [((is_clause_unsatisfiable_eq_true F c n).1 hu).2 lit hl] at ht
        exact Bool.noConfusion ht
      simp [scan_clauses, hu, hs, ih]
    · by_cases hu : is_clause_unsatisfiable F c n = true
      · simp [scan_clauses, hu, hs]
      · simp [scan_clauses, hu, hs, ih]

theorem scan_clauses_eq_some_false (F : Formula) (n : AssignNode) (cs : List Clause)
    (h : scan_clauses F n cs true = some false) :
    (∀ c ∈ cs, is_clause_unsatisfiable F c n = false) ∧
    ∃ c ∈ cs, is_clause_satisfied F c n = false := by
  constructor
  · intro c hc
    cases hu : is_clause_unsatisfiable F c n with
    | false => rfl
    | true =>
      have := (scan_clauses_eq_none F n cs true).2 ⟨c, hc, hu⟩
      rw [this] at h
      exact Option.noConfusion h
  · by_contra hne
    have hall : ∀ c ∈ cs, is_clause_satisfied F c n = true := by
      intro c hc
      cases hs : is_clause_satisfied F c n with
      | true => rfl
      | false => exact absurd ⟨c, hc, hs⟩ hne
    have := (scan_clauses_eq_some_true F n cs true).2 ⟨rfl, hall⟩
    rw [this] at h
    simp at h

theorem first_unassigned_some (n : AssignNode) (k : Nat) :
    ∀ (i j : Int), first_unassigned n i k = some j →
      i ≤ j ∧ j < i + k ∧ get_assignment n j = 0 ∧
      ∀ m, i ≤ m → m < j → get_assignment n m ≠ 0 := by
  induction k with
  | zero => intro i j h; simp [first_unassigned] at h
  | succ k ih =>
    intro i j h
    by_cases h0 : get_assignment n i = 0
    · simp only [first_unassigned, if_pos h0, Option.some.injEq] at h
      subst h
      refine ⟨le_refl _, by push_cast; omega, h0, ?_⟩
      intro m h1 h2
      omega
    · simp only [first_unassigned, if_neg h0] at h
      obtain ⟨h1, h2, h3, h4⟩ := ih (i + 1) j h
      refine ⟨by omega, by push_cast; omega, h3, ?_⟩
      intro m hm1 hm2
      by_cases hmi : m = i
      · rw [hmi]; exact h0
      · exact h4 m (by omega) hm2

theorem first_unassigned_none (n : AssignNode) (k : Nat) :
    ∀ (i : Int), first_unassigned n i k = none →
      ∀ m, i ≤ m → m < i + k → get_assignment n m ≠ 0 := by
  induction k with
  | zero => intro i _ m h1 h2; simp at h2; omega
  | succ k ih =>
    intro i h m h1 h2
    by_cases h0 : get_assignment n i = 0
    · simp [first_unassigned, h0] at h
    · simp only [first_unassigned, if_neg h0] at h
      by_cases hmi : m = i
      · rw [hmi]; exact h0
      · exact ih (i + 1) h m (by omega) (by push_cast at h2; omega)

theorem get_assignment_create_node (i v : Int) (n : AssignNode) (x : Int) :
    get_assignment (create_node i v n) x = if i = x then v else get_assignment n x := rfl

/-! ## Soundness -/

theorem sat_tree_sound (F : Formula) :
    ∀ (fuel : Nat) (n sol : AssignNode) (r : SatResult),
      sat_tree fuel F n sol = some r → r.ret = true → all_satisfied_at F r.solution := by
  intro fuel
  induction fuel with
  | zero => intro n sol r h; simp [sat_tree] at h
  | succ fuel ih =>
    intro n sol r h hret
    rw [sat_tree] at h
    split at h
    · simp only [Option.some.injEq] at h; subst h; simp at hret
    · rename_i hscan
      simp only [Option.some.injEq] at h; subst h
      exact ((scan_clauses_eq_some_true F n F.clauses true).1 hscan).2
    · split at h
      · simp only [Option.some.injEq] at h; subst h; simp at hret
      · by_cases hnull : n = AssignNode.NULL
        · simp [hnull] at h
        rw [if_neg hnull] at h
        split at h
        · exact Option.noConfusion h
        · rename_i r1 h1
          split at h
          · rename_i hr1
            simp only [Option.some.injEq] at h; subst h
            exact ih _ _ r1 h1 hr1
          · split at h
            · exact Option.noConfusion h
            · rename_i r2 h2
              simp only [Option.some.injEq] at h; subst h
              exact ih _ _ r2 h2 hret

theorem satisfies_of_all_satisfied (F : Formula) (s : AssignNode) (α : Int → Bool)
    (hs : all_satisfied_at F s) (hα : agrees α s) : satisfies α F := by
  intro c hc
  obtain ⟨lit, hl, ht⟩ := (is_clause_satisfied_eq_true F c s).1 (hs c hc)
  refine ⟨lit, hl, ?_⟩
  rcases (eval_literal_eq_true s lit).1 ht with ⟨h1, h2⟩ | ⟨h1, h2⟩
  · exact Or.inl ⟨h1, (hα _).1 h2⟩
  · exact Or.inr ⟨h1, (hα _).2 h2⟩

/-! ## Termination -/

theorem sat_tree_terminates (F : Formula) :
    ∀ (fuel k : Nat) (n sol : AssignNode), n ≠ AssignNode.NULL →
      (∀ m : Int, 1 ≤ m → m ≤ F.num_vars - k → get_assignment n m ≠ 0) → k < fuel →
      ∃ r, sat_tree fuel F n sol = some r := by
  intro fuel
  induction fuel with
  | zero => intro k n sol _ _ hk; omega
  | succ fuel ih =>
    intro k n sol hnull hn hk
    rw [sat_tree]
    split
    · exact ⟨_, rfl⟩
    · exact ⟨_, rfl⟩
    · split
      · exact ⟨_, rfl⟩
      · rename_i i hi
        obtain ⟨h1, h2, h3, h4⟩ := first_unassigned_some n _ 1 i hi
        have hik : F.num_vars - k < i := by
          by_contra hc
          exact hn i h1 (by omega) h3
        have hk1 : 1 ≤ k := by
          by_contra hc
          have : k = 0 := by omega
          subst this
          simp at hik
          omega
        have hchild : ∀ v : Int, v ≠ 0 → ∀ m : Int, 1 ≤ m → m ≤ F.num_vars - (k - 1 : Nat) →
            get_assignment (create_node i v n) m ≠ 0 := by
          intro v hv m hm1 hm2
          rw [get_assignment_create_node]
          by_cases him : i = m
          · rw [if_pos him]; exact hv
          · rw [if_neg him]
            by_cases hlt : m < i
            · exact h4 m hm1 hlt
            · exact hn m hm1 (by omega)
        have hcn : ∀ v : Int, create_node i v n ≠ AssignNode.NULL :=
          fun v => AssignNode.noConfusion
        obtain ⟨r1, hr1⟩ := ih (k - 1) (create_node i 1 n) sol (hcn 1) (hchild 1 (by decide))
          (by omega)
        rw [if_neg hnull, hr1]
        dsimp only
        split
        · exact ⟨_, rfl⟩
        · obtain ⟨r2, hr2⟩ := ih (k - 1) (create_node i (-1) n) r1.solution (hcn (-1))
            (hchild (-1) (by decide)) (by omega)
          rw [hr2]
          exact ⟨_, rfl⟩

theorem sat_tree_terminates_any (F : Formula) (fuel : Nat) (n sol : AssignNode)
    (hn : n ≠ AssignNode.NULL) (h : F.num_vars.toNat < fuel) :
    ∃ r, sat_tree fuel F n sol = some r := by
  apply sat_tree_terminates F fuel F.num_vars.toNat n sol hn _ h
  intro m h1 h2
  omega

/-! ## Completeness -/

theorem ternary_fresh_root : ternary fresh_root := by
  intro x
  by_cases h : (0 : Int) = x
  · left; simp [fresh_root, create_node, get_assignment]
  · left; simp [fresh_root, create_node, get_assignment]

theorem ternary_create_node (i v : Int) (n : AssignNode) (hn : ternary n)
    (hv : v = 1 ∨ v = -1) : ternary (create_node i v n) := by
  intro x
  rw [get_assignment_create_node]
  by_cases h : i = x
  · rw [if_pos h]; exact Or.inr hv
  · rw [if_neg h]; exact hn x

theorem agrees_create_node_true (α : Int → Bool) (i : Int) (n : AssignNode)
    (h0 : get_assignment n i = 0) :
    agrees α (create_node i 1 n) ↔ agrees α n ∧ α i = true := by
  constructor
  · intro h
    refine ⟨?_, ?_⟩
    · intro x
      by_cases hx : i = x
      · subst hx; constructor <;> intro hc <;> omega
      · have := h x
        rw [get_assignment_create_node, if_neg hx] at this
        exact this
    · have := (h i).1
      rw [get_assignment_create_node, if_pos rfl] at this
      exact this rfl
  · rintro ⟨h1, h2⟩ x
    rw [get_assignment_create_node]
    by_cases hx : i = x
    · subst hx
      rw [if_pos rfl]
      exact ⟨fun _ => h2, fun hc => by omega⟩
    · rw [if_neg hx]; exact h1 x

theorem agrees_create_node_false (α : Int → Bool) (i : Int) (n : AssignNode)
    (h0 : get_assignment n i = 0) :
    agrees α (create_node i (-1) n) ↔ agrees α n ∧ α i = false := by
  constructor
  · intro h
    refine ⟨?_, ?_⟩
    · intro x
      by_cases hx : i = x
      · subst hx; constructor <;> intro hc <;> omega
      · have := h x
        rw [get_assignment_create_node, if_neg hx] at this
        exact this
    · have := (h i).2
      rw [get_assignment_create_node, if_pos rfl] at this
      exact this rfl
  · rintro ⟨h1, h2⟩ x
    rw [get_assignment_create_node]
    by_cases hx : i = x
    · subst hx
      rw [if_pos rfl]
      exact ⟨fun hc => by omega, fun _ => h2⟩
    · rw [if_neg hx]; exact h1 x

theorem exists_agrees (n : AssignNode) : ∃ α : Int → Bool, agrees α n := by
  refine ⟨fun x => decide (get_assignment n x = 1), ?_⟩
  intro x
  constructor
  · intro h; simp [h]
  · intro h; simp [h]

theorem not_lit_true_of_falsified (F : Formula) (c : Clause) (n : AssignNode)
    (α : Int → Bool) (hn : ternary n) (hα : agrees α n)
    (hu : is_clause_unsatisfiable F c n = true) :
    ¬ ∃ lit ∈ c.literals, lit_true α lit := by
  rintro ⟨lit, hl, ht⟩
  obtain ⟨ha, he⟩ := (is_clause_unsatisfiable_eq_true F c n).1 hu
  have hne := ha lit hl
  have hev : ¬ eval_literal n lit = true := by rw [he lit hl]; exact Bool.noConfusion
  rw [eval_literal_eq_true] at hev
  have h3 := hn (lit.natAbs : Int)
  have hα1 := (hα (lit.natAbs : Int)).1
  have hα2 := (hα (lit.natAbs : Int)).2
  rcases ht with ⟨hp, hb⟩ | ⟨hp, hb⟩
  · rcases h3 with h3 | h3 | h3
    · exact hne h3
    · exact hev (Or.inl ⟨hp, h3⟩)
    · rw [hα2 h3] at hb; exact Bool.noConfusion hb
  · rcases h3 with h3 | h3 | h3
    · exact hne h3
    · rw [hα1 h3] at hb; exact Bool.noConfusion hb
    · exact hev (Or.inr ⟨hp, h3⟩)

/-- With the Formula invariant, a node at which every variable of `1..num_vars` is assigned
has every clause either satisfied or falsified. -/
theorem falsified_of_all_assigned (F : Formula) (hF : formula_inv F) (n : AssignNode)
    (hall : ∀ m : Int, 1 ≤ m → m ≤ F.num_vars → get_assignment n m ≠ 0)
    (c : Clause) (hc : c ∈ F.clauses) (hs : is_clause_satisfied F c n = false) :
    is_clause_unsatisfiable F c n = true := by
  rw [is_clause_unsatisfiable_eq_true]
  refine ⟨?_, ?_⟩
  · intro lit hl
    obtain ⟨_, h1, h2⟩ := hF c hc lit hl
    exact hall _ h1 h2
  · intro lit hl
    cases he : eval_literal n lit with
    | false => rfl
    | true =>
      have := (is_clause_satisfied_eq_true F c n).2 ⟨lit, hl, he⟩
      rw [this] at hs
      exact Bool.noConfusion hs

theorem first_unassigned_ne_none (F : Formula) (hF : formula_inv F) (n : AssignNode)
    (hscan : scan_clauses F n F.clauses true = some false) :
    first_unassigned n 1 F.num_vars.toNat ≠ none := by
  intro hnone
  obtain ⟨hnu, c, hc, hs⟩ := scan_clauses_eq_some_false F n F.clauses hscan
  have hall : ∀ m : Int, 1 ≤ m → m ≤ F.num_vars → get_assignment n m ≠ 0 := by
    intro m h1 h2
    exact first_unassigned_none n _ 1 hnone m h1 (by omega)
  have := falsified_of_all_assigned F hF n hall c hc hs
  rw [hnu c hc] at this
  exact Bool.noConfusion this

theorem sat_tree_complete (F : Formula) (hF : formula_inv F) :
    ∀ (fuel : Nat) (n sol : AssignNode) (r : SatResult), ternary n →
      sat_tree fuel F n sol = some r →
      (r.ret = true ↔ ∃ α : Int → Bool, agrees α n ∧ satisfies α F) := by
  intro fuel
  induction fuel with
  | zero => intro n sol r _ h; simp [sat_tree] at h
  | succ fuel ih =>
    intro n sol r hn h
    rw [sat_tree] at h
    split at h
    · rename_i hscan
      simp only [Option.some.injEq] at h; subst h
      obtain ⟨c, hc, hu⟩ := (scan_clauses_eq_none F n F.clauses true).1 hscan
      constructor
      · intro hh; simp at hh
      · rintro ⟨α, hα, hsat⟩
        exact absurd (hsat c hc) (not_lit_true_of_falsified F c n α hn hα hu)
    · rename_i hscan
      simp only [Option.some.injEq] at h; subst h
      have hall := ((scan_clauses_eq_some_true F n F.clauses true).1 hscan).2
      obtain ⟨α, hα⟩ := exists_agrees n
      exact ⟨fun _ => ⟨α, hα, satisfies_of_all_satisfied F n α hall hα⟩, fun _ => rfl⟩
    · rename_i hscan
      split at h
      · rename_i hnone
        exact absurd hnone (first_unassigned_ne_none F hF n hscan)
      · rename_i i hi
        obtain ⟨_, _, h0, _⟩ := first_unassigned_some n _ 1 i hi
        by_cases hnull : n = AssignNode.NULL
        · simp [hnull] at h
        rw [if_neg hnull] at h
        split at h
        · exact Option.noConfusion h
        · rename_i r1 h1
          have ih1 := ih _ _ r1 (ternary_create_node i 1 n hn (Or.inl rfl)) h1
          split at h
          · rename_i hr1
            simp only [Option.some.injEq] at h; subst h
            obtain ⟨α, hα, hsat⟩ := ih1.1 hr1
            exact ⟨fun _ => ⟨α, ((agrees_create_node_true α i n h0).1 hα).1, hsat⟩,
              fun _ => rfl⟩
          · rename_i hr1
            split at h
            · exact Option.noConfusion h
            · rename_i r2 h2
              have ih2 := ih _ _ r2 (ternary_create_node i (-1) n hn (Or.inr rfl)) h2
              simp only [Option.some.injEq] at h; subst h
              constructor
              · intro hret
                obtain ⟨α, hα, hsat⟩ := ih2.1 hret
                exact ⟨α, ((agrees_create_node_false α i n h0).1 hα).1, hsat⟩
              · rintro ⟨α, hα, hsat⟩
                cases hαi : α i with
                | true =>
                  exact absurd (ih1.2 ⟨α, (agrees_create_node_true α i n h0).2 ⟨hα, hαi⟩, hsat⟩)
                    hr1
                | false =>
                  exact ih2.2 ⟨α, (agrees_create_node_false α i n h0).2 ⟨hα, hαi⟩, hsat⟩

theorem agrees_fresh_root (α : Int → Bool) : agrees α fresh_root := by
  intro x
  have h : get_assignment fresh_root x = 0 := by
    by_cases h : (0 : Int) = x <;> simp [fresh_root, create_node, get_assignment]
  rw [h]
  constructor <;> intro hc <;> omega

/-- C1: soundness of `sat_tree`.  When a call returns true, every clause of the formula is
satisfied at the node left in `*solution`, and every total assignment that agrees with that
node on the variables its chain binds makes every clause contain a true literal. -/
theorem C1_sat_tree_sound (F : Formula) (fuel : Nat) (n sol : AssignNode) (r : SatResult)
    (h : sat_tree fuel F n sol = some r) (hret : r.ret = true) :
    (∀ c ∈ F.clauses, is_clause_satisfied F c r.solution = true) ∧
    ∀ α : Int → Bool, agrees α r.solution → satisfies α F :=
  ⟨sat_tree_sound F fuel n sol r h hret,
    fun α hα => satisfies_of_all_satisfied F r.solution α (sat_tree_sound F fuel n sol r h hret) hα⟩

/-- C1 at the formula with the clauses `(1, 2)` and `(-1)` over two variables: the search
from the root of `main` returns true at the node binding 1 to false and 2 to true. -/
theorem C1_sat_tree_sound_witness :
    sat_tree 3 ⟨[⟨[1, 2]⟩, ⟨[-1]⟩], 2⟩ fresh_root AssignNode.NULL =
      some ⟨true, create_node 2 1 (create_node 1 (-1) fresh_root),
        Tree.node 1 (-1) Tree.NULL (Tree.node 2 1 Tree.NULL Tree.NULL),
        Tree.node 1 1 Tree.NULL Tree.NULL⟩ ∧
    ((∀ c ∈ (⟨[⟨[1, 2]⟩, ⟨[-1]⟩], 2⟩ : Formula).clauses,
        is_clause_satisfied ⟨[⟨[1, 2]⟩, ⟨[-1]⟩], 2⟩ c
          (create_node 2 1 (create_node 1 (-1) fresh_root)) = true) ∧
      ∀ α : Int → Bool, agrees α (create_node 2 1 (create_node 1 (-1) fresh_root)) →
        satisfies α ⟨[⟨[1, 2]⟩, ⟨[-1]⟩], 2⟩) :=
  ⟨by decide,
    C1_sat_tree_sound ⟨[⟨[1, 2]⟩, ⟨[-1]⟩], 2⟩ 3 fresh_root AssignNode.NULL
      ⟨true, create_node 2 1 (create_node 1 (-1) fresh_root),
        Tree.node 1 (-1) Tree.NULL (Tree.node 2 1 Tree.NULL Tree.NULL),
        Tree.node 1 1 Tree.NULL Tree.NULL⟩ (by decide) rfl⟩

/-- C2: completeness of `sat_tree` against the truth table.  For a formula with the Formula
invariant, the search from the root of `main` returns (any recursion budget above
`num_vars` is enough), and it returns true exactly when some total assignment makes every
clause contain a true literal; on the clauses `(1)`, `(-1)` over one variable it returns
false. -/
theorem C2_sat_tree_complete (F : Formula) (hF : formula_inv F) (fuel : Nat)
    (sol : AssignNode) (hfuel : F.num_vars.toNat < fuel) :
    (∃ r, sat_tree fuel F fresh_root sol = some r ∧
      (r.ret = true ↔ ∃ α : Int → Bool, satisfies α F)) ∧
    sat_tree 2 ⟨[⟨[1]⟩, ⟨[-1]⟩], 1⟩ fresh_root sol =
      some ⟨false, sol, Tree.node 1 (-1) Tree.NULL Tree.NULL,
        Tree.node 1 1 Tree.NULL Tree.NULL⟩ := by
  refine ⟨?_, rfl⟩
  obtain ⟨r, hr⟩ := sat_tree_terminates_any F fuel fresh_root sol AssignNode.noConfusion hfuel
  refine ⟨r, hr, ?_⟩
  rw [sat_tree_complete F hF fuel fresh_root sol r ternary_fresh_root hr]
  constructor
  · rintro ⟨α, _, hs⟩; exact ⟨α, hs⟩
  · rintro ⟨α, hs⟩; exact ⟨α, agrees_fresh_root α, hs⟩

/-- C2 at the clauses `(1)`, `(-1)` over one variable, with recursion budget 2. -/
theorem C2_sat_tree_complete_witness :
    formula_inv ⟨[⟨[1]⟩, ⟨[-1]⟩], 1⟩ ∧
    ((∃ r, sat_tree 2 ⟨[⟨[1]⟩, ⟨[-1]⟩], 1⟩ fresh_root AssignNode.NULL = some r ∧
      (r.ret = true ↔ ∃ α : Int → Bool, satisfies α ⟨[⟨[1]⟩, ⟨[-1]⟩], 1⟩)) ∧
    sat_tree 2 ⟨[⟨[1]⟩, ⟨[-1]⟩], 1⟩ fresh_root AssignNode.NULL =
      some ⟨false, AssignNode.NULL, Tree.node 1 (-1) Tree.NULL Tree.NULL,
        Tree.node 1 1 Tree.NULL Tree.NULL⟩) :=
  ⟨by simp [formula_inv],
    C2_sat_tree_complete ⟨[⟨[1]⟩, ⟨[-1]⟩], 1⟩ (by simp [formula_inv]) 2 AssignNode.NULL
      (by decide)⟩

/-! ## Encoder -/

theorem mem_int_range (lo hi x : Int) : x ∈ int_range lo hi ↔ lo ≤ x ∧ x ≤ hi := by
  unfold int_range
  simp only [List.mem_map, List.mem_range]
  constructor
  · rintro ⟨t, ht, rfl⟩
    omega
  · rintro ⟨h1, h2⟩
    exact ⟨(x - lo).toNat, by omega, by omega⟩

theorem length_int_range (lo hi : Int) : (int_range lo hi).length = (hi + 1 - lo).toNat := by
  simp [int_range]

theorem int_range_append (lo m hi : Int) (h1 : lo ≤ m + 1) (h2 : m ≤ hi) :
    int_range lo hi = int_range lo m ++ int_range (m + 1) hi := by
  unfold int_range
  have hsplit : (hi + 1 - lo).toNat = (m + 1 - lo).toNat + (hi + 1 - (m + 1)).toNat := by
    omega
  rw [hsplit, List.range_add, List.map_append, List.map_map]
  congr 1
  apply List.map_congr_left
  intro t _
  simp only [Function.comp]
  push_cast
  omega

theorem filter_int_range_gt (lo hi m : Int) (h : lo ≤ m + 1) :
    (int_range lo hi).filter (fun c => decide (m < c)) = int_range (m + 1) hi := by
  by_cases hm : m ≤ hi
  · rw [int_range_append lo m hi h hm, List.filter_append]
    have h1 : (int_range lo m).filter (fun c => decide (m < c)) = [] := by
      rw [List.filter_eq_nil_iff]
      intro a ha
      have := (mem_int_range lo m a).1 ha
      simp only [decide_eq_true_eq]
      omega
    have h2 : (int_range (m + 1) hi).filter (fun c => decide (m < c)) =
        int_range (m + 1) hi := by
      rw [List.filter_eq_self]
      intro a ha
      have := (mem_int_range (m + 1) hi a).1 ha
      simp only [decide_eq_true_eq]
      omega
    rw [h1, h2, List.nil_append]
  · have h1 : (int_range lo hi).filter (fun c => decide (m < c)) = [] := by
      rw [List.filter_eq_nil_iff]
      intro a ha
      have := (mem_int_range lo hi a).1 ha
      simp only [decide_eq_true_eq]
      omega
    have h2 : int_range (m + 1) hi = [] := by
      unfold int_range
      have : (hi + 1 - (m + 1)).toNat = 0 := by omega
      rw [this]
      rfl
    rw [h1, h2]

theorem for_loop_from_append {β : Type} (body : Int → List β → List β) (g : Int → List β)
    (hbody : ∀ i s, body i s = s ++ g i) :
    ∀ (k : Nat) (i : Int) (s : List β),
      for_loop_from body i k s = s ++ (List.range k).flatMap (fun t => g (i + (t : Int))) := by
  intro k
  induction k with
  | zero => intro i s; simp [for_loop_from]
  | succ k ih =>
    intro i s
    rw [for_loop_from, ih, hbody, List.range_succ_eq_map]
    simp only [List.flatMap_cons, List.append_assoc, Nat.cast_zero, add_zero]
    congr 2
    simp only [List.flatMap, List.map_map]
    congr 1
    apply List.map_congr_left
    intro t _
    simp only [Function.comp, Nat.succ_eq_add_one]
    congr 1
    push_cast
    ring

theorem for_loop_append {β : Type} (body : Int → List β → List β) (g : Int → List β)
    (hbody : ∀ i s, body i s = s ++ g i) (lo hi : Int) (s : List β) :
    for_loop lo hi body s = s ++ (int_range lo hi).flatMap g := by
  unfold for_loop int_range
  rw [for_loop_from_append body g hbody]
  simp only [List.flatMap, List.map_map]
  rfl

theorem foldl_append_flatMap {α β : Type} (f : List β → α → List β) (g : α → List β)
    (hf : ∀ s a, f s a = s ++ g a) :
    ∀ (l : List α) (s : List β), l.foldl f s = s ++ l.flatMap g := by
  intro l
  induction l with
  | nil => intro s; simp
  | cons a l ih =>
    intro s
    rw [List.foldl_cons, ih, hf]
    simp [List.flatMap_cons, List.append_assoc]

theorem flatMap_congr_mem {α β : Type} (l : List α) (f g : α → List β)
    (h : ∀ a ∈ l, f a = g a) : l.flatMap f = l.flatMap g := by
  induction l with
  | nil => rfl
  | cons a l ih =>
    rw [List.flatMap_cons, List.flatMap_cons, h a (List.mem_cons_self _ _),
      ih (fun b hb => h b (List.mem_cons_of_mem _ hb))]

theorem flatMap_singleton_eq_map {α β : Type} (l : List α) (f : α → β) :
    l.flatMap (fun a => [f a]) = l.map f := by
  induction l with
  | nil => rfl
  | cons a l ih => rw [List.flatMap_cons, ih]; rfl

theorem coloring_cnf_clauses (V : Int) (edges : List (Int × Int)) (K : Int) :
    (coloring_cnf V edges K).clauses =
      at_least_one_color V K ++ at_most_one_color V K ++ adjacent_differ edges K := rfl

theorem int_range_cons (lo hi : Int) (h : lo ≤ hi) :
    int_range lo hi = lo :: int_range (lo + 1) hi := by
  rw [int_range_append lo lo hi (by omega) h]
  have : int_range lo lo = [lo] := by
    unfold int_range
    have h1 : (lo + 1 - lo).toNat = 1 := by omega
    rw [h1]
    simp [List.range_succ]
  rw [this]
  rfl

theorem int_range_empty (lo hi : Int) (h : hi < lo) : int_range lo hi = [] := by
  unfold int_range
  have : (hi + 1 - lo).toNat = 0 := by omega
  rw [this]
  rfl

theorem length_flatMap_const {α β : Type} (l : List α) (f : α → List β) (c : Nat)
    (h : ∀ a ∈ l, (f a).length = c) : (l.flatMap f).length = l.length * c := by
  induction l with
  | nil => simp
  | cons a l ih =>
    rw [List.flatMap_cons, List.length_append, h a (List.mem_cons_self _ _),
      ih (fun b hb => h b (List.mem_cons_of_mem _ hb)), List.length_cons]
    ring

theorem length_pairs {β : Type} (hi : Int) (f : Int → Int → β) :
    ∀ (d : Nat) (lo : Int), (d : Int) = hi + 1 - lo →
      2 * ((int_range lo hi).flatMap (fun j => (int_range (j + 1) hi).map (f j))).length =
        d * (d - 1) := by
  intro d
  induction d with
  | zero =>
    intro lo h
    rw [int_range_empty lo hi (by push_cast at h; omega)]
    rfl
  | succ d ih =>
    intro lo h
    rw [int_range_cons lo hi (by push_cast at h; omega), List.flatMap_cons,
      List.length_append, List.length_map, length_int_range, Nat.mul_add,
      ih (lo + 1) (by push_cast at h ⊢; omega)]
    have : (hi + 1 - (lo + 1)).toNat = d := by push_cast at h; omega
    rw [this]
    cases d with
    | zero => rfl
    | succ e => simp only [Nat.add_sub_cancel]; ring

theorem at_most_one_color_eq (V K : Int) :
    at_most_one_color V K =
      (int_range 1 V).flatMap (fun v =>
        (int_range 1 K).flatMap (fun c1 =>
          (int_range (c1 + 1) K).map
            (fun c2 => (⟨[-var v c1 K, -var v c2 K]⟩ : Clause)))) := by
  unfold at_most_one_color
  apply flatMap_congr_mem
  intro v _
  apply flatMap_congr_mem
  intro c1 hc1
  rw [filter_int_range_gt 1 K c1 (by have := (mem_int_range 1 K c1).1 hc1; omega)]

theorem length_at_least_one_color (V K : Int) :
    (at_least_one_color V K).length = V.toNat := by
  unfold at_least_one_color
  rw [List.length_map, length_int_range]
  congr 1
  omega

theorem length_at_most_one_color (V K : Int) (hK : 0 ≤ K) :
    2 * (at_most_one_color V K).length = V.toNat * (K.toNat * (K.toNat - 1)) := by
  rw [at_most_one_color_eq]
  have hp : ∀ v : Int,
      2 * ((int_range 1 K).flatMap (fun c1 =>
        (int_range (c1 + 1) K).map
          (fun c2 => (⟨[-var v c1 K, -var v c2 K]⟩ : Clause)))).length =
      K.toNat * (K.toNat - 1) := by
    intro v
    exact length_pairs K (fun c1 c2 => (⟨[-var v c1 K, -var v c2 K]⟩ : Clause)) K.toNat 1
      (by omega)
  obtain ⟨p, hp2⟩ : ∃ p : Nat, K.toNat * (K.toNat - 1) = 2 * p := ⟨_, (hp 0).symm⟩
  rw [length_flatMap_const _ _ p, length_int_range]
  · have : (V + 1 - 1).toNat = V.toNat := by congr 1; omega
    rw [this, hp2]
    ring
  · intro v _
    have := hp v
    omega

theorem length_adjacent_differ (edges : List (Int × Int)) (K : Int) :
    (adjacent_differ edges K).length = edges.length * K.toNat := by
  unfold adjacent_differ
  apply length_flatMap_const
  intro e _
  rw [List.length_map, length_int_range]
  congr 1
  omega

theorem num_clauses_coloring_cnf (V : Int) (edges : List (Int × Int)) (K : Int)
    (hV : 0 ≤ V) (hK : 1 ≤ K) :
    (coloring_cnf V edges K).num_clauses =
      V + V * K * (K - 1) / 2 + (edges.length : Int) * K := by
  unfold Formula.num_clauses
  rw [coloring_cnf_clauses, List.length_append, List.length_append,
    length_at_least_one_color, length_adjacent_differ]
  have h2 := length_at_most_one_color V K (by omega)
  obtain ⟨v, rfl⟩ : ∃ v : Nat, V = v := ⟨V.toNat, by omega⟩
  obtain ⟨k, rfl⟩ : ∃ k : Nat, K = (k : Int) + 1 := ⟨(K - 1).toNat, by omega⟩
  have hk : ((k : Int) + 1).toNat = k + 1 := by omega
  rw [hk] at h2 ⊢
  simp only [Int.toNat_ofNat, Nat.add_sub_cancel] at h2 ⊢
  have h3 : ((v : Int) * (k + 1) * (k + 1 - 1)) =
      2 * ((at_most_one_color v (k + 1)).length : Int) := by
    have : ((2 * (at_most_one_color v (k + 1)).length : Nat) : Int) =
        ((v * ((k + 1) * k) : Nat) : Int) := by
      rw [h2]
    push_cast at this
    rw [this]
    ring
  rw [h3, Int.mul_ediv_cancel_left _ (by decide : (2 : Int) ≠ 0)]
  push_cast
  ring

/-! ## Variable numbering -/

theorem var_pos (v c K : Int) (hv : 1 ≤ v) (hc : 1 ≤ c) (hK : 0 ≤ K) : 1 ≤ var v c K := by
  unfold var
  have : 0 ≤ (v - 1) * K := mul_nonneg (by omega) hK
  omega

theorem var_le (v c V K : Int) (hv : v ≤ V) (hc : c ≤ K) (hK : 0 ≤ K) :
    var v c K ≤ V * K := by
  unfold var
  have : (v - 1) * K ≤ (V - 1) * K := mul_le_mul_of_nonneg_right (by omega) hK
  have h2 : (V - 1) * K = V * K - K := by ring
  omega

theorem var_injective (v c v' c' K : Int) (hc : 1 ≤ c) (hcK : c ≤ K) (hc' : 1 ≤ c')
    (hcK' : c' ≤ K) (h : var v c K = var v' c' K) : v = v' ∧ c = c' := by
  unfold var at h
  have hv : v = v' := by
    rcases lt_trichotomy v v' with hlt | heq | hgt
    · exfalso
      have : (v - 1) * K + K ≤ (v' - 1) * K := by
        have h1 : (v - 1 + 1) * K ≤ (v' - 1) * K :=
          mul_le_mul_of_nonneg_right (by omega) (by omega)
        have h2 : (v - 1 + 1) * K = (v - 1) * K + K := by ring
        omega
      omega
    · exact heq
    · exfalso
      have : (v' - 1) * K + K ≤ (v - 1) * K := by
        have h1 : (v' - 1 + 1) * K ≤ (v - 1) * K :=
          mul_le_mul_of_nonneg_right (by omega) (by omega)
        have h2 : (v' - 1 + 1) * K = (v' - 1) * K + K := by ring
        omega
      omega
  subst hv
  exact ⟨rfl, by omega⟩

theorem lit_true_pos (α : Int → Bool) (x : Int) (hx : 1 ≤ x) :
    lit_true α x ↔ α x = true := by
  unfold lit_true
  have h : ((x.natAbs : Nat) : Int) = x := by omega
  rw [h]
  constructor
  · rintro (⟨_, h1⟩ | ⟨h1, _⟩)
    · exact h1
    · omega
  · intro h1; exact Or.inl ⟨by omega, h1⟩

theorem lit_true_neg (α : Int → Bool) (x : Int) (hx : 1 ≤ x) :
    lit_true α (-x) ↔ α x = false := by
  unfold lit_true
  have h : (((-x).natAbs : Nat) : Int) = x := by omega
  rw [h]
  constructor
  · rintro (⟨h1, _⟩ | ⟨_, h1⟩)
    · omega
    · exact h1
  · intro h1; exact Or.inr ⟨by omega, h1⟩

/-! ## Clauses of the encoding -/

theorem mem_at_least_one_color (V K : Int) (c : Clause) :
    c ∈ at_least_one_color V K ↔
      ∃ v, 1 ≤ v ∧ v ≤ V ∧ c = ⟨(int_range 1 K).map (fun j => var v j K)⟩ := by
  unfold at_least_one_color
  simp only [List.mem_map, mem_int_range]
  constructor
  · rintro ⟨v, ⟨h1, h2⟩, rfl⟩; exact ⟨v, h1, h2, rfl⟩
  · rintro ⟨v, h1, h2, rfl⟩; exact ⟨v, ⟨h1, h2⟩, rfl⟩

theorem mem_at_most_one_color (V K : Int) (c : Clause) :
    c ∈ at_most_one_color V K ↔
      ∃ v c1 c2, 1 ≤ v ∧ v ≤ V ∧ 1 ≤ c1 ∧ c1 < c2 ∧ c2 ≤ K ∧
        c = ⟨[-var v c1 K, -var v c2 K]⟩ := by
  unfold at_most_one_color
  simp only [List.mem_flatMap, List.mem_map, List.mem_filter, mem_int_range,
    decide_eq_true_eq]
  constructor
  · rintro ⟨v, ⟨h1, h2⟩, c1, ⟨h3, _⟩, c2, ⟨⟨_, h6⟩, h7⟩, rfl⟩
    exact ⟨v, c1, c2, h1, h2, h3, h7, h6, rfl⟩
  · rintro ⟨v, c1, c2, h1, h2, h3, h4, h5, rfl⟩
    exact ⟨v, ⟨h1, h2⟩, c1, ⟨h3, by omega⟩, c2, ⟨⟨by omega, h5⟩, h4⟩, rfl⟩

theorem mem_adjacent_differ (edges : List (Int × Int)) (K : Int) (c : Clause) :
    c ∈ adjacent_differ edges K ↔
      ∃ e ∈ edges, ∃ j, 1 ≤ j ∧ j ≤ K ∧ c = ⟨[-var e.1 j K, -var e.2 j K]⟩ := by
  unfold adjacent_differ
  simp only [List.mem_flatMap, List.mem_map, mem_int_range]
  constructor
  · rintro ⟨e, he, j, ⟨h1, h2⟩, rfl⟩; exact ⟨e, he, j, h1, h2, rfl⟩
  · rintro ⟨e, he, j, h1, h2, rfl⟩; exact ⟨e, he, j, ⟨h1, h2⟩, rfl⟩

theorem mem_coloring_cnf (V : Int) (edges : List (Int × Int)) (K : Int) (c : Clause) :
    c ∈ (coloring_cnf V edges K).clauses ↔
      (∃ v, 1 ≤ v ∧ v ≤ V ∧ c = ⟨(int_range 1 K).map (fun j => var v j K)⟩) ∨
      (∃ v c1 c2, 1 ≤ v ∧ v ≤ V ∧ 1 ≤ c1 ∧ c1 < c2 ∧ c2 ≤ K ∧
        c = ⟨[-var v c1 K, -var v c2 K]⟩) ∨
      (∃ e ∈ edges, ∃ j, 1 ≤ j ∧ j ≤ K ∧ c = ⟨[-var e.1 j K, -var e.2 j K]⟩) := by
  rw [coloring_cnf_clauses, List.mem_append, List.mem_append, mem_at_least_one_color,
    mem_at_most_one_color, mem_adjacent_differ, or_assoc]

/-- The encoder establishes the Formula invariant. -/
theorem formula_inv_coloring_cnf (V : Int) (edges : List (Int × Int)) (K : Int)
    (hK : 1 ≤ K) (hE : edges_in_range V edges) : formula_inv (coloring_cnf V edges K) := by
  have key : ∀ v j : Int, 1 ≤ v → v ≤ V → 1 ≤ j → j ≤ K →
      ∀ lit : Int, lit = var v j K ∨ lit = -var v j K →
        lit ≠ 0 ∧ 1 ≤ (lit.natAbs : Int) ∧ (lit.natAbs : Int) ≤ V * K := by
    intro v j h1 h2 h3 h4 lit hl
    have hp := var_pos v j K h1 h3 (by omega)
    have hle := var_le v j V K h2 h4 (by omega)
    rcases hl with rfl | rfl <;> omega
  intro c hc lit hl
  show lit ≠ 0 ∧ 1 ≤ (lit.natAbs : Int) ∧ (lit.natAbs : Int) ≤ V * K
  rcases (mem_coloring_cnf V edges K c).1 hc with
    ⟨v, h1, h2, rfl⟩ | ⟨v, c1, c2, h1, h2, h3, h4, h5, rfl⟩ | ⟨e, he, j, h1, h2, rfl⟩
  · simp only [List.mem_map, mem_int_range] at hl
    obtain ⟨j, ⟨h3, h4⟩, rfl⟩ := hl
    exact key v j h1 h2 h3 h4 _ (Or.inl rfl)
  · simp only [List.mem_cons, List.mem_singleton, List.not_mem_nil, or_false] at hl
    rcases hl with rfl | rfl
    · exact key v c1 h1 h2 h3 (by omega) _ (Or.inr rfl)
    · exact key v c2 h1 h2 (by omega) h5 _ (Or.inr rfl)
  · obtain ⟨⟨hu1, hu2⟩, ⟨hv1, hv2⟩⟩ := hE e he
    simp only [List.mem_cons, List.mem_singleton, List.not_mem_nil, or_false] at hl
    rcases hl with rfl | rfl
    · exact key e.1 j hu1 hu2 h1 h2 _ (Or.inr rfl)
    · exact key e.2 j hv1 hv2 h1 h2 _ (Or.inr rfl)

/-- What it means for a total assignment to satisfy the encoding. -/
theorem satisfies_coloring_cnf (V : Int) (edges : List (Int × Int)) (K : Int)
    (hK : 1 ≤ K) (hE : edges_in_range V edges) (α : Int → Bool) :
    satisfies α (coloring_cnf V edges K) ↔
      (∀ v, 1 ≤ v → v ≤ V → ∃ c, 1 ≤ c ∧ c ≤ K ∧ α (var v c K) = true) ∧
      (∀ v c1 c2, 1 ≤ v → v ≤ V → 1 ≤ c1 → c1 < c2 → c2 ≤ K →
        α (var v c1 K) = false ∨ α (var v c2 K) = false) ∧
      (∀ e ∈ edges, ∀ j, 1 ≤ j → j ≤ K →
        α (var e.1 j K) = false ∨ α (var e.2 j K) = false) := by
  have hpos : ∀ v j : Int, 1 ≤ v → 1 ≤ j → 1 ≤ var v j K :=
    fun v j h1 h2 => var_pos v j K h1 h2 (by omega)
  have hpair : ∀ x y : Int, 1 ≤ x → 1 ≤ y →
      ((∃ lit ∈ ([-x, -y] : List Int), lit_true α lit) ↔ α x = false ∨ α y = false) := by
    intro x y hx hy
    simp only [List.mem_cons, List.mem_singleton, List.not_mem_nil, or_false,
      exists_eq_or_imp, exists_eq_left, lit_true_neg α x hx, lit_true_neg α y hy]
  constructor
  · intro hs
    refine ⟨?_, ?_, ?_⟩
    · intro v h1 h2
      obtain ⟨lit, hl, ht⟩ := hs _ ((mem_coloring_cnf V edges K _).2
        (Or.inl ⟨v, h1, h2, rfl⟩))
      simp only [List.mem_map, mem_int_range] at hl
      obtain ⟨j, ⟨h3, h4⟩, rfl⟩ := hl
      exact ⟨j, h3, h4, (lit_true_pos α _ (hpos v j h1 h3)).1 ht⟩
    · intro v c1 c2 h1 h2 h3 h4 h5
      have := hs _ ((mem_coloring_cnf V edges K _).2
        (Or.inr (Or.inl ⟨v, c1, c2, h1, h2, h3, h4, h5, rfl⟩)))
      exact (hpair _ _ (hpos v c1 h1 h3) (hpos v c2 h1 (by omega))).1 this
    · intro e he j h1 h2
      obtain ⟨⟨hu1, _⟩, ⟨hv1, _⟩⟩ := hE e he
      have := hs _ ((mem_coloring_cnf V edges K _).2
        (Or.inr (Or.inr ⟨e, he, j, h1, h2, rfl⟩)))
      exact (hpair _ _ (hpos e.1 j hu1 h1) (hpos e.2 j hv1 h1)).1 this
  · rintro ⟨ha, hb, hc⟩ c hmem
    rcases (mem_coloring_cnf V edges K c).1 hmem with
      ⟨v, h1, h2, rfl⟩ | ⟨v, c1, c2, h1, h2, h3, h4, h5, rfl⟩ | ⟨e, he, j, h1, h2, rfl⟩
    · obtain ⟨j, h3, h4, ht⟩ := ha v h1 h2
      refine ⟨var v j K, ?_, (lit_true_pos α _ (hpos v j h1 h3)).2 ht⟩
      simp only [List.mem_map, mem_int_range]
      exact ⟨j, ⟨h3, h4⟩, rfl⟩
    · exact (hpair _ _ (hpos v c1 h1 h3) (hpos v c2 h1 (by omega))).2
        (hb v c1 c2 h1 h2 h3 h4 h5)
    · obtain ⟨⟨hu1, _⟩, ⟨hv1, _⟩⟩ := hE e he
      exact (hpair _ _ (hpos e.1 j hu1 h1) (hpos e.2 j hv1 h1)).2 (hc e he j h1 h2)

/-! ## Colourings and satisfying assignments -/

theorem coloring_of_satisfies (V : Int) (edges : List (Int × Int)) (K : Int)
    (hK : 1 ≤ K) (hE : edges_in_range V edges) (α : Int → Bool)
    (hs : satisfies α (coloring_cnf V edges K)) :
    ∃ col : Int → Int, proper_coloring V edges K col := by
  classical
  obtain ⟨ha, _, hc⟩ := (satisfies_coloring_cnf V edges K hK hE α).1 hs
  let col : Int → Int := fun v =>
    if h : ∃ c, 1 ≤ c ∧ c ≤ K ∧ α (var v c K) = true then h.choose else 0
  have hcol : ∀ v, 1 ≤ v → v ≤ V →
      1 ≤ col v ∧ col v ≤ K ∧ α (var v (col v) K) = true := by
    intro v h1 h2
    have hex := ha v h1 h2
    have : col v = hex.choose := dif_pos hex
    rw [this]
    exact hex.choose_spec
  refine ⟨col, fun v h1 h2 => ⟨(hcol v h1 h2).1, (hcol v h1 h2).2.1⟩, ?_⟩
  intro e he heq
  obtain ⟨⟨hu1, hu2⟩, ⟨hv1, hv2⟩⟩ := hE e he
  obtain ⟨c1, c2, c3⟩ := hcol e.1 hu1 hu2
  obtain ⟨_, _, d3⟩ := hcol e.2 hv1 hv2
  rw [← heq] at d3
  rcases hc e he (col e.1) c1 c2 with h | h
  · rw [h] at c3; exact Bool.noConfusion c3
  · rw [h] at d3; exact Bool.noConfusion d3

theorem satisfies_of_coloring (V : Int) (edges : List (Int × Int)) (K : Int)
    (hK : 1 ≤ K) (hE : edges_in_range V edges) (col : Int → Int)
    (hcol : proper_coloring V edges K col) :
    ∃ α : Int → Bool, satisfies α (coloring_cnf V edges K) := by
  classical
  let α : Int → Bool := fun x =>
    decide (∃ v c, 1 ≤ c ∧ c ≤ K ∧ x = var v c K ∧ col v = c)
  have hα : ∀ v c, 1 ≤ c → c ≤ K → (α (var v c K) = true ↔ col v = c) := by
    intro v c h1 h2
    simp only [α, decide_eq_true_eq]
    constructor
    · rintro ⟨v', c', h3, h4, h5, h6⟩
      obtain ⟨rfl, rfl⟩ := var_injective v c v' c' K h1 h2 h3 h4 h5
      exact h6
    · intro h; exact ⟨v, c, h1, h2, rfl, h⟩
  have hαf : ∀ v c, 1 ≤ c → c ≤ K → col v ≠ c → α (var v c K) = false := by
    intro v c h1 h2 hne
    cases hb : α (var v c K) with
    | false => rfl
    | true => exact absurd ((hα v c h1 h2).1 hb) hne
  refine ⟨α, (satisfies_coloring_cnf V edges K hK hE α).2 ⟨?_, ?_, ?_⟩⟩
  · intro v h1 h2
    obtain ⟨h3, h4⟩ := hcol.1 v h1 h2
    exact ⟨col v, h3, h4, (hα v (col v) h3 h4).2 rfl⟩
  · intro v c1 c2 _ _ h3 h4 h5
    by_cases h : col v = c1
    · exact Or.inr (hαf v c2 (by omega) h5 (by omega))
    · exact Or.inl (hαf v c1 h3 (by omega) h)
  · intro e he j h1 h2
    by_cases h : col e.1 = j
    · exact Or.inr (hαf e.2 j h1 h2 (fun h' => hcol.2 e he (by rw [h, h'])))
    · exact Or.inl (hαf e.1 j h1 h2 h)

/-! ## Path invariant of the search -/

theorem bound_path_fresh_root (N : Int) : bound_path N fresh_root :=
  Or.inl ⟨rfl, rfl, rfl⟩

theorem bound_path_create_node (N i v : Int) (n : AssignNode) (hn : bound_path N n)
    (h1 : 1 ≤ i) (h2 : i ≤ N) (hv : v = 1 ∨ v = -1) (h0 : get_assignment n i = 0) :
    bound_path N (create_node i v n) :=
  Or.inr ⟨h1, h2, hv, h0, hn⟩

theorem sat_tree_solution_bound_path (F : Formula) :
    ∀ (fuel : Nat) (n sol : AssignNode) (r : SatResult), bound_path F.num_vars n →
      sat_tree fuel F n sol = some r → r.ret = true → bound_path F.num_vars r.solution := by
  intro fuel
  induction fuel with
  | zero => intro n sol r _ h; simp [sat_tree] at h
  | succ fuel ih =>
    intro n sol r hn h hret
    rw [sat_tree] at h
    split at h
    · simp only [Option.some.injEq] at h; subst h; simp at hret
    · simp only [Option.some.injEq] at h; subst h; exact hn
    · split at h
      · simp only [Option.some.injEq] at h; subst h; simp at hret
      · rename_i i hi
        obtain ⟨h1, h2, h3, _⟩ := first_unassigned_some n _ 1 i hi
        have hiN : i ≤ F.num_vars := by omega
        by_cases hnull : n = AssignNode.NULL
        · simp [hnull] at h
        rw [if_neg hnull] at h
        split at h
        · exact Option.noConfusion h
        · rename_i r1 hr1
          split at h
          · rename_i hret1
            simp only [Option.some.injEq] at h; subst h
            exact ih _ _ r1 (bound_path_create_node _ i 1 n hn h1 hiN (Or.inl rfl) h3) hr1 hret1
          · split at h
            · exact Option.noConfusion h
            · rename_i r2 hr2
              simp only [Option.some.injEq] at h; subst h
              exact ih _ _ r2 (bound_path_create_node _ i (-1) n hn h1 hiN (Or.inr rfl) h3)
                hr2 hret

theorem mem_chain_of_get_assignment (n : AssignNode) (x val : Int)
    (h : get_assignment n x = val) (hval : val ≠ 0) : (x, val) ∈ chain n := by
  induction n with
  | NULL => exact absurd h.symm hval
  | node v value parent ih =>
    by_cases hv : v = x
    · simp only [get_assignment, if_pos hv] at h
      simp [chain, hv, h]
    · simp only [get_assignment, if_neg hv] at h
      exact List.mem_cons_of_mem _ (ih h)

theorem get_assignment_of_mem_chain (N : Int) (n : AssignNode) (hn : bound_path N n)
    (x val : Int) (h : (x, val) ∈ chain n) (hval : val ≠ 0) : get_assignment n x = val := by
  induction n with
  | NULL => simp [chain] at h
  | node v value parent ih =>
    rcases hn with ⟨h1, h2, h3⟩ | ⟨_, _, _, h0, hp⟩
    · subst h1 h2 h3
      simp only [chain, List.mem_singleton, Prod.mk.injEq] at h
      exact absurd h.2 hval
    · simp only [chain, List.mem_cons, Prod.mk.injEq] at h
      rcases h with ⟨rfl, rfl⟩ | h
      · simp [get_assignment]
      · have hx := ih hp h
        have hv : v ≠ x := by
          rintro rfl
          rw [h0] at hx
          exact hval hx.symm
        simp only [get_assignment, if_neg hv]
        exact hx

/-! ## Reporter -/

theorem fill_result_bound_path (N : Int) (hN : N ≤ MAX_VARS) :
    ∀ (n : AssignNode), bound_path N n → ∀ res : Int → Int,
      ∃ res', fill_result n res = some res' ∧
        ∀ x, res' x = if get_assignment n x = 0 then res x else get_assignment n x := by
  intro n
  induction n with
  | NULL => intro hn; exact absurd hn id
  | node v value parent ih =>
    intro hn res
    rcases hn with ⟨h1, h2, h3⟩ | ⟨h1, h2, h3, h0, hp⟩
    · subst h1 h2 h3
      refine ⟨res, by simp [fill_result], ?_⟩
      intro x
      by_cases hx : (0 : Int) = x <;> simp [get_assignment, hx]
    · obtain ⟨res', hres, hx⟩ := ih hp (fun x => if x = v then value else res x)
      have hv0 : v ≠ 0 := by omega
      have hin : 0 ≤ v ∧ v ≤ MAX_VARS := ⟨by omega, by omega⟩
      refine ⟨res', by simp only [fill_result, if_neg hv0, if_pos hin]; exact hres, ?_⟩
      intro x
      rw [hx x]
      by_cases hxv : v = x
      · subst hxv
        have hval : value ≠ 0 := by omega
        simp [get_assignment, h0, hval]
      · have hxv' : ¬ x = v := fun h => hxv h.symm
        simp [get_assignment, hxv, hxv']

theorem find_color_spec (res : Int → Int) (i K : Int) :
    ∀ (k : Nat) (j : Int),
      (∀ j', j ≤ j' → j' < j + k → 0 ≤ var i j' K ∧ var i j' K ≤ MAX_VARS) →
      (find_color res i K j k = some none ∧
        ∀ j', j ≤ j' → j' < j + k → res (var i j' K) ≠ 1) ∨
      (∃ c, find_color res i K j k = some (some c) ∧ j ≤ c ∧ c < j + k ∧
        res (var i c K) = 1 ∧ ∀ j', j ≤ j' → j' < c → res (var i j' K) ≠ 1) := by
  intro k
  induction k with
  | zero =>
    intro j _
    left
    refine ⟨rfl, ?_⟩
    intro j' h1 h2
    simp at h2
    omega
  | succ k ih =>
    intro j hb
    have hin : 0 ≤ (i - 1) * K + j ∧ (i - 1) * K + j ≤ MAX_VARS :=
      hb j (le_refl _) (by push_cast; omega)
    by_cases h1 : res ((i - 1) * K + j) = 1
    · right
      refine ⟨j, by simp only [find_color, if_pos hin, if_pos h1], le_refl _,
        by push_cast; omega, h1, ?_⟩
      intro j' h2 h3
      omega
    · have hstep : find_color res i K j (k + 1) = find_color res i K (j + 1) k := by
        simp only [find_color, if_pos hin, if_neg h1]
      rw [hstep]
      rcases ih (j + 1) (fun j' h2 h3 => hb j' (by omega) (by push_cast; omega)) with
        ⟨h2, h3⟩ | ⟨c, h2, h3, h4, h5, h6⟩
      · left
        refine ⟨h2, ?_⟩
        intro j' h4 h5
        by_cases hj : j' = j
        · subst hj; exact h1
        · exact h3 j' (by omega) (by push_cast at h5; omega)
      · right
        refine ⟨c, h2, by omega, by push_cast; omega, h5, ?_⟩
        intro j' h7 h8
        by_cases hj : j' = j
        · subst hj; exact h1
        · exact h6 j' (by omega) h8

theorem print_loop_spec (res : Int → Int) (K : Int) :
    ∀ (k : Nat) (i : Int),
      (∀ v, i ≤ v → v < i + k → ∃ c, find_color res v K 1 K.toNat = some (some c)) →
      ∃ lines, print_loop res K i k = some lines ∧
        lines.map Prod.fst = (List.range k).map (fun (t : Nat) => i + (t : Int)) ∧
        ∀ p ∈ lines, find_color res p.1 K 1 K.toNat = some (some p.2) := by
  intro k
  induction k with
  | zero => intro i _; exact ⟨[], rfl, rfl, by simp⟩
  | succ k ih =>
    intro i h
    obtain ⟨c, hc⟩ := h i (le_refl _) (by push_cast; omega)
    obtain ⟨lines, h1, h2, h3⟩ := ih (i + 1) (fun v hv1 hv2 => h v (by omega)
      (by push_cast; omega))
    refine ⟨(i, c) :: lines, by simp only [print_loop, hc, h1], ?_, ?_⟩
    · rw [List.range_succ_eq_map, List.map_cons, List.map_cons, h2, List.map_map]
      simp only [Nat.cast_zero, add_zero, List.cons.injEq, true_and]
      apply List.map_congr_left
      intro t _
      simp only [Function.comp, Nat.succ_eq_add_one]
      push_cast
      ring
    · intro p hp
      rcases List.mem_cons.1 hp with rfl | hp
      · exact hc
      · exact h3 p hp

/-- At a node where every clause of the encoding is satisfied, each vertex has exactly one
colour variable that reads `+1`, and the two endpoints of an edge never both read `+1` on
the same colour. -/
theorem colors_at_solution (V : Int) (edges : List (Int × Int)) (K : Int)
    (hK : 1 ≤ K) (hE : edges_in_range V edges) (s : AssignNode)
    (hall : all_satisfied_at (coloring_cnf V edges K) s) :
    (∀ v, 1 ≤ v → v ≤ V → ∃ c, 1 ≤ c ∧ c ≤ K ∧ get_assignment s (var v c K) = 1) ∧
    (∀ v c1 c2, 1 ≤ v → v ≤ V → 1 ≤ c1 → c1 ≤ K → 1 ≤ c2 → c2 ≤ K →
      get_assignment s (var v c1 K) = 1 → get_assignment s (var v c2 K) = 1 → c1 = c2) ∧
    (∀ e ∈ edges, ∀ j, 1 ≤ j → j ≤ K →
      ¬ (get_assignment s (var e.1 j K) = 1 ∧ get_assignment s (var e.2 j K) = 1)) := by
  have hagree : agrees (fun x => decide (get_assignment s x = 1)) s := by
    intro x
    constructor
    · intro h; simp [h]
    · intro h; simp [h]
  obtain ⟨ha, hb, hc⟩ := (satisfies_coloring_cnf V edges K hK hE _).1
    (satisfies_of_all_satisfied _ s _ hall hagree)
  simp only [decide_eq_true_eq, decide_eq_false_iff_not] at ha hb hc
  refine ⟨ha, ?_, ?_⟩
  · intro v c1 c2 h1 h2 h3 h4 h5 h6 g1 g2
    rcases lt_trichotomy c1 c2 with hlt | heq | hgt
    · rcases hb v c1 c2 h1 h2 h3 hlt h6 with h | h
      · exact absurd g1 h
      · exact absurd g2 h
    · exact heq
    · rcases hb v c2 c1 h1 h2 h5 hgt h4 with h | h
      · exact absurd g2 h
      · exact absurd g1 h
  · rintro e he j h1 h2 ⟨g1, g2⟩
    rcases hc e he j h1 h2 with h | h
    · exact h g1
    · exact h g2

/-! ## The first satisfying node -/

theorem not_all_satisfied_of_scan (F : Formula) (n : AssignNode)
    (h : scan_clauses F n F.clauses true = some false) : ¬ all_satisfied_at F n := by
  intro hall
  obtain ⟨_, c, hc, hs⟩ := scan_clauses_eq_some_false F n F.clauses h
  rw [hall c hc] at hs
  exact Bool.noConfusion hs

theorem sat_tree_first_path (F : Formula) (hF : formula_inv F) :
    ∀ (fuel : Nat) (n sol : AssignNode) (r : SatResult), ternary n →
      sat_tree fuel F n sol = some r → r.ret = true →
      ∃ path : List (Int × Int), r.solution = descend n path ∧
        (∀ d ∈ path, d.2 = 1 ∨ d.2 = -1) ∧
        (∀ p q, path = p ++ q → q ≠ [] → ¬ all_satisfied_at F (descend n p)) ∧
        (∀ p x q, path = p ++ (x, -1) :: q →
          ¬ ∃ α : Int → Bool, agrees α (descend n p) ∧ α x = true ∧ satisfies α F) := by
  intro fuel
  induction fuel with
  | zero => intro n sol r _ h; simp [sat_tree] at h
  | succ fuel ih =>
    intro n sol r hn h hret
    rw [sat_tree] at h
    split at h
    · simp only [Option.some.injEq] at h; subst h; simp at hret
    · simp only [Option.some.injEq] at h; subst h
      refine ⟨[], rfl, by simp, ?_, ?_⟩
      · intro p q hpq hq
        have := List.append_eq_nil.1 hpq.symm
        exact absurd this.2 hq
      · intro p x q hpq
        have := List.append_eq_nil.1 hpq.symm
        simp at this
    · rename_i hscan
      have hnot := not_all_satisfied_of_scan F n hscan
      split at h
      · simp only [Option.some.injEq] at h; subst h; simp at hret
      · rename_i i hi
        obtain ⟨_, _, h0, _⟩ := first_unassigned_some n _ 1 i hi
        by_cases hnull : n = AssignNode.NULL
        · simp [hnull] at h
        rw [if_neg hnull] at h
        split at h
        · exact Option.noConfusion h
        · rename_i r1 hr1
          have hc1 := ternary_create_node i 1 n hn (Or.inl rfl)
          split at h
          · rename_i hret1
            simp only [Option.some.injEq] at h; subst h
            obtain ⟨path, e1, e2, e3, e4⟩ := ih _ _ r1 hc1 hr1 hret1
            refine ⟨(i, 1) :: path, e1, ?_, ?_, ?_⟩
            · intro d hd
              rcases List.mem_cons.1 hd with rfl | hd
              · exact Or.inl rfl
              · exact e2 d hd
            · intro p q hpq hq
              cases p with
              | nil => exact hnot
              | cons d p' =>
                simp only [List.cons_append, List.cons.injEq] at hpq
                obtain ⟨rfl, hpq⟩ := hpq
                exact e3 p' q hpq hq
            · intro p x q hpq
              cases p with
              | nil =>
                simp only [List.nil_append, List.cons.injEq, Prod.mk.injEq] at hpq
                omega
              | cons d p' =>
                simp only [List.cons_append, List.cons.injEq] at hpq
                obtain ⟨rfl, hpq⟩ := hpq
                exact e4 p' x q hpq
          · rename_i hret1
            split at h
            · exact Option.noConfusion h
            · rename_i r2 hr2
              simp only [Option.some.injEq] at h; subst h
              have hc2 := ternary_create_node i (-1) n hn (Or.inr rfl)
              obtain ⟨path, e1, e2, e3, e4⟩ := ih _ _ r2 hc2 hr2 hret
              refine ⟨(i, -1) :: path, e1, ?_, ?_, ?_⟩
              · intro d hd
                rcases List.mem_cons.1 hd with rfl | hd
                · exact Or.inr rfl
                · exact e2 d hd
              · intro p q hpq hq
                cases p with
                | nil => exact hnot
                | cons d p' =>
                  simp only [List.cons_append, List.cons.injEq] at hpq
                  obtain ⟨rfl, hpq⟩ := hpq
                  exact e3 p' q hpq hq
              · intro p x q hpq
                cases p with
                | nil =>
                  simp only [List.nil_append, List.cons.injEq, Prod.mk.injEq] at hpq
                  obtain ⟨⟨rfl, _⟩, _⟩ := hpq
                  rintro ⟨α, hα, hαi, hs⟩
                  have := (sat_tree_complete F hF _ _ _ r1 hc1 hr1).2
                    ⟨α, (agrees_create_node_true α i n h0).2 ⟨hα, hαi⟩, hs⟩
                  exact hret1 this
                | cons d p' =>
                  simp only [List.cons_append, List.cons.injEq] at hpq
                  obtain ⟨rfl, hpq⟩ := hpq
                  exact e4 p' x q hpq

theorem all_satisfied_test_eq_true (F : Formula) (n : AssignNode) :
    all_satisfied_test F n = true ↔ all_satisfied_at F n := by
  simp [all_satisfied_test, all_satisfied_at, List.all_eq_true]

/-- Below a node that leaves the variables from `i` on unassigned, the decision tree keeps
every assignment of that node. -/
theorem preorder_keeps (k : Nat) :
    ∀ (i : Int) (n m : AssignNode), (∀ x, i ≤ x → get_assignment n x = 0) →
      m ∈ preorder k i n → ∀ x, get_assignment n x ≠ 0 → get_assignment m x = get_assignment n x := by
  induction k with
  | zero =>
    intro i n m _ hm x _
    simp only [preorder, List.mem_singleton] at hm
    rw [hm]
  | succ k ih =>
    intro i n m hn hm x hx
    simp only [preorder, List.mem_cons, List.mem_append] at hm
    have hxi : i ≠ x := by
      rintro rfl
      exact hx (hn i (le_refl _))
    have hchild : ∀ v : Int, (∀ y, i + 1 ≤ y → get_assignment (create_node i v n) y = 0) ∧
        get_assignment (create_node i v n) x = get_assignment n x := by
      intro v
      refine ⟨?_, by rw [get_assignment_create_node, if_neg hxi]⟩
      intro y hy
      rw [get_assignment_create_node, if_neg (by omega)]
      exact hn y (by omega)
    rcases hm with rfl | hm | hm
    · rfl
    · rw [ih (i + 1) _ m (hchild 1).1 hm x (by rw [(hchild 1).2]; exact hx), (hchild 1).2]
    · rw [ih (i + 1) _ m (hchild (-1)).1 hm x (by rw [(hchild (-1)).2]; exact hx),
        (hchild (-1)).2]

theorem not_satisfied_of_keeps (F : Formula) (c : Clause) (n m : AssignNode)
    (hu : is_clause_unsatisfiable F c n = true)
    (hk : ∀ x, get_assignment n x ≠ 0 → get_assignment m x = get_assignment n x) :
    is_clause_satisfied F c m = false := by
  obtain ⟨ha, he⟩ := (is_clause_unsatisfiable_eq_true F c n).1 hu
  cases hs : is_clause_satisfied F c m with
  | false => rfl
  | true =>
    obtain ⟨lit, hl, ht⟩ := (is_clause_satisfied_eq_true F c m).1 hs
    have hne : ¬ eval_literal n lit = true := by rw [he lit hl]; exact Bool.noConfusion
    rw [eval_literal_eq_true] at ht hne
    rw [hk _ (ha lit hl)] at ht
    exact absurd ht hne

theorem sat_tree_preorder (F : Formula) (hF : formula_inv F) :
    ∀ (fuel k : Nat) (i : Int) (n sol : AssignNode) (r : SatResult),
      k = (F.num_vars + 1 - i).toNat → 1 ≤ i →
      (∀ x, 1 ≤ x → x < i → get_assignment n x ≠ 0) →
      (∀ x, i ≤ x → get_assignment n x = 0) →
      sat_tree fuel F n sol = some r →
      (r.ret = true → (preorder k i n).find? (all_satisfied_test F) = some r.solution) ∧
      (r.ret = false → ∀ m ∈ preorder k i n, all_satisfied_test F m = false) := by
  intro fuel
  induction fuel with
  | zero => intro k i n sol r _ _ _ _ h; simp [sat_tree] at h
  | succ fuel ih =>
    intro k i n sol r hik hi1 hlow hhigh h
    rw [sat_tree] at h
    split at h
    · rename_i hscan
      simp only [Option.some.injEq] at h; subst h
      obtain ⟨c, hc, hu⟩ := (scan_clauses_eq_none F n F.clauses true).1 hscan
      refine ⟨fun hh => by simp at hh, fun _ m hm => ?_⟩
      have := not_satisfied_of_keeps F c n m hu (preorder_keeps k i n m hhigh hm)
      cases ht : all_satisfied_test F m with
      | false => rfl
      | true =>
        rw [(all_satisfied_test_eq_true F m).1 ht c hc] at this
        exact Bool.noConfusion this
    · rename_i hscan
      simp only [Option.some.injEq] at h; subst h
      have hall : all_satisfied_test F n = true :=
        (all_satisfied_test_eq_true F n).2
          ((scan_clauses_eq_some_true F n F.clauses true).1 hscan).2
      refine ⟨fun _ => ?_, fun hh => by simp at hh⟩
      cases k with
      | zero => simp [preorder, List.find?, hall]
      | succ k => simp [preorder, List.find?, hall]
    · rename_i hscan
      have hnot : all_satisfied_test F n = false := by
        cases ht : all_satisfied_test F n with
        | false => rfl
        | true =>
          exact absurd ((all_satisfied_test_eq_true F n).1 ht)
            (not_all_satisfied_of_scan F n hscan)
      split at h
      · rename_i hnone
        exact absurd hnone (first_unassigned_ne_none F hF n hscan)
      · rename_i j hj
        obtain ⟨j1, j2, j3, j4⟩ := first_unassigned_some n _ 1 j hj
        have hji : j = i := by
          have h1 : i ≤ j := by
            by_contra hc
            exact hlow j j1 (by omega) j3
          have h2 : ¬ i < j := fun hc => j4 i hi1 hc (hhigh i (le_refl _))
          omega
        subst hji
        obtain ⟨k', rfl⟩ : ∃ k', k = k' + 1 := ⟨k - 1, by omega⟩
        have hchild : ∀ v : Int, v ≠ 0 →
            (∀ x, 1 ≤ x → x < j + 1 → get_assignment (create_node j v n) x ≠ 0) ∧
            (∀ x, j + 1 ≤ x → get_assignment (create_node j v n) x = 0) := by
          intro v hv
          constructor
          · intro x hx1 hx2
            rw [get_assignment_create_node]
            by_cases hjx : j = x
            · rw [if_pos hjx]; exact hv
            · rw [if_neg hjx]; exact hlow x hx1 (by omega)
          · intro x hx
            rw [get_assignment_create_node, if_neg (by omega)]
            exact hhigh x (by omega)
        have hik' : k' = (F.num_vars + 1 - (j + 1)).toNat := by omega
        by_cases hnull : n = AssignNode.NULL
        · simp [hnull] at h
        rw [if_neg hnull] at h
        split at h
        · exact Option.noConfusion h
        · rename_i r1 hr1
          obtain ⟨a1, a2⟩ := ih k' (j + 1) _ _ r1 hik' (by omega)
            (hchild 1 (by decide)).1 (hchild 1 (by decide)).2 hr1
          split at h
          · rename_i hret1
            simp only [Option.some.injEq] at h; subst h
            refine ⟨fun _ => ?_, fun hh => by simp at hh⟩
            simp only [preorder, List.find?, hnot, List.find?_append, a1 hret1]
            rfl
          · rename_i hret1
            have hret1' : r1.ret = false := by
              cases hb : r1.ret with
              | false => rfl
              | true => exact absurd hb hret1
            have hnone1 : (preorder k' (j + 1) (create_node j 1 n)).find?
                (all_satisfied_test F) = none := by
              rw [List.find?_eq_none]
              intro m hm
              rw [a2 hret1' m hm]
              exact Bool.noConfusion
            split at h
            · exact Option.noConfusion h
            · rename_i r2 hr2
              simp only [Option.some.injEq] at h; subst h
              obtain ⟨b1, b2⟩ := ih k' (j + 1) _ _ r2 hik' (by omega)
                (hchild (-1) (by decide)).1 (hchild (-1) (by decide)).2 hr2
              constructor
              · intro hret
                simp only [preorder, List.find?, hnot, List.find?_append, hnone1, b1 hret]
                rfl
              · intro hret m hm
                simp only [preorder, List.mem_cons, List.mem_append] at hm
                rcases hm with rfl | hm | hm
                · exact hnot
                · exact a2 hret1' m hm
                · exact b2 hret m hm

/-- C5: the first satisfying node in the fixed order is the one reported.  For a formula
with the Formula invariant, when `sat_tree` from the root of `main` returns true with node
`s`, reached by the decisions `path`: (i) at no proper ancestor of `s` are all clauses
satisfied; (ii) wherever the path decides a variable `x` false, no total assignment agrees
with the decisions before it, sets `x` true and satisfies the formula; and `s` is the first
node of the decision tree over the variables `1..num_vars`, in pre-order with the true child
before the false child, at which every clause is satisfied. -/
theorem C5_first_satisfying_reported (F : Formula) (hF : formula_inv F) (fuel : Nat)
    (sol : AssignNode) (r : SatResult) (h : sat_tree fuel F fresh_root sol = some r)
    (hret : r.ret = true) :
    (∃ path : List (Int × Int), r.solution = descend fresh_root path ∧
      (∀ d ∈ path, d.2 = 1 ∨ d.2 = -1) ∧
      (∀ p q, path = p ++ q → q ≠ [] → ¬ all_satisfied_at F (descend fresh_root p)) ∧
      (∀ p x q, path = p ++ (x, -1) :: q →
        ¬ ∃ α : Int → Bool, agrees α (descend fresh_root p) ∧ α x = true ∧ satisfies α F)) ∧
    (preorder F.num_vars.toNat 1 fresh_root).find? (all_satisfied_test F) =
      some r.solution := by
  refine ⟨sat_tree_first_path F hF fuel fresh_root sol r ternary_fresh_root h hret, ?_⟩
  have hroot : ∀ x : Int, get_assignment fresh_root x = 0 := by
    intro x
    by_cases hx : (0 : Int) = x <;> simp [fresh_root, create_node, get_assignment]
  exact (sat_tree_preorder F hF fuel F.num_vars.toNat 1 fresh_root sol r (by omega)
    (le_refl _) (fun x h1 h2 => by omega) (fun x _ => hroot x) h).1 hret

/-- C5 at the clauses `(1, 2)`, `(-1)` over two variables: the reported node is reached by
deciding 1 false, then 2 true. -/
theorem C5_first_satisfying_reported_witness :
    formula_inv ⟨[⟨[1, 2]⟩, ⟨[-1]⟩], 2⟩ ∧
    descend fresh_root [(1, -1), (2, 1)] = create_node 2 1 (create_node 1 (-1) fresh_root) ∧
    ((∃ path : List (Int × Int),
        create_node 2 1 (create_node 1 (-1) fresh_root) = descend fresh_root path ∧
      (∀ d ∈ path, d.2 = 1 ∨ d.2 = -1) ∧
      (∀ p q, path = p ++ q → q ≠ [] →
        ¬ all_satisfied_at ⟨[⟨[1, 2]⟩, ⟨[-1]⟩], 2⟩ (descend fresh_root p)) ∧
      (∀ p x q, path = p ++ (x, -1) :: q →
        ¬ ∃ α : Int → Bool, agrees α (descend fresh_root p) ∧ α x = true ∧
          satisfies α ⟨[⟨[1, 2]⟩, ⟨[-1]⟩], 2⟩)) ∧
    (preorder 2 1 fresh_root).find? (all_satisfied_test ⟨[⟨[1, 2]⟩, ⟨[-1]⟩], 2⟩) =
      some (create_node 2 1 (create_node 1 (-1) fresh_root))) :=
  ⟨by simp [formula_inv], rfl,
    C5_first_satisfying_reported ⟨[⟨[1, 2]⟩, ⟨[-1]⟩], 2⟩ (by simp [formula_inv]) 3
      AssignNode.NULL
      ⟨true, create_node 2 1 (create_node 1 (-1) fresh_root),
        Tree.node 1 (-1) Tree.NULL (Tree.node 2 1 Tree.NULL Tree.NULL),
        Tree.node 1 1 Tree.NULL Tree.NULL⟩ (by decide) rfl⟩

/-! ## Recursion budget -/

theorem sat_tree_fuel_succ (F : Formula) :
    ∀ (fuel : Nat) (n sol : AssignNode) (r : SatResult),
      sat_tree fuel F n sol = some r → sat_tree (fuel + 1) F n sol = some r := by
  intro fuel
  induction fuel with
  | zero => intro n sol r h; simp [sat_tree] at h
  | succ fuel ih =>
    intro n sol r h
    rw [sat_tree] at h ⊢
    cases hscan : scan_clauses F n F.clauses true with
    | none => simp only [hscan] at h ⊢; exact h
    | some b =>
      cases b with
      | true => simp only [hscan] at h ⊢; exact h
      | false =>
        simp only [hscan] at h ⊢
        cases hfu : first_unassigned n 1 F.num_vars.toNat with
        | none => simp only [hfu] at h ⊢; exact h
        | some i =>
          simp only [hfu] at h ⊢
          by_cases hnull : n = AssignNode.NULL
          · simp [hnull] at h
          rw [if_neg hnull] at h ⊢
          cases h1 : sat_tree fuel F (create_node i 1 n) sol with
          | none => simp [h1] at h
          | some r1 =>
            rw [ih _ _ r1 h1]
            simp only [h1] at h ⊢
            by_cases hret : r1.ret = true
            · simp only [hret, if_true] at h ⊢; exact h
            · simp only [hret, if_false] at h ⊢
              cases h2 : sat_tree fuel F (create_node i (-1) n) r1.solution with
              | none => simp [h2] at h
              | some r2 =>
                rw [ih _ _ r2 h2]
                simp only [h2] at h ⊢
                exact h

theorem sat_tree_fuel_le (F : Formula) (fuel fuel' : Nat) (n sol : AssignNode)
    (r : SatResult) (hle : fuel ≤ fuel') (h : sat_tree fuel F n sol = some r) :
    sat_tree fuel' F n sol = some r := by
  induction hle with
  | refl => exact h
  | step _ ih => exact sat_tree_fuel_succ F _ n sol r ih

theorem get_assignment_fresh_root (x : Int) : get_assignment fresh_root x = 0 := by
  by_cases hx : (0 : Int) = x <;> simp [fresh_root, create_node, get_assignment]

/-! ## Scenarios -/

/-- C11: for the formula whose only clause is `(1)`, with `num_vars = N >= 1`, `sat_tree`
from the root of `main` returns true (any recursion budget from 2 on) and the solution is
the true child of the root, binding variable 1 to `+1`; the variables `2..N` read `0` at
the solution, so a SAT result need not be a total assignment. -/
theorem C11_scenario_unit_clause (N : Int) (hN : 1 ≤ N) (fuel : Nat) (hfuel : 2 ≤ fuel)
    (sol : AssignNode) :
    sat_tree fuel ⟨[⟨[1]⟩], N⟩ fresh_root sol =
      some ⟨true, create_node 1 1 fresh_root, Tree.NULL, Tree.node 1 1 Tree.NULL Tree.NULL⟩ ∧
    get_assignment (create_node 1 1 fresh_root) 1 = 1 ∧
    ∀ x : Int, 2 ≤ x → x ≤ N → get_assignment (create_node 1 1 fresh_root) x = 0 := by
  refine ⟨?_, rfl, ?_⟩
  · apply sat_tree_fuel_le _ 2 fuel _ _ _ hfuel
    obtain ⟨k, hk⟩ : ∃ k : Nat, N.toNat = k + 1 := ⟨N.toNat - 1, by omega⟩
    have hscan : scan_clauses ⟨[⟨[1]⟩], N⟩ fresh_root [⟨[1]⟩] true = some false := rfl
    have hscan1 : scan_clauses ⟨[⟨[1]⟩], N⟩ (create_node 1 1 fresh_root) [⟨[1]⟩] true =
        some true := rfl
    have hfu : first_unassigned fresh_root 1 (k + 1) = some 1 := rfl
    have hnn : fresh_root ≠ AssignNode.NULL := AssignNode.noConfusion
    have h1 : sat_tree 1 ⟨[⟨[1]⟩], N⟩ (create_node 1 1 fresh_root) sol =
        some ⟨true, create_node 1 1 fresh_root, Tree.NULL, Tree.NULL⟩ := by
      rw [sat_tree]
      simp only [hscan1]
    rw [sat_tree]
    simp only [hscan, hk, hfu, if_neg hnn, h1, if_true]
  · intro x h2 _
    rw [get_assignment_create_node, if_neg (by omega)]
    exact get_assignment_fresh_root x

/-- C11 with three variables: variables 2 and 3 stay unbound at the solution. -/
theorem C11_scenario_unit_clause_witness :
    sat_tree 2 ⟨[⟨[1]⟩], 3⟩ fresh_root AssignNode.NULL =
      some ⟨true, create_node 1 1 fresh_root, Tree.NULL, Tree.node 1 1 Tree.NULL Tree.NULL⟩ ∧
    get_assignment (create_node 1 1 fresh_root) 1 = 1 ∧
    ∀ x : Int, 2 ≤ x → x ≤ 3 → get_assignment (create_node 1 1 fresh_root) x = 0 :=
  C11_scenario_unit_clause 3 (by decide) 2 (le_refl _) AssignNode.NULL

/-! ## The branches of the search -/

theorem scan_clauses_some_false_of (F : Formula) (n : AssignNode)
    (hnf : ∀ c ∈ F.clauses, is_clause_unsatisfiable F c n = false)
    (hns : ∃ c ∈ F.clauses, is_clause_satisfied F c n = false) :
    scan_clauses F n F.clauses true = some false := by
  cases hscan : scan_clauses F n F.clauses true with
  | none =>
    obtain ⟨c, hc, hu⟩ := (scan_clauses_eq_none F n F.clauses true).1 hscan
    rw [hnf c hc] at hu
    exact Bool.noConfusion hu
  | some b =>
    cases b with
    | false => rfl
    | true =>
      obtain ⟨c, hc, hs⟩ := hns
      rw [((scan_clauses_eq_some_true F n F.clauses true).1 hscan).2 c hc] at hs
      exact Bool.noConfusion hs

/-- C13: the defensive branch is unreachable.  For a formula with the Formula invariant and
any node, when the clause scan finds no falsified clause and some clause not satisfied, the
variable loop finds a variable `i` of `1..num_vars` with `get_assignment(n, i) == 0` (the
least one), so it branches and does not run to the `return false` behind it. -/
theorem C13_defensive_branch_unreachable (F : Formula) (hF : formula_inv F) (n : AssignNode)
    (hnf : ∀ c ∈ F.clauses, is_clause_unsatisfiable F c n = false)
    (hns : ∃ c ∈ F.clauses, is_clause_satisfied F c n = false) :
    scan_clauses F n F.clauses true = some false ∧
    ∃ i : Int, first_unassigned n 1 F.num_vars.toNat = some i ∧
      1 ≤ i ∧ i ≤ F.num_vars ∧ get_assignment n i = 0 ∧
      ∀ m : Int, 1 ≤ m → m < i → get_assignment n m ≠ 0 := by
  have hscan := scan_clauses_some_false_of F n hnf hns
  refine ⟨hscan, ?_⟩
  cases hfu : first_unassigned n 1 F.num_vars.toNat with
  | none => exact absurd hfu (first_unassigned_ne_none F hF n hscan)
  | some i =>
    obtain ⟨h1, h2, h3, h4⟩ := first_unassigned_some n _ 1 i hfu
    exact ⟨i, rfl, h1, by omega, h3, h4⟩

/-- C13 at the clauses `(1, 2)`, `(-1)` over two variables, at the node binding 1 to false:
the loop finds variable 2. -/
theorem C13_defensive_branch_unreachable_witness :
    formula_inv ⟨[⟨[1, 2]⟩, ⟨[-1]⟩], 2⟩ ∧
    first_unassigned (create_node 1 (-1) fresh_root) 1 2 = some 2 ∧
    (scan_clauses ⟨[⟨[1, 2]⟩, ⟨[-1]⟩], 2⟩ (create_node 1 (-1) fresh_root)
        [⟨[1, 2]⟩, ⟨[-1]⟩] true = some false ∧
      ∃ i : Int, first_unassigned (create_node 1 (-1) fresh_root) 1 2 = some i ∧
        1 ≤ i ∧ i ≤ 2 ∧ get_assignment (create_node 1 (-1) fresh_root) i = 0 ∧
        ∀ m : Int, 1 ≤ m → m < i → get_assignment (create_node 1 (-1) fresh_root) m ≠ 0) :=
  ⟨by simp [formula_inv], rfl,
    C13_defensive_branch_unreachable ⟨[⟨[1, 2]⟩, ⟨[-1]⟩], 2⟩ (by simp [formula_inv])
      (create_node 1 (-1) fresh_root) (by decide) (by decide)⟩

/-- C16: an empty clause makes the instance UNSAT.  `is_clause_unsatisfiable` reports a
clause of size 0 as falsified at every node; so for a formula that contains such a clause
`sat_tree` returns false from every start node, hangs no child at the node and leaves
`*solution` as it was, whatever the other clauses and `num_vars` are. -/
theorem C16_empty_clause_unsat (F : Formula) (c : Clause) (hc : c ∈ F.clauses)
    (hsize : c.size = 0) (fuel : Nat) (n sol : AssignNode) :
    is_clause_unsatisfiable F c n = true ∧
    sat_tree (fuel + 1) F n sol = some ⟨false, sol, Tree.NULL, Tree.NULL⟩ := by
  have hlits : c.literals = [] := by
    unfold Clause.size at hsize
    exact List.length_eq_zero.1 (by omega)
  have hu : is_clause_unsatisfiable F c n = true := by
    rw [is_clause_unsatisfiable_eq_true, hlits]
    simp
  refine ⟨hu, ?_⟩
  have hscan := (scan_clauses_eq_none F n F.clauses true).2 ⟨c, hc, hu⟩
  rw [sat_tree]
  simp only [hscan]

/-- C16 at the formula with the clauses `(1)` and `()` over one variable. -/
theorem C16_empty_clause_unsat_witness :
    is_clause_unsatisfiable ⟨[⟨[1]⟩, ⟨[]⟩], 1⟩ ⟨[]⟩ fresh_root = true ∧
    sat_tree (1 + 1) ⟨[⟨[1]⟩, ⟨[]⟩], 1⟩ fresh_root AssignNode.NULL =
      some ⟨false, AssignNode.NULL, Tree.NULL, Tree.NULL⟩ :=
  C16_empty_clause_unsat ⟨[⟨[1]⟩, ⟨[]⟩], 1⟩ ⟨[]⟩ (by simp) rfl 1 fresh_root AssignNode.NULL

/-! ## Variable numbering is a bijection -/

theorem var_surjective (V K x : Int) (hK : 1 ≤ K) (h1 : 1 ≤ x) (h2 : x ≤ V * K) :
    ∃ v c, 1 ≤ v ∧ v ≤ V ∧ 1 ≤ c ∧ c ≤ K ∧ var v c K = x := by
  have hKpos : 0 < K := by omega
  have hdiv := Int.ediv_add_emod (x - 1) K
  have hm0 := Int.emod_nonneg (x - 1) (by omega : K ≠ 0)
  have hm1 := Int.emod_lt_of_pos (x - 1) hKpos
  have hq0 : 0 ≤ (x - 1) / K := Int.ediv_nonneg (by omega) (by omega)
  have hqV : (x - 1) / K < V := Int.ediv_lt_of_lt_mul hKpos (by omega)
  refine ⟨(x - 1) / K + 1, (x - 1) % K + 1, by omega, by omega, by omega, by omega, ?_⟩
  unfold var
  have : ((x - 1) / K + 1 - 1) * K = K * ((x - 1) / K) := by ring
  rw [this]
  omega

/-- C17: for every `V` and `K >= 1`, `var(v, c, K) = (v-1)*K + c` maps the pairs `(v, c)` with
`1 <= v <= V`, `1 <= c <= K` one-to-one onto `1..V*K`, and the index that `print_coloring`
computes, `(i-1)*total_cor + j`, is `var(i, j, total_cor)`. -/
theorem C17_var_bijection (V K : Int) (hK : 1 ≤ K) :
    (∀ v c, var v c K = (v - 1) * K + c) ∧
    (∀ v c, 1 ≤ v → v ≤ V → 1 ≤ c → c ≤ K → 1 ≤ var v c K ∧ var v c K ≤ V * K) ∧
    (∀ v c v' c', 1 ≤ c → c ≤ K → 1 ≤ c' → c' ≤ K →
      var v c K = var v' c' K → v = v' ∧ c = c') ∧
    (∀ x, 1 ≤ x → x ≤ V * K → ∃ v c, 1 ≤ v ∧ v ≤ V ∧ 1 ≤ c ∧ c ≤ K ∧ var v c K = x) ∧
    (∀ (res : Int → Int) (i total_cor j : Int) (k : Nat),
      find_color res i total_cor j (k + 1) =
        if 0 ≤ var i j total_cor ∧ var i j total_cor ≤ MAX_VARS then
          if res (var i j total_cor) = 1 then some (some j)
          else find_color res i total_cor (j + 1) k
        else none) := by
  refine ⟨fun _ _ => rfl, ?_, ?_, ?_, fun _ _ _ _ _ => rfl⟩
  · intro v c h1 h2 h3 h4
    exact ⟨var_pos v c K h1 h3 (by omega), var_le v c V K h2 h4 (by omega)⟩
  · intro v c v' c' h1 h2 h3 h4 h
    exact var_injective v c v' c' K h1 h2 h3 h4 h
  · intro x h1 h2
    exact var_surjective V K x hK h1 h2

/-- C17 with 3 vertices and 2 colours. -/
theorem C17_var_bijection_witness :
    var 3 2 2 = 6 ∧
    ((∀ v c, var v c 2 = (v - 1) * 2 + c) ∧
    (∀ v c, 1 ≤ v → v ≤ 3 → 1 ≤ c → c ≤ 2 → 1 ≤ var v c 2 ∧ var v c 2 ≤ 3 * 2) ∧
    (∀ v c v' c', 1 ≤ c → c ≤ 2 → 1 ≤ c' → c' ≤ 2 →
      var v c 2 = var v' c' 2 → v = v' ∧ c = c') ∧
    (∀ x, 1 ≤ x → x ≤ 3 * 2 → ∃ v c, 1 ≤ v ∧ v ≤ 3 ∧ 1 ≤ c ∧ c ≤ 2 ∧ var v c 2 = x) ∧
    (∀ (res : Int → Int) (i total_cor j : Int) (k : Nat),
      find_color res i total_cor j (k + 1) =
        if 0 ≤ var i j total_cor ∧ var i j total_cor ≤ MAX_VARS then
          if res (var i j total_cor) = 1 then some (some j)
          else find_color res i total_cor (j + 1) k
        else none)) :=
  ⟨rfl, C17_var_bijection 3 2 (by decide)⟩

/-! ## Pruning is monotone -/

theorem get_assignment_child_of_assigned (n : AssignNode) (x v y : Int)
    (h0 : get_assignment n x = 0) (hy : get_assignment n y ≠ 0) :
    get_assignment (create_node x v n) y = get_assignment n y := by
  rw [get_assignment_create_node]
  by_cases hxy : x = y
  · subst hxy; exact absurd h0 hy
  · rw [if_neg hxy]

theorem satisfied_child (F : Formula) (c : Clause) (n : AssignNode) (x v : Int)
    (h0 : get_assignment n x = 0) (hs : is_clause_satisfied F c n = true) :
    is_clause_satisfied F c (create_node x v n) = true := by
  obtain ⟨lit, hl, ht⟩ := (is_clause_satisfied_eq_true F c n).1 hs
  refine (is_clause_satisfied_eq_true F c _).2 ⟨lit, hl, ?_⟩
  rw [eval_literal_eq_true] at ht ⊢
  have hne : get_assignment n (lit.natAbs : Int) ≠ 0 := by
    rcases ht with ⟨_, h⟩ | ⟨_, h⟩ <;> omega
  rw [get_assignment_child_of_assigned n x v _ h0 hne]
  exact ht

theorem falsified_child (F : Formula) (c : Clause) (n : AssignNode) (x v : Int)
    (h0 : get_assignment n x = 0) (hu : is_clause_unsatisfiable F c n = true) :
    is_clause_unsatisfiable F c (create_node x v n) = true := by
  obtain ⟨ha, he⟩ := (is_clause_unsatisfiable_eq_true F c n).1 hu
  refine (is_clause_unsatisfiable_eq_true F c _).2 ⟨?_, ?_⟩
  · intro lit hl
    rw [get_assignment_child_of_assigned n x v _ h0 (ha lit hl)]
    exact ha lit hl
  · intro lit hl
    cases hb : eval_literal (create_node x v n) lit with
    | false => rfl
    | true =>
      rw [eval_literal_eq_true, get_assignment_child_of_assigned n x v _ h0 (ha lit hl),
        ← eval_literal_eq_true, he lit hl] at hb
      exact Bool.noConfusion hb

theorem not_satisfied_and_falsified (F : Formula) (c : Clause) (n : AssignNode) :
    ¬ (is_clause_satisfied F c n = true ∧ is_clause_unsatisfiable F c n = true) := by
  rintro ⟨hs, hu⟩
  obtain ⟨lit, hl, ht⟩ := (is_clause_satisfied_eq_true F c n).1 hs
  rw [((is_clause_unsatisfiable_eq_true F c n).1 hu).2 lit hl] at ht
  exact Bool.noConfusion ht

theorem falsified_descend (F : Formula) (c : Clause) :
    ∀ (path : List (Int × Int)) (n : AssignNode), fresh_decisions n path →
      is_clause_unsatisfiable F c n = true →
      is_clause_unsatisfiable F c (descend n path) = true := by
  intro path
  induction path with
  | nil => intro n _ hu; exact hu
  | cons d rest ih =>
    intro n hp hu
    exact ih _ hp.2 (falsified_child F c n d.1 d.2 hp.1 hu)

/-- C19: pruning is monotone.  For a node `n`, a variable `x` unassigned at `n` and the
child `create_node(x, v, n)`: a clause satisfied at `n` is satisfied at the child, a clause
falsified at `n` is falsified at the child, and no clause is both satisfied and falsified at
a node.  Hence below a node at which a clause of the formula is falsified, no node reached
by deciding unassigned variables has all clauses satisfied. -/
theorem C19_pruning_monotone (F : Formula) (c : Clause) (n : AssignNode) (x v : Int)
    (h0 : get_assignment n x = 0) :
    (is_clause_satisfied F c n = true →
      is_clause_satisfied F c (create_node x v n) = true) ∧
    (is_clause_unsatisfiable F c n = true →
      is_clause_unsatisfiable F c (create_node x v n) = true) ∧
    (∀ m : AssignNode,
      ¬ (is_clause_satisfied F c m = true ∧ is_clause_unsatisfiable F c m = true)) ∧
    (c ∈ F.clauses → is_clause_unsatisfiable F c n = true →
      ∀ path : List (Int × Int), fresh_decisions n path →
        ¬ all_satisfied_at F (descend n path)) := by
  refine ⟨satisfied_child F c n x v h0, falsified_child F c n x v h0,
    not_satisfied_and_falsified F c, ?_⟩
  intro hc hu path hp hall
  exact not_satisfied_and_falsified F c _ ⟨hall c hc, falsified_descend F c path n hp hu⟩

/-- C19 at the clauses `(1)`, `(-1)`: at the node binding 1 to true the clause `(-1)` is
falsified, and it stays so when 2 is decided. -/
theorem C19_pruning_monotone_witness :
    get_assignment (create_node 1 1 fresh_root) 2 = 0 ∧
    is_clause_unsatisfiable ⟨[⟨[1]⟩, ⟨[-1]⟩], 2⟩ ⟨[-1]⟩ (create_node 1 1 fresh_root) = true ∧
    ((is_clause_satisfied ⟨[⟨[1]⟩, ⟨[-1]⟩], 2⟩ ⟨[-1]⟩ (create_node 1 1 fresh_root) = true →
      is_clause_satisfied ⟨[⟨[1]⟩, ⟨[-1]⟩], 2⟩ ⟨[-1]⟩
        (create_node 2 1 (create_node 1 1 fresh_root)) = true) ∧
    (is_clause_unsatisfiable ⟨[⟨[1]⟩, ⟨[-1]⟩], 2⟩ ⟨[-1]⟩ (create_node 1 1 fresh_root) = true →
      is_clause_unsatisfiable ⟨[⟨[1]⟩, ⟨[-1]⟩], 2⟩ ⟨[-1]⟩
        (create_node 2 1 (create_node 1 1 fresh_root)) = true) ∧
    (∀ m : AssignNode,
      ¬ (is_clause_satisfied ⟨[⟨[1]⟩, ⟨[-1]⟩], 2⟩ ⟨[-1]⟩ m = true ∧
        is_clause_unsatisfiable ⟨[⟨[1]⟩, ⟨[-1]⟩], 2⟩ ⟨[-1]⟩ m = true)) ∧
    ((⟨[-1]⟩ : Clause) ∈ (⟨[⟨[1]⟩, ⟨[-1]⟩], 2⟩ : Formula).clauses →
      is_clause_unsatisfiable ⟨[⟨[1]⟩, ⟨[-1]⟩], 2⟩ ⟨[-1]⟩ (create_node 1 1 fresh_root) = true →
      ∀ path : List (Int × Int), fresh_decisions (create_node 1 1 fresh_root) path →
        ¬ all_satisfied_at ⟨[⟨[1]⟩, ⟨[-1]⟩], 2⟩
          (descend (create_node 1 1 fresh_root) path))) :=
  ⟨rfl, rfl,
    C19_pruning_monotone ⟨[⟨[1]⟩, ⟨[-1]⟩], 2⟩ ⟨[-1]⟩ (create_node 1 1 fresh_root) 2 1 rfl⟩

/-! ## The tree that the search builds -/

theorem first_unassigned_eq_of_prefix (n : AssignNode) (i j : Int) (k : Nat)
    (hi1 : 1 ≤ i) (hlow : ∀ x, 1 ≤ x → x < i → get_assignment n x ≠ 0)
    (hhigh : ∀ x, i ≤ x → get_assignment n x = 0)
    (hj : first_unassigned n 1 k = some j) : j = i := by
  obtain ⟨j1, _, j3, j4⟩ := first_unassigned_some n _ 1 j hj
  have h1 : i ≤ j := by
    by_contra hc
    exact hlow j j1 (by omega) j3
  have h2 : ¬ i < j := fun hc => j4 i hi1 hc (hhigh i (le_refl _))
  omega

theorem prefix_create_node (n : AssignNode) (i v : Int) (hv : v ≠ 0)
    (hlow : ∀ x, 1 ≤ x → x < i → get_assignment n x ≠ 0)
    (hhigh : ∀ x, i ≤ x → get_assignment n x = 0) :
    (∀ x, 1 ≤ x → x < i + 1 → get_assignment (create_node i v n) x ≠ 0) ∧
    (∀ x, i + 1 ≤ x → get_assignment (create_node i v n) x = 0) := by
  constructor
  · intro x hx1 hx2
    rw [get_assignment_create_node]
    by_cases hix : i = x
    · rw [if_pos hix]; exact hv
    · rw [if_neg hix]; exact hlow x hx1 (by omega)
  · intro x hx
    rw [get_assignment_create_node, if_neg (by omega)]
    exact hhigh x (by omega)

theorem sat_tree_tree_shape (F : Formula) :
    ∀ (fuel : Nat) (i : Int) (n sol : AssignNode) (r : SatResult), 1 ≤ i →
      (∀ x, 1 ≤ x → x < i → get_assignment n x ≠ 0) →
      (∀ x, i ≤ x → get_assignment n x = 0) →
      sat_tree fuel F n sol = some r →
      tree_shape i (-1) r.left ∧ tree_shape i 1 r.right := by
  intro fuel
  induction fuel with
  | zero => intro i n sol r _ _ _ h; simp [sat_tree] at h
  | succ fuel ih =>
    intro i n sol r hi1 hlow hhigh h
    rw [sat_tree] at h
    split at h
    · simp only [Option.some.injEq] at h; subst h; exact ⟨trivial, trivial⟩
    · simp only [Option.some.injEq] at h; subst h; exact ⟨trivial, trivial⟩
    · split at h
      · simp only [Option.some.injEq] at h; subst h; exact ⟨trivial, trivial⟩
      · rename_i j hj
        have hji := first_unassigned_eq_of_prefix n i j _ hi1 hlow hhigh hj
        subst hji
        by_cases hnull : n = AssignNode.NULL
        · simp [hnull] at h
        rw [if_neg hnull] at h
        split at h
        · exact Option.noConfusion h
        · rename_i r1 hr1
          obtain ⟨p1, p2⟩ := prefix_create_node n j 1 (by decide) hlow hhigh
          obtain ⟨a1, a2⟩ := ih (j + 1) _ _ r1 (by omega) p1 p2 hr1
          split at h
          · simp only [Option.some.injEq] at h; subst h
            exact ⟨trivial, rfl, rfl, a1, a2⟩
          · split at h
            · exact Option.noConfusion h
            · rename_i r2 hr2
              obtain ⟨q1, q2⟩ := prefix_create_node n j (-1) (by decide) hlow hhigh
              obtain ⟨b1, b2⟩ := ih (j + 1) _ _ r2 (by omega) q1 q2 hr2
              simp only [Option.some.injEq] at h; subst h
              exact ⟨⟨rfl, rfl, b1, b2⟩, rfl, rfl, a1, a2⟩

theorem nodup_int_range (lo hi : Int) : (int_range lo hi).Nodup := by
  unfold int_range
  apply List.Nodup.map _ (List.nodup_range _)
  intro a b hab
  simp only at hab
  omega

theorem tree_paths_of_shape :
    ∀ (t : Tree) (d val : Int), (val = 1 ∨ val = -1) → tree_shape d val t →
      ∀ p ∈ tree_paths t,
        p.map Prod.fst = int_range d (d + p.length - 1) ∧
        ∀ x ∈ p, x.2 = 1 ∨ x.2 = -1 := by
  intro t
  induction t with
  | NULL => intro d val _ _ p hp; simp [tree_paths] at hp
  | node v value left right ihl ihr =>
    intro d val hval hs p hp
    obtain ⟨rfl, rfl, hl, hr⟩ := hs
    simp only [tree_paths, List.mem_cons, List.mem_map, List.mem_append] at hp
    rcases hp with rfl | ⟨q, hq, rfl⟩
    · constructor
      · simp only [List.map_cons, List.map_nil, List.length_singleton, Nat.cast_one]
        rw [int_range_cons v (v + 1 - 1) (by omega), int_range_empty _ _ (by omega)]
      · intro x hx
        simp only [List.mem_singleton] at hx
        subst hx
        exact hval
    · have hq' : q.map Prod.fst = int_range (v + 1) (v + 1 + q.length - 1) ∧
          ∀ x ∈ q, x.2 = 1 ∨ x.2 = -1 := by
        rcases hq with hq | hq
        · exact ihl (v + 1) (-1) (Or.inr rfl) hl q hq
        · exact ihr (v + 1) 1 (Or.inl rfl) hr q hq
      constructor
      · simp only [List.map_cons, List.length_cons, Nat.cast_add, Nat.cast_one]
        rw [int_range_cons v _ (by omega), hq'.1]
        congr 2
        omega
      · intro x hx
        rcases List.mem_cons.1 hx with rfl | hx
        · exact hval
        · exact hq'.2 x hx

/-- C14: path invariant of the search.  In the tree that `sat_tree` builds below the root of
`main`, the right child of a node carries `+1` and the left child `-1`, both for the
variable equal to their depth; so the path from the root to a node at depth `k` binds
exactly the variables `1, 2, ..., k` in this order, each at most once, with values `+1` or
`-1`. -/
theorem C14_path_invariant (F : Formula) (fuel : Nat) (sol : AssignNode) (r : SatResult)
    (h : sat_tree fuel F fresh_root sol = some r) :
    tree_shape 1 (-1) r.left ∧ tree_shape 1 1 r.right ∧
    ∀ p ∈ tree_paths r.left ++ tree_paths r.right,
      p.map Prod.fst = int_range 1 p.length ∧ (p.map Prod.fst).Nodup ∧
      ∀ x ∈ p, x.2 = 1 ∨ x.2 = -1 := by
  obtain ⟨h1, h2⟩ := sat_tree_tree_shape F fuel 1 fresh_root sol r (le_refl _)
    (fun x hx1 hx2 => by omega) (fun x _ => get_assignment_fresh_root x) h
  refine ⟨h1, h2, ?_⟩
  intro p hp
  have hp' : p.map Prod.fst = int_range 1 (1 + p.length - 1) ∧
      ∀ x ∈ p, x.2 = 1 ∨ x.2 = -1 := by
    rcases List.mem_append.1 hp with hp | hp
    · exact tree_paths_of_shape _ 1 (-1) (Or.inr rfl) h1 p hp
    · exact tree_paths_of_shape _ 1 1 (Or.inl rfl) h2 p hp
  have he : (1 : Int) + p.length - 1 = p.length := by omega
  rw [he] at hp'
  refine ⟨hp'.1, ?_, hp'.2⟩
  rw [hp'.1]
  exact nodup_int_range _ _

/-- C14 at the clauses `(1, 2)`, `(-1)` over two variables: the tree has the nodes
`1 = +1`, `1 = -1` and below it `2 = +1`. -/
theorem C14_path_invariant_witness :
    tree_paths (Tree.node 1 (-1) Tree.NULL (Tree.node 2 1 Tree.NULL Tree.NULL)) ++
      tree_paths (Tree.node 1 1 Tree.NULL Tree.NULL) =
        [[(1, -1)], [(1, -1), (2, 1)], [(1, 1)]] ∧
    (tree_shape 1 (-1) (Tree.node 1 (-1) Tree.NULL (Tree.node 2 1 Tree.NULL Tree.NULL)) ∧
    tree_shape 1 1 (Tree.node 1 1 Tree.NULL Tree.NULL) ∧
    ∀ p ∈ tree_paths (Tree.node 1 (-1) Tree.NULL (Tree.node 2 1 Tree.NULL Tree.NULL)) ++
        tree_paths (Tree.node 1 1 Tree.NULL Tree.NULL),
      p.map Prod.fst = int_range 1 p.length ∧ (p.map Prod.fst).Nodup ∧
      ∀ x ∈ p, x.2 = 1 ∨ x.2 = -1) :=
  ⟨rfl,
    C14_path_invariant ⟨[⟨[1, 2]⟩, ⟨[-1]⟩], 2⟩ 3 AssignNode.NULL
      ⟨true, create_node 2 1 (create_node 1 (-1) fresh_root),
        Tree.node 1 (-1) Tree.NULL (Tree.node 2 1 Tree.NULL Tree.NULL),
        Tree.node 1 1 Tree.NULL Tree.NULL⟩ (by decide)⟩

/-! ## Termination and depth -/

theorem unassigned_count_le (N : Int) (n : AssignNode) : unassigned_count N n ≤ N.toNat := by
  unfold unassigned_count
  have h := List.length_filter_le (fun x => decide (get_assignment n x = 0)) (int_range 1 N)
  rw [length_int_range] at h
  have : (N + 1 - 1).toNat = N.toNat := by congr 1; omega
  omega

theorem unassigned_count_create_node (N : Int) (n : AssignNode) (i v : Int)
    (h1 : 1 ≤ i) (h2 : i ≤ N) (h0 : get_assignment n i = 0) (hv : v ≠ 0) :
    unassigned_count N (create_node i v n) < unassigned_count N n := by
  unfold unassigned_count
  have hfilter : (int_range 1 N).filter
      (fun x => decide (get_assignment (create_node i v n) x = 0)) =
      ((int_range 1 N).filter (fun x => decide (get_assignment n x = 0))).filter
        (fun x => decide (x ≠ i)) := by
    rw [List.filter_filter]
    apply List.filter_congr
    intro x _
    rw [get_assignment_create_node]
    by_cases hix : i = x
    · subst hix; simp [hv]
    · have hxi : x ≠ i := fun h => hix h.symm
      simp [hix, hxi]
  rw [hfilter, List.length_filter_lt_length_iff_exists]
  refine ⟨i, ?_, by simp⟩
  rw [List.mem_filter]
  exact ⟨(mem_int_range 1 N i).2 ⟨h1, h2⟩, by simp [h0]⟩

theorem sat_tree_created (F : Formula) :
    ∀ (fuel : Nat) (n sol : AssignNode) (r : SatResult),
      sat_tree fuel F n sol = some r →
      binds_unassigned F.num_vars n r.left ∧ binds_unassigned F.num_vars n r.right ∧
      tree_depth r.left ≤ unassigned_count F.num_vars n ∧
      tree_depth r.right ≤ unassigned_count F.num_vars n ∧
      (r.ret = true → ∃ path : List (Int × Int), r.solution = descend n path ∧
        fresh_decisions n path ∧ path.length ≤ unassigned_count F.num_vars n) := by
  intro fuel
  induction fuel with
  | zero => intro n sol r h; simp [sat_tree] at h
  | succ fuel ih =>
    intro n sol r h
    rw [sat_tree] at h
    split at h
    · simp only [Option.some.injEq] at h; subst h
      exact ⟨trivial, trivial, Nat.zero_le _, Nat.zero_le _, fun hh => by simp at hh⟩
    · simp only [Option.some.injEq] at h; subst h
      exact ⟨trivial, trivial, Nat.zero_le _, Nat.zero_le _,
        fun _ => ⟨[], rfl, trivial, Nat.zero_le _⟩⟩
    · split at h
      · simp only [Option.some.injEq] at h; subst h
        exact ⟨trivial, trivial, Nat.zero_le _, Nat.zero_le _, fun hh => by simp at hh⟩
      · rename_i i hi
        obtain ⟨i1, i2, i3, _⟩ := first_unassigned_some n _ 1 i hi
        have hiN : i ≤ F.num_vars := by omega
        by_cases hnull : n = AssignNode.NULL
        · simp [hnull] at h
        rw [if_neg hnull] at h
        have hc1 := unassigned_count_create_node F.num_vars n i 1 i1 hiN i3 (by decide)
        have hc2 := unassigned_count_create_node F.num_vars n i (-1) i1 hiN i3 (by decide)
        split at h
        · exact Option.noConfusion h
        · rename_i r1 hr1
          obtain ⟨a1, a2, a3, a4, a5⟩ := ih _ _ r1 hr1
          have hd1 : tree_depth (Tree.node i 1 r1.left r1.right) ≤
              unassigned_count F.num_vars n := by
            simp only [tree_depth]
            have := Nat.max_le.2 ⟨a3, a4⟩
            omega
          split at h
          · rename_i hret1
            simp only [Option.some.injEq] at h; subst h
            refine ⟨trivial, ⟨i1, hiN, i3, a1, a2⟩, Nat.zero_le _, hd1, fun _ => ?_⟩
            obtain ⟨path, e1, e2, e3⟩ := a5 hret1
            exact ⟨(i, 1) :: path, e1, ⟨i3, e2⟩, by simp only [List.length_cons]; omega⟩
          · split at h
            · exact Option.noConfusion h
            · rename_i r2 hr2
              obtain ⟨b1, b2, b3, b4, b5⟩ := ih _ _ r2 hr2
              simp only [Option.some.injEq] at h; subst h
              have hd2 : tree_depth (Tree.node i (-1) r2.left r2.right) ≤
                  unassigned_count F.num_vars n := by
                simp only [tree_depth]
                have := Nat.max_le.2 ⟨b3, b4⟩
                omega
              refine ⟨⟨i1, hiN, i3, b1, b2⟩, ⟨i1, hiN, i3, a1, a2⟩, hd2, hd1, fun hret => ?_⟩
              obtain ⟨path, e1, e2, e3⟩ := b5 hret
              exact ⟨(i, -1) :: path, e1, ⟨i3, e2⟩, by simp only [List.length_cons]; omega⟩

/-- C15: termination and depth bound.  For every formula and every start node, `sat_tree`
returns with any recursion budget above `num_vars`, so its recursion depth is at most
`num_vars`.  Every node it creates binds a variable of `1..num_vars` that is unassigned at
its parent, binding such a variable strictly decreases the number of unassigned variables of
`1..num_vars`, and the created tree, as well as a returned solution node, lies at most
`num_vars` levels below the start node. -/
theorem C15_termination_and_depth (F : Formula) (n sol : AssignNode) (fuel : Nat)
    (hn : n ≠ AssignNode.NULL) (hfuel : F.num_vars.toNat < fuel) :
    (∃ r, sat_tree fuel F n sol = some r ∧
      binds_unassigned F.num_vars n r.left ∧ binds_unassigned F.num_vars n r.right ∧
      tree_depth r.left ≤ F.num_vars.toNat ∧ tree_depth r.right ≤ F.num_vars.toNat ∧
      (r.ret = true → ∃ path : List (Int × Int), r.solution = descend n path ∧
        fresh_decisions n path ∧ path.length ≤ F.num_vars.toNat)) ∧
    (∀ (m : AssignNode) (i v : Int), 1 ≤ i → i ≤ F.num_vars → get_assignment m i = 0 →
      (v = 1 ∨ v = -1) →
      unassigned_count F.num_vars (create_node i v m) < unassigned_count F.num_vars m) ∧
    unassigned_count F.num_vars n ≤ F.num_vars.toNat := by
  have hle := unassigned_count_le F.num_vars n
  refine ⟨?_, ?_, hle⟩
  · obtain ⟨r, hr⟩ := sat_tree_terminates_any F fuel n sol hn hfuel
    obtain ⟨a1, a2, a3, a4, a5⟩ := sat_tree_created F fuel n sol r hr
    refine ⟨r, hr, a1, a2, by omega, by omega, fun hret => ?_⟩
    obtain ⟨path, e1, e2, e3⟩ := a5 hret
    exact ⟨path, e1, e2, by omega⟩
  · intro m i v h1 h2 h0 hv
    exact unassigned_count_create_node F.num_vars m i v h1 h2 h0 (by omega)

/-- C15 at the clauses `(1, 2)`, `(-1)` over two variables with recursion budget 3. -/
theorem C15_termination_and_depth_witness :
    sat_tree 3 ⟨[⟨[1, 2]⟩, ⟨[-1]⟩], 2⟩ fresh_root AssignNode.NULL =
      some ⟨true, create_node 2 1 (create_node 1 (-1) fresh_root),
        Tree.node 1 (-1) Tree.NULL (Tree.node 2 1 Tree.NULL Tree.NULL),
        Tree.node 1 1 Tree.NULL Tree.NULL⟩ ∧
    ((∃ r, sat_tree 3 ⟨[⟨[1, 2]⟩, ⟨[-1]⟩], 2⟩ fresh_root AssignNode.NULL = some r ∧
      binds_unassigned 2 fresh_root r.left ∧ binds_unassigned 2 fresh_root r.right ∧
      tree_depth r.left ≤ 2 ∧ tree_depth r.right ≤ 2 ∧
      (r.ret = true → ∃ path : List (Int × Int), r.solution = descend fresh_root path ∧
        fresh_decisions fresh_root path ∧ path.length ≤ 2)) ∧
    (∀ (m : AssignNode) (i v : Int), 1 ≤ i → i ≤ 2 → get_assignment m i = 0 →
      (v = 1 ∨ v = -1) →
      unassigned_count 2 (create_node i v m) < unassigned_count 2 m) ∧
    unassigned_count 2 fresh_root ≤ 2) :=
  ⟨by decide,
    C15_termination_and_depth ⟨[⟨[1, 2]⟩, ⟨[-1]⟩], 2⟩ fresh_root AssignNode.NULL 3
      AssignNode.noConfusion (by decide)⟩

/-! ## The table of the reporter -/

theorem fill_result_farthest :
    ∀ (n : AssignNode) (res : Int → Int),
      (∀ p ∈ walked n, 0 ≤ p.1 ∧ p.1 ≤ MAX_VARS) →
      fill_result n res = some (fun x =>
        match (walked n).reverse.find? (fun p => decide (p.1 = x)) with
        | some p => p.2
        | none => res x) := by
  intro n
  induction n with
  | NULL => intro res _; rfl
  | node v value parent ih =>
    intro res hr
    by_cases hv : v = 0
    · simp [fill_result, walked, hv]
    · have hw : walked (AssignNode.node v value parent) = (v, value) :: walked parent := by
        simp [walked, hv]
      rw [hw] at hr
      have hin : 0 ≤ v ∧ v ≤ MAX_VARS := hr (v, value) (List.mem_cons_self _ _)
      have := ih (fun x => if x = v then value else res x)
        (fun p hp => hr p (List.mem_cons_of_mem _ hp))
      simp only [fill_result, if_neg hv, if_pos hin, this, hw, Option.some.injEq]
      funext x
      rw [List.reverse_cons, List.find?_append]
      cases hf : (walked parent).reverse.find? (fun p => decide (p.1 = x)) with
      | some q => rfl
      | none =>
        by_cases hxv : x = v
        · subst hxv; simp [List.find?]
        · have hvx : ¬ v = x := fun h => hxv h.symm
          simp [List.find?, hxv, hvx]

theorem walked_in_range : ∀ (n : AssignNode), binds_once_in_range n →
    ∀ p ∈ walked n, 0 ≤ p.1 ∧ p.1 ≤ MAX_VARS := by
  intro n
  induction n with
  | NULL => intro _ p hp; simp [walked] at hp
  | node v value parent ih =>
    intro hn p hp
    rcases hn with ⟨h1, _⟩ | ⟨h1, h2, _, h4⟩
    · simp [walked, h1] at hp
    · have hv : v ≠ 0 := by omega
      simp only [walked, if_neg hv, List.mem_cons] at hp
      rcases hp with rfl | hp
      · exact ⟨by omega, h2⟩
      · exact ih h4 p hp

theorem fill_result_binds_once :
    ∀ (n : AssignNode), binds_once_in_range n → ∀ res : Int → Int,
      ∃ res', fill_result n res = some res' ∧
        ∀ x, x ≠ 0 →
          ((∃ p ∈ chain n, p.1 = x) → res' x = get_assignment n x) ∧
          ((∀ p ∈ chain n, p.1 ≠ x) → res' x = res x) := by
  intro n
  induction n with
  | NULL =>
    intro _ res
    refine ⟨res, rfl, fun x _ => ⟨?_, fun _ => rfl⟩⟩
    rintro ⟨p, hp, _⟩
    simp [chain] at hp
  | node v value parent ih =>
    intro hn res
    rcases hn with ⟨h1, h2⟩ | ⟨h1, h2, h3, h4⟩
    · subst h1 h2
      refine ⟨res, by simp [fill_result], fun x hx => ⟨?_, fun _ => rfl⟩⟩
      rintro ⟨p, hp, hpx⟩
      simp only [chain, List.mem_singleton] at hp
      subst hp
      exact absurd hpx.symm hx
    · obtain ⟨res', hres, hx⟩ := ih h4 (fun x => if x = v then value else res x)
      have hv0 : v ≠ 0 := by omega
      have hin : 0 ≤ v ∧ v ≤ MAX_VARS := ⟨by omega, h2⟩
      refine ⟨res', by simp only [fill_result, if_neg hv0, if_pos hin]; exact hres, ?_⟩
      intro x hx0
      obtain ⟨ha, hb⟩ := hx x hx0
      by_cases hxv : x = v
      · subst hxv
        have hnot : ∀ p ∈ chain parent, p.1 ≠ x := h3
        constructor
        · intro _
          rw [hb hnot]
          simp [get_assignment]
        · intro hall
          exact absurd rfl (hall (x, value) (by simp [chain]))
      · have hvx : ¬ v = x := fun h => hxv h.symm
        constructor
        · rintro ⟨p, hp, hpx⟩
          simp only [chain, List.mem_cons] at hp
          rcases hp with rfl | hp
          · exact absurd hpx hvx
          · rw [ha ⟨p, hp, hpx⟩]
            simp [get_assignment, hvx]
        · intro hall
          rw [hb (fun p hp => hall p (by simp [chain, hp]))]
          simp [hxv]

theorem bound_path_chain_values (N : Int) :
    ∀ (n : AssignNode), bound_path N n →
      ∀ p ∈ chain n, p.1 = 0 ∨ p.2 = 1 ∨ p.2 = -1 := by
  intro n
  induction n with
  | NULL => intro h; exact absurd h id
  | node v value parent ih =>
    intro hn p hp
    simp only [chain, List.mem_cons] at hp
    rcases hn with ⟨h1, h2, h3⟩ | ⟨_, _, hv, _, hpar⟩
    · subst h1 h2 h3
      rcases hp with rfl | hp
      · exact Or.inl rfl
      · simp [chain] at hp
    · rcases hp with rfl | hp
      · exact Or.inr hv
      · exact ih hpar p hp

theorem binds_once_of_bound_path (N : Int) (hN : N ≤ MAX_VARS) :
    ∀ (n : AssignNode), bound_path N n → binds_once_in_range n := by
  intro n
  induction n with
  | NULL => intro _; trivial
  | node v value parent ih =>
    intro hn
    rcases hn with ⟨h1, _, h3⟩ | ⟨h1, h2, _, h0, hpar⟩
    · exact Or.inl ⟨h1, h3⟩
    · refine Or.inr ⟨h1, by omega, ?_, ih hpar⟩
      intro p hp hpv
      have hval : p.2 ≠ 0 := by
        rcases bound_path_chain_values N parent hpar p hp with h | h | h <;> omega
      have := get_assignment_of_mem_chain N parent hpar p.1 p.2 hp hval
      rw [hpv, h0] at this
      exact hval this.symm

/-- C20: the reporter and the evaluator read the same assignment.  The first loop of
`print_coloring` leaves in `result[x]` the value of the walked node farthest from the start
that binds `x`, while `get_assignment` returns the nearest one; on a chain with two bindings
of a variable the two differ.  For a node whose chain binds only variables of `1..MAX_VARS`,
each at most once, the table has `result[x] == get_assignment(node, x)` for every `x` in
`1..MAX_VARS`; every node `sat_tree` returns from the root of `main` is such a node when
`num_vars <= MAX_VARS`. -/
theorem C20_reporter_reads_same_assignment (n : AssignNode) (hn : binds_once_in_range n) :
    (∃ res, fill_result n (fun _ => 0) = some res ∧
      (∀ x, 1 ≤ x → x ≤ MAX_VARS → res x = get_assignment n x) ∧
      (∀ x, res x = farthest_binding n x)) ∧
    (∀ m : AssignNode, (∀ p ∈ walked m, 0 ≤ p.1 ∧ p.1 ≤ MAX_VARS) →
      fill_result m (fun _ => 0) = some (farthest_binding m)) ∧
    ((fill_result (create_node 1 1 (create_node 1 (-1) fresh_root)) (fun _ => 0)).map
        (fun res => res 1) = some (-1) ∧
      get_assignment (create_node 1 1 (create_node 1 (-1) fresh_root)) 1 = 1) ∧
    (∀ (F : Formula) (fuel : Nat) (sol : AssignNode) (r : SatResult),
      F.num_vars ≤ MAX_VARS → sat_tree fuel F fresh_root sol = some r → r.ret = true →
      binds_once_in_range r.solution) := by
  have hfar : ∀ m : AssignNode, (∀ p ∈ walked m, 0 ≤ p.1 ∧ p.1 ≤ MAX_VARS) →
      fill_result m (fun _ => 0) = some (farthest_binding m) := by
    intro m hm
    rw [fill_result_farthest m _ hm]
    rfl
  refine ⟨?_, hfar, ⟨rfl, rfl⟩, ?_⟩
  · obtain ⟨res, hres, hx⟩ := fill_result_binds_once n hn (fun _ => 0)
    refine ⟨res, hres, ?_, ?_⟩
    · intro x h1 _
      obtain ⟨ha, hb⟩ := hx x (by omega)
      by_cases hex : ∃ p ∈ chain n, p.1 = x
      · exact ha hex
      · have hall : ∀ p ∈ chain n, p.1 ≠ x := fun p hp hpx => hex ⟨p, hp, hpx⟩
        rw [hb hall, get_assignment_of_not_mem n x hall]
    · intro x
      have := hfar n (walked_in_range n hn)
      rw [hres] at this
      simp only [Option.some.injEq] at this
      rw [this]
  · intro F fuel sol r hN h hret
    exact binds_once_of_bound_path F.num_vars hN r.solution
      (sat_tree_solution_bound_path F fuel fresh_root sol r (bound_path_fresh_root _) h hret)

/-- C20 at the node binding 1 to false and 2 to true below the root of `main`. -/
theorem C20_reporter_reads_same_assignment_witness :
    binds_once_in_range (create_node 2 1 (create_node 1 (-1) fresh_root)) ∧
    ((∃ res, fill_result (create_node 2 1 (create_node 1 (-1) fresh_root)) (fun _ => 0) =
        some res ∧
      (∀ x, 1 ≤ x → x ≤ MAX_VARS →
        res x = get_assignment (create_node 2 1 (create_node 1 (-1) fresh_root)) x) ∧
      (∀ x, res x = farthest_binding (create_node 2 1 (create_node 1 (-1) fresh_root)) x)) ∧
    (∀ m : AssignNode, (∀ p ∈ walked m, 0 ≤ p.1 ∧ p.1 ≤ MAX_VARS) →
      fill_result m (fun _ => 0) = some (farthest_binding m)) ∧
    ((fill_result (create_node 1 1 (create_node 1 (-1) fresh_root)) (fun _ => 0)).map
        (fun res => res 1) = some (-1) ∧
      get_assignment (create_node 1 1 (create_node 1 (-1) fresh_root)) 1 = 1) ∧
    (∀ (F : Formula) (fuel : Nat) (sol : AssignNode) (r : SatResult),
      F.num_vars ≤ MAX_VARS → sat_tree fuel F fresh_root sol = some r → r.ret = true →
      binds_once_in_range r.solution)) :=
  ⟨by simp [binds_once_in_range, create_node, fresh_root, chain, MAX_VARS],
    C20_reporter_reads_same_assignment (create_node 2 1 (create_node 1 (-1) fresh_root))
      (by simp [binds_once_in_range, create_node, fresh_root, chain, MAX_VARS])⟩

/-! ## The encoder against the specification's formula -/

theorem wrap_int_eq_self (x : Int) (h1 : -2147483648 ≤ x) (h2 : x ≤ 2147483647) :
    wrap_int x = x := by
  unfold wrap_int
  omega

theorem wrap_int_neg_wrap_int (x : Int) : wrap_int (-wrap_int x) = wrap_int (-x) := by
  unfold wrap_int
  omega

/-- The three loop nests, for any way `p` of computing a positive literal and `q` of
computing a negated one, produce the three families in order. -/
theorem loops_eq_families (p q : Int → Int → Int) (V : Int) (edges : List (Int × Int))
    (K : Int) :
    edges.foldl (fun cls e =>
      for_loop 1 K (fun j cls => cls ++ [(⟨[q e.1 j, q e.2 j]⟩ : Clause)]) cls)
      (for_loop 1 V (fun i cls =>
        for_loop 1 K (fun j cls =>
          for_loop (j + 1) K (fun l cls =>
            cls ++ [(⟨[q i j, q i l]⟩ : Clause)]) cls) cls)
        (for_loop 1 V (fun i cls =>
          cls ++ [(⟨for_loop 1 K (fun j lits => lits ++ [p i j]) []⟩ : Clause)]) [])) =
    (int_range 1 V).map (fun i => (⟨(int_range 1 K).map (fun j => p i j)⟩ : Clause)) ++
      (int_range 1 V).flatMap (fun i =>
        (int_range 1 K).flatMap (fun j =>
          (int_range (j + 1) K).map (fun l => (⟨[q i j, q i l]⟩ : Clause)))) ++
      edges.flatMap (fun e =>
        (int_range 1 K).map (fun j => (⟨[q e.1 j, q e.2 j]⟩ : Clause))) := by
  have hlits : ∀ i : Int,
      for_loop 1 K (fun j lits => lits ++ [p i j]) [] = (int_range 1 K).map (fun j => p i j) := by
    intro i
    rw [for_loop_append _ (fun j => [p i j]) (fun _ _ => rfl), List.nil_append,
      flatMap_singleton_eq_map]
  have h1 : for_loop 1 V (fun i cls =>
      cls ++ [(⟨for_loop 1 K (fun j lits => lits ++ [p i j]) []⟩ : Clause)]) [] =
      (int_range 1 V).map (fun i => (⟨(int_range 1 K).map (fun j => p i j)⟩ : Clause)) := by
    rw [for_loop_append _
      (fun i => [(⟨for_loop 1 K (fun j lits => lits ++ [p i j]) []⟩ : Clause)])
      (fun _ _ => rfl), List.nil_append, flatMap_singleton_eq_map]
    apply List.map_congr_left
    intro i _
    rw [hlits i]
  have hin : ∀ (i j : Int) (cls : List Clause),
      for_loop (j + 1) K (fun l cls => cls ++ [(⟨[q i j, q i l]⟩ : Clause)]) cls =
      cls ++ (int_range (j + 1) K).map (fun l => (⟨[q i j, q i l]⟩ : Clause)) := by
    intro i j cls
    rw [for_loop_append _ (fun l => [(⟨[q i j, q i l]⟩ : Clause)]) (fun _ _ => rfl),
      flatMap_singleton_eq_map]
  have hmid : ∀ (i : Int) (cls : List Clause),
      for_loop 1 K (fun j cls =>
        for_loop (j + 1) K (fun l cls => cls ++ [(⟨[q i j, q i l]⟩ : Clause)]) cls) cls =
      cls ++ (int_range 1 K).flatMap (fun j =>
        (int_range (j + 1) K).map (fun l => (⟨[q i j, q i l]⟩ : Clause))) := by
    intro i cls
    exact for_loop_append _ _ (fun j s => hin i j s) 1 K cls
  have h2 : ∀ cls : List Clause, for_loop 1 V (fun i cls =>
      for_loop 1 K (fun j cls =>
        for_loop (j + 1) K (fun l cls => cls ++ [(⟨[q i j, q i l]⟩ : Clause)]) cls) cls)
        cls =
      cls ++ (int_range 1 V).flatMap (fun i =>
        (int_range 1 K).flatMap (fun j =>
          (int_range (j + 1) K).map (fun l => (⟨[q i j, q i l]⟩ : Clause)))) := by
    intro cls
    exact for_loop_append _ _ (fun i s => hmid i s) 1 V cls
  have h3 : ∀ cls : List Clause, edges.foldl (fun cls e =>
      for_loop 1 K (fun j cls => cls ++ [(⟨[q e.1 j, q e.2 j]⟩ : Clause)]) cls) cls =
      cls ++ edges.flatMap (fun e =>
        (int_range 1 K).map (fun j => (⟨[q e.1 j, q e.2 j]⟩ : Clause))) := by
    intro cls
    apply foldl_append_flatMap
    intro s e
    rw [for_loop_append _ (fun j => [(⟨[q e.1 j, q e.2 j]⟩ : Clause)]) (fun _ _ => rfl),
      flatMap_singleton_eq_map]
  rw [h1, h2, h3]

/-- The clause array that `graph_to_cnf` fills holds the three families of the
specification, in this order, with every literal wrapped to an `int`. -/
theorem build_clauses_eq_map (V : Int) (edges : List (Int × Int)) (K : Int) :
    build_clauses V edges K =
      (at_least_one_color V K ++ at_most_one_color V K ++ adjacent_differ edges K).map
        (fun c => (⟨c.literals.map wrap_int⟩ : Clause)) := by
  have hloops := loops_eq_families (fun i j => wrap_int (var i j K))
    (fun i j => wrap_int (-wrap_int (var i j K))) V edges K
  have hb : build_clauses V edges K = _ := hloops
  rw [hb, at_most_one_color_eq]
  unfold at_least_one_color adjacent_differ
  simp only [List.map_append, List.map_map, List.map_flatMap, Function.comp_def,
    List.map_cons, List.map_nil, wrap_int_neg_wrap_int]


theorem map_wrap_eq_self (cs : List Clause)
    (h : ∀ c ∈ cs, ∀ lit ∈ c.literals, wrap_int lit = lit) :
    cs.map (fun c => (⟨c.literals.map wrap_int⟩ : Clause)) = cs := by
  have hc : ∀ c ∈ cs, (⟨c.literals.map wrap_int⟩ : Clause) = id c := by
    intro c hc
    have hl : c.literals.map wrap_int = c.literals.map id :=
      List.map_congr_left (fun l hl => h c hc l hl)
    rw [List.map_id] at hl
    rw [hl]
    rfl
  rw [List.map_congr_left hc, List.map_id]

theorem vertex_literals_fit (V K : Int) (hK : 1 ≤ K) (hVK : V * K ≤ 2147483647) :
    ∀ c ∈ at_least_one_color V K ++ at_most_one_color V K, ∀ lit ∈ c.literals,
      wrap_int lit = lit := by
  have key : ∀ v j : Int, 1 ≤ v → v ≤ V → 1 ≤ j → j ≤ K →
      wrap_int (var v j K) = var v j K ∧ wrap_int (-var v j K) = -var v j K := by
    intro v j h1 h2 h3 h4
    have hp := var_pos v j K h1 h3 (by omega)
    have hle := var_le v j V K h2 h4 (by omega)
    exact ⟨wrap_int_eq_self _ (by omega) (by omega), wrap_int_eq_self _ (by omega) (by omega)⟩
  intro c hc lit hl
  rcases List.mem_append.1 hc with hc | hc
  · obtain ⟨v, h1, h2, rfl⟩ := (mem_at_least_one_color V K c).1 hc
    simp only [List.mem_map, mem_int_range] at hl
    obtain ⟨j, ⟨h3, h4⟩, rfl⟩ := hl
    exact (key v j h1 h2 h3 h4).1
  · obtain ⟨v, c1, c2, h1, h2, h3, h4, h5, rfl⟩ := (mem_at_most_one_color V K c).1 hc
    simp only [List.mem_cons, List.mem_singleton, List.not_mem_nil, or_false] at hl
    rcases hl with rfl | rfl
    · exact (key v c1 h1 h2 h3 (by omega)).2
    · exact (key v c2 h1 h2 (by omega) h5).2

theorem edge_literals_fit (V : Int) (edges : List (Int × Int)) (K : Int) (hK : 1 ≤ K)
    (hE : edges_in_range V edges) (hVK : V * K ≤ 2147483647) :
    ∀ c ∈ adjacent_differ edges K, ∀ lit ∈ c.literals, wrap_int lit = lit := by
  intro c hc lit hl
  obtain ⟨e, he, j, h1, h2, rfl⟩ := (mem_adjacent_differ edges K c).1 hc
  obtain ⟨⟨hu1, hu2⟩, ⟨hv1, hv2⟩⟩ := hE e he
  have pu := var_pos e.1 j K hu1 h1 (by omega)
  have lu := var_le e.1 j V K hu2 h2 (by omega)
  have pv := var_pos e.2 j K hv1 h1 (by omega)
  have lv := var_le e.2 j V K hv2 h2 (by omega)
  simp only [List.mem_cons, List.mem_singleton, List.not_mem_nil, or_false] at hl
  rcases hl with rfl | rfl
  · exact wrap_int_eq_self _ (by omega) (by omega)
  · exact wrap_int_eq_self _ (by omega) (by omega)

/-- An instance whose clauses fit the clause array has few variables: far below
`INT_MAX`. -/
theorem vars_le_of_clauses (V K : Int) (E : Nat) (hV : 0 ≤ V) (hK : 1 ≤ K)
    (hC : V + V * K * (K - 1) / 2 + (E : Int) * K ≤ MAX_CLAUSES) : V * K ≤ 1420000 := by
  have hMC : MAX_CLAUSES = 10000 := rfl
  rw [hMC] at hC
  have hKK : 0 ≤ K * (K - 1) := mul_nonneg (by omega) (by omega)
  have hprod : 0 ≤ V * K * (K - 1) := by
    rw [mul_assoc]; exact mul_nonneg hV hKK
  have hdiv : 0 ≤ V * K * (K - 1) / 2 := Int.ediv_nonneg hprod (by decide)
  have hEK : 0 ≤ (E : Int) * K := mul_nonneg (by omega) (by omega)
  have hV1 : V ≤ 10000 := by omega
  rcases eq_or_lt_of_le hV with h0 | hpos
  · rw [← h0]; norm_num
  · have ha : V * K * (K - 1) ≤ 20001 := by omega
    have hKle : K * (K - 1) ≤ V * K * (K - 1) := by
      rw [mul_assoc]
      exact le_mul_of_one_le_left hKK (by omega)
    have hK142 : K ≤ 142 := by
      by_contra hc
      have h143 : 143 ≤ K := by omega
      nlinarith
    calc V * K ≤ 10000 * 142 := mul_le_mul hV1 hK142 (by omega) (by omega)
      _ = 1420000 := by norm_num

theorem length_build_clauses (V : Int) (edges : List (Int × Int)) (K : Int) :
    ((build_clauses V edges K).length : Int) = (coloring_cnf V edges K).num_clauses := by
  rw [build_clauses_eq_map, List.length_map]
  rfl

theorem graph_to_cnf_formula_iff (V : Int) (edges : List (Int × Int)) (K : Int)
    (F : Formula) :
    graph_to_cnf (some (V, edges)) K = EncoderOutcome.formula F ↔
      (edges.length : Int) ≤ MAX_EDGES ∧
      ((build_clauses V edges K).length : Int) ≤ MAX_CLAUSES ∧
      F = ⟨build_clauses V edges K, wrap_int (V * K)⟩ := by
  unfold graph_to_cnf
  by_cases h1 : (edges.length : Int) > MAX_EDGES
  · simp only [if_pos h1]
    constructor
    · intro h; exact EncoderOutcome.noConfusion h
    · rintro ⟨h, _⟩; omega
  · by_cases h2 : ((build_clauses V edges K).length : Int) > MAX_CLAUSES
    · simp only [if_neg h1, if_pos h2]
      constructor
      · intro h; exact EncoderOutcome.noConfusion h
      · rintro ⟨_, h, _⟩; omega
    · simp only [if_neg h1, if_neg h2, EncoderOutcome.formula.injEq]
      constructor
      · intro h; exact ⟨by omega, by omega, h.symm⟩
      · rintro ⟨_, _, h⟩; exact h.symm

/-- What a normal return of `graph_to_cnf` implies, for `V >= 0` and `K >= 1`: the instance
is inside both buffers, no vertex literal has wrapped, and the formula is the three families
with the edge literals wrapped. -/
theorem graph_to_cnf_spec (V : Int) (edges : List (Int × Int)) (K : Int) (hV : 0 ≤ V)
    (hK : 1 ≤ K) (F : Formula)
    (hrun : graph_to_cnf (some (V, edges)) K = EncoderOutcome.formula F) :
    (edges.length : Int) ≤ MAX_EDGES ∧
    V + V * K * (K - 1) / 2 + (edges.length : Int) * K ≤ MAX_CLAUSES ∧
    V * K ≤ 1420000 ∧
    F.num_vars = V * K ∧
    F.clauses = at_least_one_color V K ++ at_most_one_color V K ++
      (adjacent_differ edges K).map (fun c => (⟨c.literals.map wrap_int⟩ : Clause)) := by
  obtain ⟨h1, h2, rfl⟩ := (graph_to_cnf_formula_iff V edges K F).1 hrun
  rw [length_build_clauses, num_clauses_coloring_cnf V edges K hV hK] at h2
  have hVK := vars_le_of_clauses V K edges.length hV hK h2
  have h0 : 0 ≤ V * K := mul_nonneg hV (by omega)
  refine ⟨h1, h2, hVK, wrap_int_eq_self _ (by omega) (by omega), ?_⟩
  show build_clauses V edges K = _
  rw [build_clauses_eq_map, List.map_append,
    map_wrap_eq_self _ (vertex_literals_fit V K hK (by omega))]

/-- An instance inside both buffers, with `V >= 0` and `K >= 1`, makes `graph_to_cnf` return
normally. -/
theorem graph_to_cnf_returns (V : Int) (edges : List (Int × Int)) (K : Int) (hV : 0 ≤ V)
    (hK : 1 ≤ K) (hE : (edges.length : Int) ≤ MAX_EDGES)
    (hC : V + V * K * (K - 1) / 2 + (edges.length : Int) * K ≤ MAX_CLAUSES) :
    ∃ F, graph_to_cnf (some (V, edges)) K = EncoderOutcome.formula F := by
  refine ⟨_, (graph_to_cnf_formula_iff V edges K _).2 ⟨hE, ?_, rfl⟩⟩
  rw [length_build_clauses, num_clauses_coloring_cnf V edges K hV hK]
  exact hC

theorem graph_to_cnf_eq_coloring_cnf (V : Int) (edges : List (Int × Int)) (K : Int)
    (hV : 0 ≤ V) (hK : 1 ≤ K)
    (hfit : ∀ c ∈ adjacent_differ edges K, ∀ lit ∈ c.literals, wrap_int lit = lit)
    (F : Formula) (hrun : graph_to_cnf (some (V, edges)) K = EncoderOutcome.formula F) :
    F = coloring_cnf V edges K := by
  obtain ⟨_, _, _, h4, h5⟩ := graph_to_cnf_spec V edges K hV hK F hrun
  rw [map_wrap_eq_self _ hfit] at h5
  cases F
  simp only at h4 h5
  subst h4 h5
  rfl

theorem graph_to_cnf_eq_of_in_range (V : Int) (edges : List (Int × Int)) (K : Int)
    (hV : 0 ≤ V) (hK : 1 ≤ K) (hE : edges_in_range V edges) (F : Formula)
    (hrun : graph_to_cnf (some (V, edges)) K = EncoderOutcome.formula F) :
    F = coloring_cnf V edges K := by
  obtain ⟨_, _, h3, _, _⟩ := graph_to_cnf_spec V edges K hV hK F hrun
  exact graph_to_cnf_eq_coloring_cnf V edges K hV hK
    (edge_literals_fit V edges K hK hE (by omega)) F hrun

theorem graph_to_cnf_returns_coloring_cnf (V : Int) (edges : List (Int × Int)) (K : Int)
    (hV : 0 ≤ V) (hK : 1 ≤ K) (hR : edges_in_range V edges)
    (hE : (edges.length : Int) ≤ MAX_EDGES)
    (hC : V + V * K * (K - 1) / 2 + (edges.length : Int) * K ≤ MAX_CLAUSES) :
    graph_to_cnf (some (V, edges)) K = EncoderOutcome.formula (coloring_cnf V edges K) := by
  obtain ⟨F, hF⟩ := graph_to_cnf_returns V edges K hV hK hE hC
  rw [hF, graph_to_cnf_eq_of_in_range V edges K hV hK hR F hF]

/-! ## Properties of the specification's formula used for the encoder -/

/-- On the specification's formula of a graph with `V*K <= MAX_VARS`: the reporter prints
one line per vertex with its one true colour, and adjacent vertices differ. -/
theorem reported_coloring_valid (V : Int) (edges : List (Int × Int)) (K : Int)
    (hK : 1 ≤ K) (hE : edges_in_range V edges) (hcap : V * K ≤ MAX_VARS)
    (fuel : Nat) (sol : AssignNode) (r : SatResult)
    (h : sat_tree fuel (coloring_cnf V edges K) fresh_root sol = some r)
    (hret : r.ret = true) :
    ∃ lines, print_coloring r.solution V K = some lines ∧
      lines.map Prod.fst = int_range 1 V ∧
      (∀ p ∈ lines, 1 ≤ p.2 ∧ p.2 ≤ K ∧ (var p.1 p.2 K, 1) ∈ chain r.solution ∧
        ∀ c, 1 ≤ c → c ≤ K → (var p.1 c K, 1) ∈ chain r.solution → c = p.2) ∧
      (∀ e ∈ edges, ∀ cu cv, (e.1, cu) ∈ lines → (e.2, cv) ∈ lines → cu ≠ cv) := by
  have hall := sat_tree_sound _ fuel fresh_root sol r h hret
  have hbp : bound_path (V * K) r.solution :=
    sat_tree_solution_bound_path (coloring_cnf V edges K) fuel fresh_root sol r
      (bound_path_fresh_root _) h hret
  obtain ⟨ha, hb, hc⟩ := colors_at_solution V edges K hK hE r.solution hall
  obtain ⟨res, hres, hresx⟩ := fill_result_bound_path (V * K) hcap r.solution hbp (fun _ => 0)
  have hres1 : ∀ x, res x = get_assignment r.solution x := by
    intro x
    rw [hresx x]
    by_cases h0 : get_assignment r.solution x = 0
    · rw [if_pos h0, h0]
    · rw [if_neg h0]
  have hfind : ∀ v, 1 ≤ v → v ≤ V → ∀ c, find_color res v K 1 K.toNat = some (some c) →
      1 ≤ c ∧ c ≤ K ∧ get_assignment r.solution (var v c K) = 1 := by
    intro v h1 h2 c hcf
    have hbnd : ∀ j', (1 : Int) ≤ j' → j' < 1 + (K.toNat : Int) →
        0 ≤ var v j' K ∧ var v j' K ≤ MAX_VARS := by
      intro j' g1 g2
      have p1 := var_pos v j' K h1 g1 (by omega)
      have p2 := var_le v j' V K h2 (by omega) (by omega)
      omega
    rcases find_color_spec res v K K.toNat 1 hbnd with ⟨g, _⟩ | ⟨c', g1, g2, g3, g4, _⟩
    · rw [g] at hcf; simp at hcf
    · rw [g1] at hcf
      simp only [Option.some.injEq] at hcf
      subst hcf
      exact ⟨g2, by omega, by rw [← hres1]; exact g4⟩
  have hex : ∀ v, 1 ≤ v → v < 1 + (V.toNat : Int) →
      ∃ c, find_color res v K 1 K.toNat = some (some c) := by
    intro v h1 h2
    have h2' : v ≤ V := by omega
    have hbnd : ∀ j', (1 : Int) ≤ j' → j' < 1 + (K.toNat : Int) →
        0 ≤ var v j' K ∧ var v j' K ≤ MAX_VARS := by
      intro j' g1 g2
      have p1 := var_pos v j' K h1 g1 (by omega)
      have p2 := var_le v j' V K h2' (by omega) (by omega)
      omega
    rcases find_color_spec res v K K.toNat 1 hbnd with ⟨_, g⟩ | ⟨c', g1, _⟩
    · obtain ⟨c, c1, c2, c3⟩ := ha v h1 h2'
      exact absurd (by rw [hres1]; exact c3) (g c c1 (by omega))
    · exact ⟨c', g1⟩
  obtain ⟨lines, hl1, hl2, hl3⟩ := print_loop_spec res K V.toNat 1 hex
  have hfst : lines.map Prod.fst = int_range 1 V := by
    rw [hl2]
    unfold int_range
    have : (V + 1 - 1).toNat = V.toNat := by congr 1; omega
    rw [this]
  have hmem : ∀ p ∈ lines, 1 ≤ p.1 ∧ p.1 ≤ V := by
    intro p hp
    have : p.1 ∈ lines.map Prod.fst := List.mem_map_of_mem _ hp
    rw [hfst] at this
    exact (mem_int_range 1 V p.1).1 this
  have hline : ∀ p ∈ lines,
      1 ≤ p.2 ∧ p.2 ≤ K ∧ get_assignment r.solution (var p.1 p.2 K) = 1 :=
    fun p hp => hfind p.1 (hmem p hp).1 (hmem p hp).2 p.2 (hl3 p hp)
  refine ⟨lines, by simp only [print_coloring, hres]; exact hl1, hfst, ?_, ?_⟩
  · intro p hp
    obtain ⟨g1, g2, g3⟩ := hline p hp
    refine ⟨g1, g2, mem_chain_of_get_assignment _ _ _ g3 (by decide), ?_⟩
    intro c c1 c2 c3
    exact hb p.1 c p.2 (hmem p hp).1 (hmem p hp).2 c1 c2 g1 g2
      (get_assignment_of_mem_chain _ _ hbp _ _ c3 (by decide)) g3
  · intro e he cu cv hu hv heq
    obtain ⟨g1, g2, g3⟩ := hline _ hu
    obtain ⟨_, _, g6⟩ := hline _ hv
    subst heq
    exact hc e he cu g1 g2 ⟨g3, g6⟩

theorem coloring_cnf_sizes (V : Int) (edges : List (Int × Int)) (K : Int) (hK : 1 ≤ K) :
    ∀ c ∈ (coloring_cnf V edges K).clauses,
      (c.size = K ∨ c.size = 2) ∧ c.size ≠ 0 ∧ c.literals ≠ [] := by
  intro c hc
  have hsz : c.size = K ∨ c.size = 2 := by
    rcases (mem_coloring_cnf V edges K c).1 hc with
      ⟨v, _, _, rfl⟩ | ⟨v, c1, c2, _, _, _, _, _, rfl⟩ | ⟨e, _, j, _, _, rfl⟩
    · left
      unfold Clause.size
      rw [List.length_map, length_int_range]
      omega
    · right; rfl
    · right; rfl
  have hne : c.size ≠ 0 := by rcases hsz with h | h <;> omega
  refine ⟨hsz, hne, ?_⟩
  intro hnil
  apply hne
  unfold Clause.size
  rw [hnil]
  rfl

/-! ## The encoder, the verdict and the report -/

/-- C9: for `V >= 0`, `K >= 1` and every edge list, the formula that `graph_to_cnf` returns
has `num_vars = V*K` and exactly the three clause families, in the order at-least-one,
at-most-one (colour pairs `c1 < c2`, `c1` outer), adjacent-differ (edges in input order, its
literals being the `int` values of `-var(u,c)` and `-var(v,c)`, which are the exact ones
when they fit an `int`, as for endpoints in `[1, V]`), so that
`num_clauses = V + V*K*(K-1)/2 + E*K`; and `graph_to_cnf` does return a formula when the
instance is inside its edge array and its clause array. -/
theorem C9_encoder_output (V : Int) (edges : List (Int × Int)) (K : Int)
    (hV : 0 ≤ V) (hK : 1 ≤ K) :
    (∀ F, graph_to_cnf (some (V, edges)) K = EncoderOutcome.formula F →
      F.num_vars = V * K ∧
      F.clauses = at_least_one_color V K ++ at_most_one_color V K ++
        (adjacent_differ edges K).map (fun c => (⟨c.literals.map wrap_int⟩ : Clause)) ∧
      ((∀ c ∈ adjacent_differ edges K, ∀ lit ∈ c.literals, wrap_int lit = lit) →
        F.clauses =
          at_least_one_color V K ++ at_most_one_color V K ++ adjacent_differ edges K) ∧
      (edges_in_range V edges →
        F.clauses =
          at_least_one_color V K ++ at_most_one_color V K ++ adjacent_differ edges K) ∧
      F.num_clauses = V + V * K * (K - 1) / 2 + (edges.length : Int) * K) ∧
    ((edges.length : Int) ≤ MAX_EDGES →
      V + V * K * (K - 1) / 2 + (edges.length : Int) * K ≤ MAX_CLAUSES →
      ∃ F, graph_to_cnf (some (V, edges)) K = EncoderOutcome.formula F) := by
  refine ⟨?_, graph_to_cnf_returns V edges K hV hK⟩
  intro F hrun
  obtain ⟨_, _, h3, h4, h5⟩ := graph_to_cnf_spec V edges K hV hK F hrun
  refine ⟨h4, h5, ?_, ?_, ?_⟩
  · intro hfit
    rw [h5, map_wrap_eq_self _ hfit]
  · intro hE
    rw [h5, map_wrap_eq_self _ (edge_literals_fit V edges K hK hE (by omega))]
  · rw [← num_clauses_coloring_cnf V edges K hV hK]
    unfold Formula.num_clauses
    rw [h5, coloring_cnf_clauses]
    simp only [List.length_append, List.length_map]

/-- C9 on the triangle with two colours: 6 variables and the 3 + 3 + 6 clauses listed. -/
theorem C9_encoder_output_witness :
    graph_to_cnf (some (3, [(1, 2), (2, 3), (1, 3)])) 2 =
      EncoderOutcome.formula
        ⟨[⟨[1, 2]⟩, ⟨[3, 4]⟩, ⟨[5, 6]⟩, ⟨[-1, -2]⟩, ⟨[-3, -4]⟩, ⟨[-5, -6]⟩,
          ⟨[-1, -3]⟩, ⟨[-2, -4]⟩, ⟨[-3, -5]⟩, ⟨[-4, -6]⟩, ⟨[-1, -5]⟩, ⟨[-2, -6]⟩], 6⟩ ∧
    at_least_one_color 3 2 ++ at_most_one_color 3 2 ++
        adjacent_differ [(1, 2), (2, 3), (1, 3)] 2 =
      [⟨[1, 2]⟩, ⟨[3, 4]⟩, ⟨[5, 6]⟩, ⟨[-1, -2]⟩, ⟨[-3, -4]⟩, ⟨[-5, -6]⟩,
        ⟨[-1, -3]⟩, ⟨[-2, -4]⟩, ⟨[-3, -5]⟩, ⟨[-4, -6]⟩, ⟨[-1, -5]⟩, ⟨[-2, -6]⟩] ∧
    ((∀ F, graph_to_cnf (some (3, [(1, 2), (2, 3), (1, 3)])) 2 = EncoderOutcome.formula F →
      F.num_vars = 3 * 2 ∧
      F.clauses = at_least_one_color 3 2 ++ at_most_one_color 3 2 ++
        (adjacent_differ [(1, 2), (2, 3), (1, 3)] 2).map
          (fun c => (⟨c.literals.map wrap_int⟩ : Clause)) ∧
      ((∀ c ∈ adjacent_differ [(1, 2), (2, 3), (1, 3)] 2, ∀ lit ∈ c.literals,
          wrap_int lit = lit) →
        F.clauses = at_least_one_color 3 2 ++ at_most_one_color 3 2 ++
          adjacent_differ [(1, 2), (2, 3), (1, 3)] 2) ∧
      (edges_in_range 3 [(1, 2), (2, 3), (1, 3)] →
        F.clauses = at_least_one_color 3 2 ++ at_most_one_color 3 2 ++
          adjacent_differ [(1, 2), (2, 3), (1, 3)] 2) ∧
      F.num_clauses =
        3 + 3 * 2 * (2 - 1) / 2 +
          (([(1, 2), (2, 3), (1, 3)] : List (Int × Int)).length : Int) * 2) ∧
    (((([(1, 2), (2, 3), (1, 3)] : List (Int × Int)).length : Int) ≤ MAX_EDGES →
      3 + 3 * 2 * (2 - 1) / 2 +
          (([(1, 2), (2, 3), (1, 3)] : List (Int × Int)).length : Int) * 2 ≤ MAX_CLAUSES →
      ∃ F, graph_to_cnf (some (3, [(1, 2), (2, 3), (1, 3)])) 2 =
        EncoderOutcome.formula F))) :=
  ⟨by decide, by decide, C9_encoder_output 3 [(1, 2), (2, 3), (1, 3)] 2 (by decide) (by decide)⟩

/-- C18: for `V >= 0`, `K >= 1` and edges with endpoints in `[1, V]`, the formula that
`graph_to_cnf` returns has `num_vars = V*K`, every literal non-zero with magnitude in
`[1, num_vars]`, and no empty clause: every clause has size `K` or size 2. -/
theorem C18_encoder_invariants (V : Int) (edges : List (Int × Int)) (K : Int)
    (hV : 0 ≤ V) (hK : 1 ≤ K) (hE : edges_in_range V edges) (F : Formula)
    (hrun : graph_to_cnf (some (V, edges)) K = EncoderOutcome.formula F) :
    F.num_vars = V * K ∧
    (∀ c ∈ F.clauses, ∀ lit ∈ c.literals,
      lit ≠ 0 ∧ 1 ≤ (lit.natAbs : Int) ∧ (lit.natAbs : Int) ≤ F.num_vars) ∧
    (∀ c ∈ F.clauses, (c.size = K ∨ c.size = 2) ∧ c.size ≠ 0 ∧ c.literals ≠ []) := by
  have hF := graph_to_cnf_eq_of_in_range V edges K hV hK hE F hrun
  subst hF
  exact ⟨rfl, formula_inv_coloring_cnf V edges K hK hE, coloring_cnf_sizes V edges K hK⟩

/-- C18 on the triangle with two colours. -/
theorem C18_encoder_invariants_witness :
    edges_in_range 3 [(1, 2), (2, 3), (1, 3)] ∧
    graph_to_cnf (some (3, [(1, 2), (2, 3), (1, 3)])) 2 =
      EncoderOutcome.formula
        ⟨[⟨[1, 2]⟩, ⟨[3, 4]⟩, ⟨[5, 6]⟩, ⟨[-1, -2]⟩, ⟨[-3, -4]⟩, ⟨[-5, -6]⟩,
          ⟨[-1, -3]⟩, ⟨[-2, -4]⟩, ⟨[-3, -5]⟩, ⟨[-4, -6]⟩, ⟨[-1, -5]⟩, ⟨[-2, -6]⟩], 6⟩ ∧
    ((6 : Int) = 3 * 2 ∧
    (∀ c ∈ [(⟨[1, 2]⟩ : Clause), ⟨[3, 4]⟩, ⟨[5, 6]⟩, ⟨[-1, -2]⟩, ⟨[-3, -4]⟩, ⟨[-5, -6]⟩,
          ⟨[-1, -3]⟩, ⟨[-2, -4]⟩, ⟨[-3, -5]⟩, ⟨[-4, -6]⟩, ⟨[-1, -5]⟩, ⟨[-2, -6]⟩],
      ∀ lit ∈ c.literals,
        lit ≠ 0 ∧ 1 ≤ (lit.natAbs : Int) ∧ (lit.natAbs : Int) ≤ 6) ∧
    (∀ c ∈ [(⟨[1, 2]⟩ : Clause), ⟨[3, 4]⟩, ⟨[5, 6]⟩, ⟨[-1, -2]⟩, ⟨[-3, -4]⟩, ⟨[-5, -6]⟩,
          ⟨[-1, -3]⟩, ⟨[-2, -4]⟩, ⟨[-3, -5]⟩, ⟨[-4, -6]⟩, ⟨[-1, -5]⟩, ⟨[-2, -6]⟩],
      (c.size = 2 ∨ c.size = 2) ∧ c.size ≠ 0 ∧ c.literals ≠ [])) :=
  ⟨by simp [edges_in_range], by decide,
    C18_encoder_invariants 3 [(1, 2), (2, 3), (1, 3)] 2 (by decide) (by decide)
      (by simp [edges_in_range])
      ⟨[⟨[1, 2]⟩, ⟨[3, 4]⟩, ⟨[5, 6]⟩, ⟨[-1, -2]⟩, ⟨[-3, -4]⟩, ⟨[-5, -6]⟩,
        ⟨[-1, -3]⟩, ⟨[-2, -4]⟩, ⟨[-3, -5]⟩, ⟨[-4, -6]⟩, ⟨[-1, -5]⟩, ⟨[-2, -6]⟩], 6⟩
      (by decide)⟩

/-- C3: for `V >= 0`, `K >= 1` and edges with endpoints in `[1, V]`, `sat_tree` from the root
of `main` on the formula that `graph_to_cnf` returns does return (any recursion budget above
`num_vars` is enough), and it returns true exactly when the graph has a proper
`K`-colouring; on the encoder's formulas for the triangle with two colours and for the
single edge with one colour it returns false. -/
theorem C3_end_to_end_verdict (V : Int) (edges : List (Int × Int)) (K : Int)
    (hV : 0 ≤ V) (hK : 1 ≤ K) (hE : edges_in_range V edges) (F : Formula)
    (hrun : graph_to_cnf (some (V, edges)) K = EncoderOutcome.formula F)
    (fuel : Nat) (sol : AssignNode) (hfuel : F.num_vars.toNat < fuel) :
    (∃ r, sat_tree fuel F fresh_root sol = some r ∧
      (r.ret = true ↔ ∃ col : Int → Int, proper_coloring V edges K col)) ∧
    (∃ F2, graph_to_cnf (some (3, [(1, 2), (2, 3), (1, 3)])) 2 = EncoderOutcome.formula F2 ∧
      (sat_tree 7 F2 fresh_root sol).map (fun r => (r.ret, r.solution)) =
        some (false, sol)) ∧
    (∃ F1, graph_to_cnf (some (2, [(1, 2)])) 1 = EncoderOutcome.formula F1 ∧
      (sat_tree 3 F1 fresh_root sol).map (fun r => (r.ret, r.solution)) =
        some (false, sol)) := by
  refine ⟨?_, ⟨_, rfl, rfl⟩, ⟨_, rfl, rfl⟩⟩
  have hF := graph_to_cnf_eq_of_in_range V edges K hV hK hE F hrun
  subst hF
  obtain ⟨r, hr⟩ := sat_tree_terminates_any (coloring_cnf V edges K) fuel fresh_root sol
    AssignNode.noConfusion hfuel
  refine ⟨r, hr, ?_⟩
  rw [sat_tree_complete _ (formula_inv_coloring_cnf V edges K hK hE) fuel fresh_root sol r
    ternary_fresh_root hr]
  constructor
  · rintro ⟨α, _, hs⟩
    exact coloring_of_satisfies V edges K hK hE α hs
  · rintro ⟨col, hcol⟩
    obtain ⟨α, hs⟩ := satisfies_of_coloring V edges K hK hE col hcol
    exact ⟨α, agrees_fresh_root α, hs⟩

/-- C3 on the triangle with three colours, which has a proper colouring. -/
theorem C3_end_to_end_verdict_witness :
    edges_in_range 3 [(1, 2), (2, 3), (1, 3)] ∧
    graph_to_cnf (some (3, [(1, 2), (2, 3), (1, 3)])) 3 =
      EncoderOutcome.formula (coloring_cnf 3 [(1, 2), (2, 3), (1, 3)] 3) ∧
    ((∃ r, sat_tree 10 (coloring_cnf 3 [(1, 2), (2, 3), (1, 3)] 3) fresh_root
        AssignNode.NULL = some r ∧
      (r.ret = true ↔
        ∃ col : Int → Int, proper_coloring 3 [(1, 2), (2, 3), (1, 3)] 3 col)) ∧
    (∃ F2, graph_to_cnf (some (3, [(1, 2), (2, 3), (1, 3)])) 2 = EncoderOutcome.formula F2 ∧
      (sat_tree 7 F2 fresh_root AssignNode.NULL).map (fun r => (r.ret, r.solution)) =
        some (false, AssignNode.NULL)) ∧
    (∃ F1, graph_to_cnf (some (2, [(1, 2)])) 1 = EncoderOutcome.formula F1 ∧
      (sat_tree 3 F1 fresh_root AssignNode.NULL).map (fun r => (r.ret, r.solution)) =
        some (false, AssignNode.NULL))) :=
  ⟨by simp [edges_in_range], by decide,
    C3_end_to_end_verdict 3 [(1, 2), (2, 3), (1, 3)] 3 (by decide) (by decide)
      (by simp [edges_in_range]) (coloring_cnf 3 [(1, 2), (2, 3), (1, 3)] 3) (by decide)
      10 AssignNode.NULL (by decide)⟩

/-- C4: for `V >= 0`, `K >= 1`, edges with endpoints in `[1, V]` and `V*K <= MAX_VARS`, when
`sat_tree` from the root of `main` on the formula that `graph_to_cnf` returns gives true
with node `s`, `print_coloring(s, V, K)` stays inside its table and prints exactly one line
for each vertex `1..V`, in increasing vertex order, with a colour in `1..K`; the printed
colour of a vertex is the only colour whose variable is bound true on the chain of `s`; and
the two endpoints of every edge are printed with different colours. -/
theorem C4_reported_coloring_valid (V : Int) (edges : List (Int × Int)) (K : Int)
    (hV : 0 ≤ V) (hK : 1 ≤ K) (hE : edges_in_range V edges) (hcap : V * K ≤ MAX_VARS)
    (F : Formula) (hrun : graph_to_cnf (some (V, edges)) K = EncoderOutcome.formula F)
    (fuel : Nat) (sol : AssignNode) (r : SatResult)
    (h : sat_tree fuel F fresh_root sol = some r) (hret : r.ret = true) :
    ∃ lines, print_coloring r.solution V K = some lines ∧
      lines.map Prod.fst = int_range 1 V ∧
      (∀ p ∈ lines, 1 ≤ p.2 ∧ p.2 ≤ K ∧ (var p.1 p.2 K, 1) ∈ chain r.solution ∧
        ∀ c, 1 ≤ c → c ≤ K → (var p.1 c K, 1) ∈ chain r.solution → c = p.2) ∧
      (∀ e ∈ edges, ∀ cu cv, (e.1, cu) ∈ lines → (e.2, cv) ∈ lines → cu ≠ cv) := by
  have hF := graph_to_cnf_eq_of_in_range V edges K hV hK hE F hrun
  subst hF
  exact reported_coloring_valid V edges K hK hE hcap fuel sol r h hret

/-- C4 on the single edge between two vertices with two colours: the encoder returns the
formula, the search returns true and the reporter prints colour 1 for vertex 1 and colour 2
for vertex 2. -/
theorem C4_reported_coloring_valid_witness :
    graph_to_cnf (some (2, [(1, 2)])) 2 =
      EncoderOutcome.formula
        ⟨[⟨[1, 2]⟩, ⟨[3, 4]⟩, ⟨[-1, -2]⟩, ⟨[-3, -4]⟩, ⟨[-1, -3]⟩, ⟨[-2, -4]⟩], 4⟩ ∧
    print_coloring (create_node 4 1 (create_node 3 (-1) (create_node 2 (-1)
      (create_node 1 1 fresh_root)))) 2 2 = some [(1, 1), (2, 2)] ∧
    ∃ lines, print_coloring (create_node 4 1 (create_node 3 (-1) (create_node 2 (-1)
        (create_node 1 1 fresh_root)))) 2 2 = some lines ∧
      lines.map Prod.fst = int_range 1 2 ∧
      (∀ p ∈ lines, 1 ≤ p.2 ∧ p.2 ≤ 2 ∧
        (var p.1 p.2 2, 1) ∈ chain (create_node 4 1 (create_node 3 (-1) (create_node 2 (-1)
          (create_node 1 1 fresh_root)))) ∧
        ∀ c, 1 ≤ c → c ≤ 2 →
          (var p.1 c 2, 1) ∈ chain (create_node 4 1 (create_node 3 (-1) (create_node 2 (-1)
            (create_node 1 1 fresh_root)))) → c = p.2) ∧
      (∀ e ∈ [((1 : Int), (2 : Int))], ∀ cu cv, (e.1, cu) ∈ lines → (e.2, cv) ∈ lines →
        cu ≠ cv) :=
  ⟨by decide, by decide,
    C4_reported_coloring_valid 2 [(1, 2)] 2 (by decide) (by decide)
      (by simp [edges_in_range]) (by decide)
      ⟨[⟨[1, 2]⟩, ⟨[3, 4]⟩, ⟨[-1, -2]⟩, ⟨[-3, -4]⟩, ⟨[-1, -3]⟩, ⟨[-2, -4]⟩], 4⟩ (by decide)
      5 AssignNode.NULL
      ⟨true, create_node 4 1 (create_node 3 (-1) (create_node 2 (-1)
          (create_node 1 1 fresh_root))), Tree.NULL,
        Tree.node 1 1
          (Tree.node 2 (-1)
            (Tree.node 3 (-1) Tree.NULL (Tree.node 4 1 Tree.NULL Tree.NULL))
            (Tree.node 3 1 Tree.NULL Tree.NULL))
          (Tree.node 2 1 Tree.NULL Tree.NULL)⟩
      (by decide) rfl⟩

/-- C12: on the triangle with three colours `graph_to_cnf` returns a formula, `sat_tree` from
the root of `main` on it returns true (any recursion budget from 10 on), and
`print_coloring` on the returned node prints colour 1 for vertex 1, colour 2 for vertex 2
and colour 3 for vertex 3: one colour of `1..3` per vertex, pairwise distinct. -/
theorem C12_scenario_triangle_three_colors (fuel : Nat) (hfuel : 10 ≤ fuel)
    (sol : AssignNode) :
    ∃ F, graph_to_cnf (some (3, [(1, 2), (2, 3), (1, 3)])) 3 = EncoderOutcome.formula F ∧
      ∃ r, sat_tree fuel F fresh_root sol = some r ∧
        r.ret = true ∧
        print_coloring r.solution 3 3 = some [(1, 1), (2, 2), (3, 3)] := by
  have h10 : ∃ r, sat_tree 10 (coloring_cnf 3 [(1, 2), (2, 3), (1, 3)] 3) fresh_root sol =
      some r ∧ r.ret = true ∧ print_coloring r.solution 3 3 = some [(1, 1), (2, 2), (3, 3)] :=
    ⟨_, rfl, rfl, rfl⟩
  obtain ⟨r, h1, h2, h3⟩ := h10
  exact ⟨coloring_cnf 3 [(1, 2), (2, 3), (1, 3)] 3, by decide, r,
    sat_tree_fuel_le _ 10 fuel _ _ r hfuel h1, h2, h3⟩

/-- C12 with recursion budget 10. -/
theorem C12_scenario_triangle_three_colors_witness :
    ∃ F, graph_to_cnf (some (3, [(1, 2), (2, 3), (1, 3)])) 3 = EncoderOutcome.formula F ∧
      ∃ r, sat_tree 10 F fresh_root AssignNode.NULL = some r ∧
        r.ret = true ∧
        print_coloring r.solution 3 3 = some [(1, 1), (2, 2), (3, 3)] :=
  C12_scenario_triangle_three_colors 10 (le_refl _) AssignNode.NULL

/-! ## Capacities -/

/-- C10, as stated, fails: an instance with 101 vertices (more than `MAX_VERTICES`), no edge
and one colour, which is inside every buffer (no edge, 101 variables, 101 clauses), is not
rejected; `graph_to_cnf` returns normally with the formula of 101 variables and 101
clauses. -/
theorem C10_counterexample_vertex_count :
    (101 : Int) > MAX_VERTICES ∧
    (([] : List (Int × Int)).length : Int) ≤ MAX_EDGES ∧
    (101 : Int) * 1 ≤ MAX_VARS ∧
    graph_to_cnf (some (101, [])) 1 ≠ EncoderOutcome.fatal ∧
    graph_to_cnf (some (101, [])) 1 = EncoderOutcome.formula (coloring_cnf 101 [] 1) ∧
    (coloring_cnf 101 [] 1).num_vars = 101 ∧
    (coloring_cnf 101 [] 1).num_clauses = 101 := by
  have hrun := graph_to_cnf_returns_coloring_cnf 101 [] 1 (by decide) (by decide)
    (by simp [edges_in_range]) (by decide) (by decide)
  refine ⟨by decide, by decide, by decide, ?_, hrun, rfl, ?_⟩
  · rw [hrun]
    exact EncoderOutcome.noConfusion
  · rw [num_clauses_coloring_cnf 101 [] 1 (by decide) (by decide)]
    decide

/-- Past either buffer, with `V >= 0` and `K >= 1`, the run of `graph_to_cnf` ends in a store
outside the buffer. -/
theorem graph_to_cnf_overrun (V : Int) (edges : List (Int × Int)) (K : Int) (hV : 0 ≤ V)
    (hK : 1 ≤ K)
    (h : (edges.length : Int) > MAX_EDGES ∨
      V + V * K * (K - 1) / 2 + (edges.length : Int) * K > MAX_CLAUSES) :
    graph_to_cnf (some (V, edges)) K = EncoderOutcome.overrun := by
  unfold graph_to_cnf
  by_cases h1 : (edges.length : Int) > MAX_EDGES
  · simp only [if_pos h1]
  · have h2 : ((build_clauses V edges K).length : Int) > MAX_CLAUSES := by
      rw [length_build_clauses, num_clauses_coloring_cnf V edges K hV hK]
      rcases h with h | h
      · exact absurd h h1
      · exact h
    simp only [if_neg h1, if_pos h2]

/-- C10, amended: the vertex count is no capacity of the code.  An instance with `V >= 0` and
`K >= 1` that is inside the three capacities behind which a buffer stands (at most
`MAX_EDGES` edges, at most `MAX_VARS` variables, at most `MAX_CLAUSES` clauses) makes
`graph_to_cnf` return normally, whatever its vertex count is, with a formula of `V*K`
variables and `V + V*K*(K-1)/2 + E*K` clauses, both inside those capacities; the fatal exit
is taken when the file cannot be opened. -/
theorem C10_vertex_count_not_limited (V : Int) (edges : List (Int × Int)) (K : Int)
    (hV : 0 ≤ V) (hK : 1 ≤ K)
    (hE : (edges.length : Int) ≤ MAX_EDGES) (hN : V * K ≤ MAX_VARS)
    (hC : V + V * K * (K - 1) / 2 + (edges.length : Int) * K ≤ MAX_CLAUSES) :
    (∃ F, graph_to_cnf (some (V, edges)) K = EncoderOutcome.formula F ∧
      F.num_vars = V * K ∧ F.num_vars ≤ MAX_VARS ∧
      F.num_clauses = V + V * K * (K - 1) / 2 + (edges.length : Int) * K ∧
      F.num_clauses ≤ MAX_CLAUSES) ∧
    graph_to_cnf none K = EncoderOutcome.fatal := by
  refine ⟨?_, rfl⟩
  obtain ⟨F, hF⟩ := graph_to_cnf_returns V edges K hV hK hE hC
  obtain ⟨_, _, _, h4, h5⟩ := graph_to_cnf_spec V edges K hV hK F hF
  have hcount : F.num_clauses = V + V * K * (K - 1) / 2 + (edges.length : Int) * K := by
    rw [← num_clauses_coloring_cnf V edges K hV hK]
    unfold Formula.num_clauses
    rw [h5, coloring_cnf_clauses]
    simp only [List.length_append, List.length_map]
  exact ⟨F, hF, h4, by rw [h4]; exact hN, hcount, by rw [hcount]; exact hC⟩

/-- C10 amended, at 150 vertices (more than `MAX_VERTICES`) and 2 colours without edges: 300
variables and 300 clauses, and a formula is returned. -/
theorem C10_vertex_count_not_limited_witness :
    (150 : Int) > MAX_VERTICES ∧
    ((∃ F, graph_to_cnf (some (150, [])) 2 = EncoderOutcome.formula F ∧
      F.num_vars = 150 * 2 ∧ F.num_vars ≤ MAX_VARS ∧
      F.num_clauses =
        150 + 150 * 2 * (2 - 1) / 2 + (([] : List (Int × Int)).length : Int) * 2 ∧
      F.num_clauses ≤ MAX_CLAUSES) ∧
    graph_to_cnf none 2 = EncoderOutcome.fatal) :=
  ⟨by decide,
    C10_vertex_count_not_limited 150 [] 2 (by decide) (by decide)
      (by decide) (by decide) (by decide)⟩

/-- An endpoint outside `[1, V]` whose variable number does not fit an `int`: at one vertex,
two colours and the edge `(1073741825, 1)` the stored literals are the wrapped values. -/
theorem graph_to_cnf_wrapped_endpoint :
    graph_to_cnf (some (1, [(1073741825, 1)])) 2 =
      EncoderOutcome.formula
        ⟨[⟨[1, 2]⟩, ⟨[-1, -2]⟩, ⟨[2147483647, -1]⟩, ⟨[2147483646, -2]⟩], 2⟩ := by
  decide

/-- One vertex with 142 colours needs 10012 clause slots, and 1001 edges need 1001 edge
slots: both runs leave their buffer. -/
theorem graph_to_cnf_overrun_examples :
    graph_to_cnf (some (1, [])) 142 = EncoderOutcome.overrun ∧
    graph_to_cnf (some (2, List.replicate 1001 (1, 2))) 1 = EncoderOutcome.overrun :=
  ⟨graph_to_cnf_overrun 1 [] 142 (by decide) (by decide) (Or.inr (by decide)),
    graph_to_cnf_overrun 2 (List.replicate 1001 (1, 2)) 1 (by decide) (by decide)
      (Or.inl (by rw [List.length_replicate]; decide))⟩

end SatSolver2
